import Mathlib

/-! Skype Call Recorder: verification of `call.cpp`.

A shallow embedding of the stream synchronisation, mixing and call tracking
code of `call.cpp`, followed by the properties proved about it. -/

/-! # Single precision arithmetic

The type `float` of `call.cpp` is IEEE 754 binary32 with round to nearest,
ties to even, every operation rounded to binary32 on its own. The operations
are modelled exactly, on integers, so that every value the code computes can
be evaluated. -/

/-- A value of the C type `float`: the finite number `m * 2 ^ e`, an infinity
or a NaN. The sign of a zero is not tracked: `getSync` only divides by
`(float)size`, which is never a negative zero, and only compares, roots and
truncates its results. -/
inductive Binary32 where
  | finite (m : Int) (e : Int)
  | infinite (negative : Bool)
  | nan
deriving Repr, DecidableEq

namespace Binary32

/-- The power of two `2 ^ max e 0`. -/
def pow2 (e : Int) : Nat := 2 ^ e.toNat

/-- Floor of the binary logarithm by repeated halving, at most `fuel` times. -/
def log2Fuel : Nat → Nat → Nat
  | 0, _ => 0
  | fuel + 1, n => if n < 2 then 0 else log2Fuel fuel (n / 2) + 1

/-- Floor of the binary logarithm of a positive natural number. -/
def log2 (n : Nat) : Nat := log2Fuel n n

/-- Floor of the binary logarithm of the positive fraction `num / den`. -/
def exponent (num den : Nat) : Int :=
  let e0 : Int := (log2 num : Int) - (log2 den : Int)
  if den * pow2 e0 ≤ num * pow2 (-e0) then e0 else e0 - 1

/-- The integer nearest to `num / den`, the even one of the two at a tie. -/
def roundHalfEven (num den : Nat) : Nat :=
  let f := num / den
  let r := num % den
  if 2 * r < den then f
  else if den < 2 * r then f + 1
  else if f % 2 = 0 then f else f + 1

/-- The exponent of the last significant bit of the binary32 value nearest to
the positive fraction `num / den`: 24 significant bits, but not below the
exponent -149 of the subnormal numbers. -/
def quantum (num den : Nat) : Int :=
  max (exponent num den - 23) (-149)

/-- The significand of the binary32 value nearest to the positive fraction
`num / den`: the fraction in units of `2 ^ quantum`, rounded to the nearest
integer, ties to even. -/
def significand (num den : Nat) : Nat :=
  roundHalfEven (num * pow2 (-(quantum num den))) (den * pow2 (quantum num den))

/-- The binary32 value nearest to the fraction `num / den` (`den > 0`), with
the given sign; overflow to infinity from `2 ^ 128 - 2 ^ 103` on, that is when
the rounded value reaches `2 ^ 24 * 2 ^ 104`. -/
def round (negative : Bool) (num den : Nat) : Binary32 :=
  if num = 0 then finite 0 0
  else if 104 < quantum num den ∨ (quantum num den = 104 ∧ 2 ^ 24 ≤ significand num den) then
    infinite negative
  else
    finite (if negative then -(significand num den : Int) else (significand num den : Int))
      (quantum num den)

/-- The conversion `(float)n` of an integer. -/
def ofInt (n : Int) : Binary32 :=
  round (decide (n < 0)) n.natAbs 1

/-- The binary32 value nearest to the number `m * 2 ^ e`. -/
def roundDyadic (m e : Int) : Binary32 :=
  round (decide (m < 0)) (m.natAbs * pow2 e) (pow2 (-e))

/-- The product `x * y`. -/
def mul : Binary32 → Binary32 → Binary32
  | finite m1 e1, finite m2 e2 => roundDyadic (m1 * m2) (e1 + e2)
  | finite m _, infinite t => if m = 0 then nan else infinite (decide (m < 0) != t)
  | infinite s, finite m _ => if m = 0 then nan else infinite (s != decide (m < 0))
  | infinite s, infinite t => infinite (s != t)
  | finite _ _, nan => nan
  | infinite _, nan => nan
  | nan, _ => nan

/-- The difference `x - y`. -/
def sub : Binary32 → Binary32 → Binary32
  | finite m1 e1, finite m2 e2 =>
      roundDyadic (m1 * pow2 (e1 - e2) - m2 * pow2 (e2 - e1)) (min e1 e2)
  | finite _ _, infinite t => infinite (!t)
  | infinite s, finite _ _ => infinite s
  | infinite s, infinite t => if s = t then nan else infinite s
  | finite _ _, nan => nan
  | infinite _, nan => nan
  | nan, _ => nan

/-- The quotient `x / y`; a zero divisor counts as positive. -/
def div : Binary32 → Binary32 → Binary32
  | finite m1 e1, finite m2 e2 =>
      if m2 = 0 then (if m1 = 0 then nan else infinite (decide (m1 < 0)))
      else round (decide (m1 < 0) != decide (m2 < 0))
        (m1.natAbs * pow2 (e1 - e2)) (m2.natAbs * pow2 (e2 - e1))
  | finite _ _, infinite _ => finite 0 0
  | infinite s, finite m _ => infinite (s != decide (m < 0))
  | infinite _, infinite _ => nan
  | finite _ _, nan => nan
  | infinite _, nan => nan
  | nan, _ => nan

/-- The integer square root bit by bit: bit `k + 1` down to bit 0 is added to
`acc` whenever the square stays at most `x`. -/
def isqrtAux : Nat → Nat → Nat → Nat
  | 0, x, acc => if (acc + 1) * (acc + 1) ≤ x then acc + 1 else acc
  | k + 1, x, acc =>
      isqrtAux k x (if (acc + 2 ^ (k + 1)) * (acc + 2 ^ (k + 1)) ≤ x then acc + 2 ^ (k + 1) else acc)

/-- Floor of the square root of a natural number. -/
def isqrt (x : Nat) : Nat := isqrtAux (log2 x) x 0

/-- The function `std::sqrt` on `float`, correctly rounded. The argument
`m * 2 ^ e` is scaled by an even power of two to an integer `x` of more than
64 bits; the root lies between `isqrt x` and its successor, which is far
below the rounding step, so rounding `isqrt x` (plus one half if the root is
not exact) rounds the root. -/
def sqrt : Binary32 → Binary32
  | finite m e =>
      if m < 0 then nan
      else if m = 0 then finite 0 0
      else
        let sh : Int := if (e - 64) % 2 = 0 then 64 else 65
        let x : Nat := m.natAbs * 2 ^ sh.toNat
        let s : Nat := isqrt x
        let h : Int := (e - sh) / 2
        round false ((2 * s + (if s * s = x then 0 else 1)) * pow2 h) (2 * pow2 (-h))
  | infinite s => if s then nan else infinite false
  | nan => nan

/-- The function `std::fabs`. -/
def abs : Binary32 → Binary32
  | finite m e => finite m.natAbs e
  | infinite _ => infinite false
  | nan => nan

/-- The comparison `x < y`; false when either side is a NaN. -/
def lt : Binary32 → Binary32 → Bool
  | finite m1 e1, finite m2 e2 => decide (m1 * pow2 (e1 - e2) < m2 * pow2 (e2 - e1))
  | finite _ _, infinite t => !t
  | infinite s, finite _ _ => s
  | infinite s, infinite t => s && !t
  | finite _ _, nan => false
  | infinite _, nan => false
  | nan, _ => false

/-- The conversion `(long)x`: truncation toward zero. The conversion of an
infinity or a NaN is undefined in C++; it is given the value 0 here and is
never reached by `getSync`, whose two tests fail for such an `avg`
(`AutoSync.avg_finite_of_tests`). -/
def toLong : Binary32 → Int
  | finite m e => Int.tdiv (m * pow2 e) (pow2 (-e))
  | infinite _ => 0
  | nan => 0

/-- The rational number a finite value denotes (0 for the others). -/
def toRat : Binary32 → ℚ
  | finite m e => (m : ℚ) * (2 : ℚ) ^ e
  | infinite _ => 0
  | nan => 0

end Binary32


/-! # AutoSync: running drift estimator (call.cpp, lines 42-89)

The `float` computations of `AutoSync::getSync` are carried out in binary32,
operation by operation, as the code does. `long`/`qint64` totals are modelled
by unbounded integers (signed overflow is undefined behaviour in C++ and does
not occur for the sample counts the estimator is fed). The same computation in
exact arithmetic (`getSyncExact`) is kept beside it, for comparison. -/

/-- The estimator object: circular buffer `delays` of `size` entries, write
position `index`, running totals `sum` and `sum2`, the threshold `precision`
and the settle countdown `suppress`. -/
structure AutoSync where
  delays : List Int
  size : Nat
  index : Nat
  sum : Int
  sum2 : Int
  precision : Int
  suppress : Nat
deriving Repr, DecidableEq

namespace AutoSync

/-- Constructor `AutoSync::AutoSync(int s, long p)`: a zeroed window of `s`
entries and the countdown armed to `s`. -/
def create (s : Nat) (p : Int) : AutoSync :=
  { delays := List.replicate s 0
    size := s
    index := 0
    sum := 0
    sum2 := 0
    precision := p
    suppress := s }

/-- Method `AutoSync::add(long d)`. -/
def add (a : AutoSync) (d : Int) : AutoSync :=
  let old := a.delays.getD a.index 0
  { delays := a.delays.set a.index d
    size := a.size
    index := if a.index + 1 ≥ a.size then 0 else a.index + 1
    sum := a.sum + (d - old)
    sum2 := a.sum2 + (d * d - old * old)
    precision := a.precision
    suppress := if a.suppress ≠ 0 then a.suppress - 1 else a.suppress }

/-- The value `avg` of `getSync`: `(float)sum / (float)size`. -/
def avg (a : AutoSync) : Binary32 :=
  Binary32.div (Binary32.ofInt a.sum) (Binary32.ofInt a.size)

/-- The value `dev` of `getSync`:
`std::sqrt(((float)sum2 - (float)sum * (float)sum / (float)size) / (float)size)`. -/
def dev (a : AutoSync) : Binary32 :=
  Binary32.sqrt
    (Binary32.div
      (Binary32.sub (Binary32.ofInt a.sum2)
        (Binary32.div (Binary32.mul (Binary32.ofInt a.sum) (Binary32.ofInt a.sum))
          (Binary32.ofInt a.size)))
      (Binary32.ofInt a.size))

/-- Method `AutoSync::getSync()`. -/
def getSync (a : AutoSync) : Int :=
  if a.suppress ≠ 0 then 0
  else if Binary32.lt (Binary32.ofInt a.precision) a.avg.abs &&
      Binary32.lt a.dev (Binary32.ofInt a.precision) then
    a.avg.toLong
  else 0

/-- The quotient `sum / size` in exact arithmetic: the mean of the window. -/
def avgExact (a : AutoSync) : ℚ :=
  (a.sum : ℚ) / (a.size : ℚ)

/-- The radicand `(sum2 - sum * sum / size) / size` of `dev` in exact
arithmetic: the population variance of the window. -/
def radicandExact (a : AutoSync) : ℚ :=
  ((a.sum2 : ℚ) - (a.sum : ℚ) * (a.sum : ℚ) / (a.size : ℚ)) / (a.size : ℚ)

/-- The comparison `sqrt v < p` in exact arithmetic, decided without computing
the root: the root of a negative number does not exist (NaN, compares false),
otherwise the root is below `p` exactly when `p` is positive and
`v < p * p`. -/
def sqrtLtExact (v p : ℚ) : Bool :=
  decide (0 ≤ v) && decide (0 < p) && decide (v < p * p)

/-- Truncation toward zero of a rational number. -/
def toLong (x : ℚ) : Int :=
  if 0 ≤ x then ⌊x⌋ else ⌈x⌉

/-- What `getSync` would return if its `float` operations were exact: the two
tests and the truncation applied to the exact mean and the exact deviation of
the window. It differs from `getSync` where binary32 rounding changes the
outcome of a test or the integer part of the mean. -/
def getSyncExact (a : AutoSync) : Int :=
  if a.suppress ≠ 0 then 0
  else if |a.avgExact| > (a.precision : ℚ) ∧
      sqrtLtExact a.radicandExact (a.precision : ℚ) = true then
    toLong a.avgExact
  else 0

/-- Method `AutoSync::reset()`. -/
def reset (a : AutoSync) : AutoSync :=
  { a with suppress := a.size }

/-- The state after feeding the observations `ds` one after the other. -/
def addAll (a : AutoSync) (ds : List Int) : AutoSync :=
  ds.foldl add a

/-- Consistency of an estimator state: the window has `size ≥ 1` entries, the
write position is inside it, the running totals are the sum and the sum of
squares of the window, and the countdown does not exceed the window size. -/
def WF (a : AutoSync) : Prop :=
  a.delays.length = a.size ∧ 0 < a.size ∧ a.index < a.size ∧
  a.sum = a.delays.sum ∧ a.sum2 = (a.delays.map (fun x => x * x)).sum ∧
  a.suppress ≤ a.size

instance (a : AutoSync) : Decidable a.WF := by
  unfold WF; infer_instance

/-- The window as a record of the observations: split at the write position
into `front` and `back`, the entries of `back` followed by those of `front`
are the last `size` entries of the history, oldest first. -/
def Holds (a : AutoSync) (h : List Int) : Prop :=
  ∃ front back : List Int, a.delays = front ++ back ∧ front.length = a.index ∧
    back ++ front = h.drop (h.length - a.size) ∧ a.size ≤ h.length

end AutoSync

/-- The mean of a list of integers. -/
def listMean (xs : List Int) : ℚ :=
  (xs.sum : ℚ) / (xs.length : ℚ)

/-- The population variance of a list of integers: the mean of the squared
deviations from the mean. -/
def popVariance (xs : List Int) : ℚ :=
  (xs.map (fun (x : Int) => ((x : ℚ) - listMean xs) * ((x : ℚ) - listMean xs))).sum / (xs.length : ℚ)

/-- The estimator of a call (window `100 * 2 * 3 = 600`, precision 320) after
600 observations of a steady drift of 322 samples. -/
def steadyDrift : AutoSync :=
  (AutoSync.create 600 320).addAll (List.replicate 600 322)

/-- A settled estimator whose window holds 5001, 4999 (size 2, precision 1):
the deviation of the window is exactly 1. -/
def tieState : AutoSync :=
  (AutoSync.create 2 1).addAll [5001, 4999]

/-! # Sample buffers and mixing (call.cpp, lines 407-460)

A `QByteArray` is a list of bytes.  The code views it through a `qint16 *`:
sample `i` occupies bytes `2 * i` (low) and `2 * i + 1` (high), in two's
complement.  The `qint32` intermediate results are modelled by unbounded
integers (they are far from the 32 bit range for pan values 0..100), the
narrowing to `qint16` is modelled explicitly by `toInt16`. -/

/-- One byte of a `QByteArray`. -/
abbrev Byte := Fin 256

/-- A `QByteArray`. -/
abbrev Buffer := List Byte

/-- The narrowing conversion of an integer to `qint16` (wrap-around). -/
def toInt16 (v : Int) : Int :=
  (v + 32768) % 65536 - 32768

/-- The expression `data[i]` for `qint16 *data` viewing the buffer `b`. -/
def readSample (b : Buffer) (i : Nat) : Int :=
  let u : Nat := (b.getD (2 * i) 0).val + 256 * (b.getD (2 * i + 1) 0).val
  if u < 32768 then (u : Int) else (u : Int) - 65536

/-- The assignment `data[i] = v` for `qint16 *data` viewing the buffer `b`,
`v` being a `qint16` value. -/
def writeSample (b : Buffer) (i : Nat) (v : Int) : Buffer :=
  let u : Nat := (v % 65536).toNat
  (b.set (2 * i) ⟨u % 256, Nat.mod_lt _ (by decide)⟩).set (2 * i + 1)
    ⟨u / 256 % 256, Nat.mod_lt _ (by decide)⟩

/-- The buffer that holds the given `qint16` samples. -/
def encodeSamples (xs : List Int) : Buffer :=
  xs.foldl (fun b v => writeSample (b ++ [0, 0]) (b.length / 2) v) []

/-- The complete samples held by a buffer. -/
def samplesOf (b : Buffer) : List Int :=
  (List.range (b.length / 2)).map (readSample b)

/-- A buffer of `n` zero bytes: `QByteArray(n, 0)`; empty when `n ≤ 0`. -/
def zeroBytes (n : Int) : Buffer :=
  List.replicate n.toNat 0

/-! # Observable effects -/

/-- Effects of the code that leave the modelled state: debug lines, lines of
the sync file, calls to the encoder, dialogs and emitted signals;
`writerUseAfterDelete` marks a use of the encoder object after its deletion. -/
inductive Event where
  | debugPadLocal (samples : Int)
  | debugPadRemote (samples : Int)
  | debugSevere (seconds : Int)
  | debugConference
  | debugStartRecording
  | debugStopRecording
  | debugConnectionsClosed
  | syncLine (delta : Int) (syncAmount : Int)
  | writerOpen (stereo : Bool)
  | writerWrite (chanA : Buffer) (chanB : Buffer) (samples : Int) (flush : Bool)
  | writerClose
  | writerDelete
  | writerUseAfterDelete
  | errorBox
  | removeFile
  | askDialog
  | deleteDialog
  | listen
  | closeSockets
  | startedCall (id : Int)
  | stoppedCall (id : Int)
  | startedRecording (id : Int)
  | stoppedRecording (id : Int)
  | showLegalInformation
deriving Repr, DecidableEq

/-- What a call of `writer->write(a, b, samples, flush)` does: its result and
the two buffers as it leaves them (they are passed by reference). -/
structure WriteResult where
  success : Bool
  chanA : Buffer
  chanB : Buffer
deriving Repr, DecidableEq

/-- The encoder's `write` method; the encoders are not part of call.cpp. -/
abbrev AudioWriter := Buffer → Buffer → Int → Bool → WriteResult

/-- Answers of the collaborators of call.cpp during one event: Skype
(`getObject`, and whether the two replies to `sendWithReply` start with
`ALTER CALL`), the preferences, the encoder, and the constant
`skypeSamplingRate` of common.h. -/
structure Env where
  partnerHandle : Int → String
  partnerDispname : Int → String
  confId : Int → Int
  autoRecordYes : List String
  autoRecordAsk : List String
  autoRecordNo : List String
  autoRecordDefault : String
  outputStereo : Bool
  outputStereoMix : Int
  debugWriteSyncFile : Bool
  writerOpens : Bool
  reply1Accepted : Bool
  reply2Accepted : Bool
  writer : AudioWriter
  skypeSamplingRate : Int

/-! # Call (call.cpp, lines 91-587) -/

/-- The members of a `Call` object the code of call.cpp reads or writes.
`confirmation`, `writer` and `syncFileOpen` tell whether the dialog, the
encoder object and the sync file exist or are open; `log` collects the
observable effects in the order they happen. -/
structure Call where
  id : Int
  skypeName : String
  displayName : String
  status : String
  confID : Int
  isRecording : Bool
  shouldRecord : Int
  confirmation : Bool
  writer : Bool
  stereo : Bool
  stereoMix : Int
  syncFileOpen : Bool
  bufferLocal : Buffer
  bufferRemote : Buffer
  sync : AutoSync
  log : List Event

namespace Call

/-- The effect `e` happens. -/
def emit (c : Call) (e : Event) : Call :=
  { c with log := c.log ++ [e] }

/-- Method `Call::mixToMono(long samples)`. -/
def mixToMono (c : Call) (samples : Int) : Call :=
  { c with
    bufferLocal := (List.range samples.toNat).foldl
      (fun loc i =>
        writeSample loc i (toInt16 (Int.tdiv (readSample loc i + readSample c.bufferRemote i) 2)))
      c.bufferLocal }

/-- One iteration of the loop of `Call::mixToStereo`. -/
def mixToStereoStep (fl fr : Int) (bufs : Buffer × Buffer) (i : Nat) : Buffer × Buffer :=
  let newLocal := toInt16 (Int.tdiv (readSample bufs.1 i * fl + readSample bufs.2 i * fr + 50) 100)
  let newRemote := toInt16 (Int.tdiv (readSample bufs.1 i * fr + readSample bufs.2 i * fl + 50) 100)
  (writeSample bufs.1 i newLocal, writeSample bufs.2 i newRemote)

/-- Method `Call::mixToStereo(long samples, int pan)`. -/
def mixToStereo (c : Call) (samples : Int) (pan : Int) : Call :=
  let fl := 100 - pan
  let fr := pan
  let bufs := (List.range samples.toNat).foldl (mixToStereoStep fl fr)
    (c.bufferLocal, c.bufferRemote)
  { c with bufferLocal := bufs.1, bufferRemote := bufs.2 }

/-- Method `Call::padBuffers()`: the call afterwards and the returned number
of samples. -/
def padBuffers (c : Call) : Call × Int :=
  let l : Int := c.bufferLocal.length
  let r : Int := c.bufferRemote.length
  if l < r then
    let amount := r - l
    (({ c with bufferLocal := c.bufferLocal ++ zeroBytes amount }).emit
      (Event.debugPadLocal (Int.tdiv amount 2)), Int.tdiv r 2)
  else if l > r then
    let amount := l - r
    (({ c with bufferRemote := c.bufferRemote ++ zeroBytes amount }).emit
      (Event.debugPadRemote (Int.tdiv amount 2)), Int.tdiv l 2)
  else
    (c, Int.tdiv l 2)

/-- Method `Call::doSync(long s)`. -/
def doSync (c : Call) (s : Int) : Call :=
  if s > 0 then
    ({ c with bufferLocal := c.bufferLocal ++ zeroBytes (s * 2) }).emit (Event.debugPadLocal s)
  else
    ({ c with bufferRemote := c.bufferRemote ++ zeroBytes (s * -2) }).emit
      (Event.debugPadRemote (-s))

/-- The value `bufferLocal.size() / 2`. -/
def localSamples (c : Call) : Int :=
  Int.tdiv (c.bufferLocal.length : Int) 2

/-- The value `bufferRemote.size() / 2`. -/
def remoteSamples (c : Call) : Int :=
  Int.tdiv (c.bufferRemote.length : Int) 2

/-- The quantized correction of `tryToWrite` (lines 477-480): the value of
`syncAmount` after line 480, `sync.add(r - l)` having been called. -/
def syncAmount (c : Call) : Int :=
  Int.tdiv ((c.sync.add (c.remoteSamples - c.localSamples)).getSync) 160 * 160

/-- Lines 474-490 of `tryToWrite`: feed the estimator, apply the quantized
correction if it is not zero, write the line of the sync file. -/
def syncStep (c : Call) : Call :=
  let amount := c.syncAmount
  let c1 := { c with sync := c.sync.add (c.remoteSamples - c.localSamples) }
  let c2 := if amount ≠ 0 then
      let c3 := c1.doSync amount
      { c3 with sync := c3.sync.reset }
    else c1
  if c2.syncFileOpen then
    c2.emit (Event.syncLine (c2.remoteSamples - c2.localSamples) amount)
  else c2

/-- The call `stopRecording(false)`, lines 553-587 without the flush: the
encoder is closed and deleted, the sync file and the sockets are closed. -/
def stopRecordingNoFlush (c : Call) : Call :=
  if !c.isRecording then c
  else
    { c with
      writer := false
      syncFileOpen := false
      isRecording := false
      log := c.log ++ [Event.debugStopRecording, Event.writerClose, Event.writerDelete,
        Event.closeSockets, Event.stoppedRecording c.id] }

/-- Lines 513-530 of `tryToWrite`: mix and hand `samples` samples to the
encoder; the call afterwards and the value of `success`. -/
def writeDispatch (w : AudioWriter) (samples : Int) (flush : Bool) (c : Call) : Call × Bool :=
  if !c.stereo then
    let m := c.mixToMono samples
    let res := w m.bufferLocal [] samples flush
    let m1 := m.emit (Event.writerWrite m.bufferLocal [] samples flush)
    ({ m1 with bufferLocal := res.chanA,
               bufferRemote := m.bufferRemote.drop (samples * 2).toNat }, res.success)
  else if c.stereoMix = 0 then
    let res := w c.bufferLocal c.bufferRemote samples flush
    let m1 := c.emit (Event.writerWrite c.bufferLocal c.bufferRemote samples flush)
    ({ m1 with bufferLocal := res.chanA, bufferRemote := res.chanB }, res.success)
  else if c.stereoMix = 100 then
    let res := w c.bufferRemote c.bufferLocal samples flush
    let m1 := c.emit (Event.writerWrite c.bufferRemote c.bufferLocal samples flush)
    ({ m1 with bufferRemote := res.chanA, bufferLocal := res.chanB }, res.success)
  else
    let m := c.mixToStereo samples c.stereoMix
    let res := w m.bufferLocal m.bufferRemote samples flush
    let m1 := m.emit (Event.writerWrite m.bufferLocal m.bufferRemote samples flush)
    ({ m1 with bufferLocal := res.chanA, bufferRemote := res.chanB }, res.success)

/-- Lines 510-540 of `tryToWrite`: the write dispatch, and the end of the
recording when the write failed. -/
def writeSamples (w : AudioWriter) (samples : Int) (flush : Bool) (c : Call) : Call :=
  let p := c.writeDispatch w samples flush
  if !p.2 then
    (p.1.emit Event.errorBox).stopRecordingNoFlush
  else p.1

/-- Method `Call::tryToWrite(bool flush)`, with the encoder `w` and the
constant `skypeSamplingRate = rate`. -/
def tryToWrite (rate : Int) (w : AudioWriter) (flush : Bool) (c : Call) : Call :=
  if flush then
    let p := c.padBuffers
    p.1.writeSamples w p.2 flush
  else
    let c1 := c.syncStep
    let l := c1.localSamples
    let r := c1.remoteSamples
    if |r - l| > rate * 20 then
      let s := Int.tdiv (r - l) rate
      let p := (c1.emit (Event.debugSevere s)).padBuffers
      let c2 := { p.1 with sync := p.1.sync.reset }
      c2.writeSamples w p.2 flush
    else
      let samples := if l < r then l else r
      if samples < Int.tdiv rate 10 then c1
      else c1.writeSamples w samples flush

end Call

/-- The member initialisation of the constructor `Call::Call` (lines 93-103)
for a call with the given id, partner names and conference id. -/
def Call.init (id : Int) (skypeName displayName : String) (confID : Int) : Call :=
  { id := id
    skypeName := skypeName
    displayName := displayName
    status := "UNKNOWN"
    confID := confID
    isRecording := false
    shouldRecord := 1
    confirmation := false
    writer := false
    stereo := false
    stereoMix := 0
    syncFileOpen := false
    bufferLocal := []
    bufferRemote := []
    sync := AutoSync.create (100 * 2 * 3) 320
    log := [] }

/-- A call whose buffers hold the given samples. -/
def Call.withSamples (loc rem : List Int) : Call :=
  { Call.init 1 "echo123" "Echo" 0 with
    bufferLocal := encodeSamples loc
    bufferRemote := encodeSamples rem }

/-- Modelled from the spec: the encoders are not part of call.cpp; this is an
encoder whose `write` succeeds, "consuming exactly `sampleCount` samples from
each buffer". -/
def consumingWriter : AudioWriter :=
  fun a b samples _ =>
    { success := true
      chanA := a.drop (samples * 2).toNat
      chanB := b.drop (samples * 2).toNat }

/-- A call whose buffers hold `l` and `r` bytes. -/
def Call.withBytes (l r : Nat) : Call :=
  { Call.init 1 "echo123" "Echo" 0 with
    bufferLocal := List.replicate l 1
    bufferRemote := List.replicate r 2 }


/-- The estimator of a call (window 600, precision 320) after 599
observations of a delta of 320000 samples. -/
def driftingSync : AutoSync :=
  (AutoSync.create (100 * 2 * 3) 320).addAll (List.replicate 599 320000)

/-- A recording stereo call (pan 0) with that estimator, an empty local buffer
and 320001 samples in the remote buffer. -/
def driftingCall : Call :=
  { Call.init 1 "echo123" "Echo" 0 with
    isRecording := true
    writer := true
    stereo := true
    stereoMix := 0
    bufferRemote := List.replicate 640002 0
    sync := driftingSync }

/-! # Call state machine (call.cpp, lines 145-370 and 553-587) -/

/-- The loop of `CallHandler::isConferenceRecording` over `calls.values()`. -/
def recordingInConference (calls : List Call) (id : Int) : Bool :=
  calls.any (fun c => c.confID == id && c.isRecording)

namespace Call

/-- Method `Call::okToDelete`. -/
def okToDelete (c : Call) : Bool :=
  if c.isRecording then false
  else if c.confirmation then false
  else true

/-- Method `Call::statusActive`. -/
def statusActive (c : Call) : Bool :=
  c.status == "INPROGRESS" || c.status == "ONHOLD" || c.status == "LOCALHOLD" ||
    c.status == "REMOTEHOLD"

/-- Method `Call::statusDone`. -/
def statusDone (c : Call) : Bool :=
  c.status == "BUSY" || c.status == "CANCELLED" || c.status == "FAILED" ||
    c.status == "FINISHED" || c.status == "MISSED" || c.status == "REFUSED" ||
    c.status == "VM_FAILED"

/-- Method `Call::setShouldRecord`. -/
def setShouldRecord (env : Env) (c : Call) : Call :=
  if env.autoRecordYes.contains c.skypeName then { c with shouldRecord := 2 }
  else if env.autoRecordAsk.contains c.skypeName then { c with shouldRecord := 1 }
  else if env.autoRecordNo.contains c.skypeName then { c with shouldRecord := 0 }
  else if env.autoRecordDefault == "yes" then { c with shouldRecord := 2 }
  else if env.autoRecordDefault == "ask" then { c with shouldRecord := 1 }
  else if env.autoRecordDefault == "no" then { c with shouldRecord := 0 }
  else { c with shouldRecord := 1 }

/-- Method `Call::ask`. -/
def ask (c : Call) : Call :=
  ({ c with confirmation := true }).emit Event.askDialog

/-- Method `Call::hideConfirmation(int should)`; `confirmation` is a guarded
pointer that becomes null when the dialog is deleted. -/
def hideConfirmation (c : Call) (should : Int) : Call :=
  if c.confirmation then
    ({ c with confirmation := false, shouldRecord := should }).emit Event.deleteDialog
  else c

/-- Method `Call::confirmRecording`. -/
def confirmRecording (c : Call) : Call :=
  ({ c with shouldRecord := 2 }).emit Event.showLegalInformation

/-- Method `Call::removeFile`. -/
def removeFile (c : Call) : Call :=
  c.emit Event.removeFile

/-- Method `Call::stopRecording(bool flush)`. When the flush fails,
`tryToWrite` has already run `stopRecording(false)` (line 538), which closed
and deleted the writer and cleared `isRecording`; lines 569-572 then close and
delete the deleted object a second time, which is undefined behaviour in C++.
The model records this as `Event.writerUseAfterDelete` and goes on as if the
second close and delete had no further effect. -/
def stopRecording (rate : Int) (w : AudioWriter) (flush : Bool) (c : Call) : Call :=
  if !c.isRecording then c
  else
    let c1 := c.emit Event.debugStopRecording
    let c2 := if flush then c1.tryToWrite rate w true else c1
    { c2 with
      writer := false
      syncFileOpen := false
      isRecording := false
      log := c2.log ++ (if c2.isRecording then [] else [Event.writerUseAfterDelete]) ++
        [Event.writerClose, Event.writerDelete, Event.closeSockets,
          Event.stoppedRecording c.id] }

/-- Method `Call::denyRecording`. -/
def denyRecording (rate : Int) (w : AudioWriter) (c : Call) : Call :=
  (({ c with shouldRecord := 0 } : Call).stopRecording rate w true).removeFile

/-- Lines 302-369 of `Call::startRecording`: set up the encoder and the two
servers, redirect the audio streams, mark the call as recording. -/
def openPipeline (env : Env) (c : Call) : Call :=
  let c1 := { c with
    stereo := env.outputStereo
    stereoMix := env.outputStereoMix
    writer := true
    log := c.log ++ [Event.debugStartRecording, Event.writerOpen env.outputStereo] }
  if !env.writerOpens then
    { c1 with
      writer := false
      log := c1.log ++ [Event.errorBox, Event.removeFile, Event.writerDelete] }
  else if !env.reply1Accepted || !env.reply2Accepted then
    { c1 with
      writer := false
      log := c1.log ++ [Event.listen, Event.errorBox, Event.removeFile, Event.writerDelete] }
  else
    { c1 with
      syncFileOpen := if env.debugWriteSyncFile then true else c1.syncFileOpen
      isRecording := true
      log := c1.log ++ [Event.listen, Event.startedRecording c.id] }

/-- Method `Call::startRecording(bool force)`; `others` are the other calls
the handler tracks, so that `handler->isConferenceRecording` looks at this
call and at them. -/
def startRecording (env : Env) (others : List Call) (force : Bool) (c : Call) : Call :=
  let c1 := if force then c.hideConfirmation 2 else c
  if c1.isRecording then c1
  else if recordingInConference (c1 :: others) c1.confID then c1.emit Event.debugConference
  else if force then
    (c1.emit Event.showLegalInformation).openPipeline env
  else
    let c2 := c1.setShouldRecord env
    if c2.shouldRecord = 0 then c2
    else if c2.shouldRecord = 1 then c2.ask.openPipeline env
    else (c2.emit Event.showLegalInformation).openPipeline env

/-- Method `Call::setStatus`. -/
def setStatus (env : Env) (others : List Call) (s : String) (c : Call) : Call :=
  let wasActive := c.statusActive
  let c1 := { c with status := s }
  let nowActive := c1.statusActive
  if !wasActive && nowActive then
    (c1.emit (Event.startedCall c.id)).startRecording env others false
  else if wasActive && !nowActive then
    c1.emit (Event.stoppedCall c.id)
  else c1

/-- Method `Call::readLocal`, `data` being what the socket delivers. -/
def readLocal (env : Env) (data : Buffer) (c : Call) : Call :=
  let c1 := { c with bufferLocal := c.bufferLocal ++ data }
  if c1.isRecording then c1.tryToWrite env.skypeSamplingRate env.writer false else c1

/-- Method `Call::readRemote`, `data` being what the socket delivers. -/
def readRemote (env : Env) (data : Buffer) (c : Call) : Call :=
  let c1 := { c with bufferRemote := c.bufferRemote ++ data }
  if c1.isRecording then c1.tryToWrite env.skypeSamplingRate env.writer false else c1

/-- Method `Call::checkConnections` when both sockets are unconnected. -/
def checkConnections (env : Env) (c : Call) : Call :=
  (c.emit Event.debugConnectionsClosed).stopRecording env.skypeSamplingRate env.writer true

end Call

/-! # CallHandler (call.cpp, lines 589-711) -/

/-- The registry: `calls` is the map from call id to `Call` (its values in
ascending order of the id), `ignore` the set of forgotten ids. -/
structure CallHandler where
  calls : List Call
  ignore : List Int

namespace CallHandler

/-- The handler after its constructor. -/
def empty : CallHandler :=
  { calls := [], ignore := [] }

/-- The test `calls.contains(id)`. -/
def contains (h : CallHandler) (id : Int) : Bool :=
  h.calls.any (fun c => c.id == id)

/-- The tracked calls other than call `id`. -/
def others (h : CallHandler) (id : Int) : List Call :=
  h.calls.filter (fun c => c.id != id)

/-- Run a method on the call `calls[id]`. -/
def onCall (h : CallHandler) (id : Int) (f : Call → Call) : CallHandler :=
  { h with calls := h.calls.map (fun c => if c.id = id then f c else c) }

/-- Method `CallHandler::updateConfIDs`: every call runs `updateConfID`. -/
def updateConfIDs (env : Env) (h : CallHandler) : CallHandler :=
  { h with calls := h.calls.map (fun c => { c with confID := env.confId c.id }) }

/-- Method `CallHandler::isConferenceRecording`. -/
def isConferenceRecording (h : CallHandler) (id : Int) : Bool :=
  recordingInConference h.calls id

/-- The assignment `calls[c.id] = c` for an id that is not in the map: the map
is kept in ascending order of the ids. -/
def insertCall : List Call → Call → List Call
  | [], c => [c]
  | x :: xs, c => if c.id < x.id then c :: x :: xs else x :: insertCall xs c

/-- The constructor `Call::Call` (lines 93-130) followed by `calls[id] = call`
in `callCmd`. -/
def newCall (env : Env) (h : CallHandler) (id : Int) : CallHandler :=
  let skypeName := if (env.partnerHandle id).isEmpty then "UnknownCaller"
    else env.partnerHandle id
  let displayName := if (env.partnerDispname id).isEmpty then "Unnamed Caller"
    else env.partnerDispname id
  let h1 := h.updateConfIDs env
  { h1 with calls := insertCall h1.calls (Call.init id skypeName displayName (env.confId id)) }

/-- Method `CallHandler::prune`. -/
def prune (h : CallHandler) : CallHandler :=
  { calls := h.calls.filter (fun c => !(c.statusDone && c.okToDelete))
    ignore := h.ignore ++ (h.calls.filter (fun c => c.statusDone && c.okToDelete)).map Call.id }

/-- Method `CallHandler::callCmd` for the arguments `id subCmd arg`. -/
def callCmd (env : Env) (h : CallHandler) (id : Int) (subCmd arg : String) : CallHandler :=
  if h.ignore.contains id then h
  else
    let known := h.contains id
    let h1 := if known then h else h.newCall env id
    let h2 :=
      if subCmd == "STATUS" then
        h1.onCall id (Call.setStatus env (h1.others id) arg)
      else if !known && subCmd == "DURATION" then
        h1.onCall id (Call.setStatus env (h1.others id) "INPROGRESS")
      else h1
    h2.prune

/-- Method `CallHandler::startRecording(int id)`. -/
def startRecording (env : Env) (h : CallHandler) (id : Int) : CallHandler :=
  if !h.contains id then h
  else h.onCall id (Call.startRecording env (h.others id) true)

/-- Method `CallHandler::stopRecording(int id)`. -/
def stopRecording (env : Env) (h : CallHandler) (id : Int) : CallHandler :=
  if !h.contains id then h
  else h.onCall id (fun c =>
    (c.stopRecording env.skypeSamplingRate env.writer true).hideConfirmation 2)

/-- Method `CallHandler::stopRecordingAndDelete(int id)`. -/
def stopRecordingAndDelete (env : Env) (h : CallHandler) (id : Int) : CallHandler :=
  if !h.contains id then h
  else h.onCall id (fun c =>
    ((c.stopRecording env.skypeSamplingRate env.writer true).removeFile).hideConfirmation 0)

end CallHandler

/-- What can happen to the handler: a `CALL` status line from Skype, the
requests of the user interface, the answer to a confirmation dialog, data or
the end of the streams of a call, and a refresh of the conference ids. -/
inductive Input where
  | callCmd (id : Int) (subCmd : String) (arg : String)
  | startRecording (id : Int)
  | stopRecording (id : Int)
  | stopRecordingAndDelete (id : Int)
  | confirm (id : Int)
  | deny (id : Int)
  | readLocal (id : Int) (data : Buffer)
  | readRemote (id : Int) (data : Buffer)
  | connectionsClosed (id : Int)
  | updateConfIDs
deriving Repr, DecidableEq

namespace CallHandler

/-- The handler after one input; the answered dialog deletes itself, which
clears `confirmation`. -/
def step (env : Env) (h : CallHandler) : Input → CallHandler
  | Input.callCmd id subCmd arg => h.callCmd env id subCmd arg
  | Input.startRecording id => h.startRecording env id
  | Input.stopRecording id => h.stopRecording env id
  | Input.stopRecordingAndDelete id => h.stopRecordingAndDelete env id
  | Input.confirm id =>
    h.onCall id (fun c =>
      if c.confirmation then { c.confirmRecording with confirmation := false } else c)
  | Input.deny id =>
    h.onCall id (fun c =>
      if c.confirmation then
        { c.denyRecording env.skypeSamplingRate env.writer with confirmation := false }
      else c)
  | Input.readLocal id data => h.onCall id (Call.readLocal env data)
  | Input.readRemote id data => h.onCall id (Call.readRemote env data)
  | Input.connectionsClosed id => h.onCall id (Call.checkConnections env)
  | Input.updateConfIDs => h.updateConfIDs env

/-- The input makes the handler refresh conference ids from Skype. -/
def refreshes (h : CallHandler) : Input → Bool
  | Input.callCmd id _ _ => !h.ignore.contains id && !h.contains id
  | Input.updateConfIDs => true
  | _ => false

/-- The handler after a sequence of inputs, each with the answers of the
environment at that time. -/
def run (h : CallHandler) (trace : List (Env × Input)) : CallHandler :=
  trace.foldl (fun s ei => s.step ei.1 ei.2) h

/-- At most one tracked call per conference id is recording. -/
def OneRecordingPerConference (h : CallHandler) : Prop :=
  ∀ c1 ∈ h.calls, ∀ c2 ∈ h.calls,
    c1.isRecording = true → c2.isRecording = true → c1.confID = c2.confID → c1.id = c2.id

/-- The refreshed conference id of every recording call is the stored one. -/
def StableConfIDs (env : Env) (h : CallHandler) : Prop :=
  ∀ c ∈ h.calls, c.isRecording = true → env.confId c.id = c.confID

end CallHandler

/-- States reachable from the empty registry. -/
inductive Reachable : CallHandler → Prop where
  | init : Reachable CallHandler.empty
  | step (env : Env) (i : Input) (h : CallHandler) :
      Reachable h → Reachable (h.step env i)

/-- States reachable from the empty registry when no refresh changes the
conference id of a call that is recording. -/
inductive ReachableStable : CallHandler → Prop where
  | init : ReachableStable CallHandler.empty
  | step (env : Env) (i : Input) (h : CallHandler) :
      ReachableStable h → (h.refreshes i = true → h.StableConfIDs env) →
      ReachableStable (h.step env i)

/-- The call `c'` has the id and the conference id of `c`, and it is recording
only if `c` is. -/
def Call.Quiet (c c' : Call) : Prop :=
  c'.id = c.id ∧ c'.confID = c.confID ∧ (c'.isRecording = true → c.isRecording = true)

/-- The invariant of the registry behind the conference check: the tracked
calls have distinct ids and at most one per conference id is recording. -/
def CallHandler.Inv (h : CallHandler) : Prop :=
  (h.calls.map Call.id).Nodup ∧ h.OneRecordingPerConference

/-- The answers of the environment used in the examples: every call is
recorded without asking, the encoder and Skype cooperate. -/
def recordAllEnv (confId : Int → Int) : Env :=
  { partnerHandle := fun _ => "echo123"
    partnerDispname := fun _ => "Echo"
    confId := confId
    autoRecordYes := []
    autoRecordAsk := []
    autoRecordNo := []
    autoRecordDefault := "yes"
    outputStereo := false
    outputStereoMix := 0
    debugWriteSyncFile := false
    writerOpens := true
    reply1Accepted := true
    reply2Accepted := true
    writer := consumingWriter
    skypeSamplingRate := 16000 }

/-- Call 1 starts outside any conference, call 2 starts in conference 7, then
the first status line of call 3 arrives when Skype reports conference 7 for
every call. -/
def mergeTrace : List (Env × Input) :=
  [ (recordAllEnv (fun _ => 0), Input.callCmd 1 "STATUS" "INPROGRESS"),
    (recordAllEnv (fun i => if i = 2 then 7 else 0), Input.callCmd 2 "STATUS" "INPROGRESS"),
    (recordAllEnv (fun _ => 7), Input.callCmd 3 "STATUS" "RINGING") ]

instance (h : CallHandler) : Decidable h.OneRecordingPerConference := by
  unfold CallHandler.OneRecordingPerConference; infer_instance

instance (env : Env) (h : CallHandler) : Decidable (h.StableConfIDs env) := by
  unfold CallHandler.StableConfIDs; infer_instance

/-- Call 1 starts in conference 7, then call 2 of the same conference becomes
active. -/
def dedupTrace : List (Env × Input) :=
  [ (recordAllEnv (fun _ => 7), Input.callCmd 1 "STATUS" "INPROGRESS"),
    (recordAllEnv (fun _ => 7), Input.callCmd 2 "STATUS" "INPROGRESS") ]

/-! # Vocabulary of the properties of the state machine and the registry -/

/-- The events that `c'` has logged beyond those of `c` all satisfy `P`. -/
def Call.LogAdds (P : Event → Prop) (c c' : Call) : Prop :=
  ∃ evs, c'.log = c.log ++ evs ∧ ∀ e ∈ evs, P e

/-- The event is a call of the encoder's `write`. -/
def Event.isWrite : Event → Bool
  | Event.writerWrite _ _ _ _ => true
  | _ => false

/-- The event is one of the signals `startedCall` and `stoppedCall`. -/
def Event.isCallSignal : Event → Bool
  | Event.startedCall _ => true
  | Event.stoppedCall _ => true
  | _ => false

/-- The status values that make up the set Active. -/
def activeStatuses : List String :=
  ["INPROGRESS", "ONHOLD", "LOCALHOLD", "REMOTEHOLD"]

/-- The terminal status values. -/
def terminalStatuses : List String :=
  ["BUSY", "CANCELLED", "FAILED", "FINISHED", "MISSED", "REFUSED", "VM_FAILED"]

/-- The answers of an environment whose default policy is to ask, with empty
per-contact lists; the encoder and Skype cooperate. -/
def askEnv : Env :=
  { recordAllEnv (fun _ => 0) with autoRecordDefault := "ask" }

/-- A registry tracking two calls of conference 7: call 1 is in progress and
recording, call 2 is not recording. -/
def conferenceHandler : CallHandler :=
  { calls :=
      [ { Call.init 1 "echo123" "Echo" 7 with
          status := "INPROGRESS", isRecording := true, writer := true },
        Call.init 2 "alice" "Alice" 7 ]
    ignore := [] }

namespace CallHandler

/-- One iteration of the loop of `CallHandler::prune` for the call `c` of the
snapshot `calls.values()`: `calls.remove(c->getID())` and
`ignore.insert(c->getID())` when the call is done and may be deleted. -/
def pruneVisit (h : CallHandler) (c : Call) : CallHandler :=
  if c.statusDone && c.okToDelete then
    { calls := h.calls.filter (fun x => x.id != c.id)
      ignore := h.ignore ++ [c.id] }
  else h

/-- Method `CallHandler::prune` as the loop over the snapshot of the map. -/
def pruneLoop (h : CallHandler) : CallHandler :=
  h.calls.foldl pruneVisit h

/-- The keys of the registry are consistent: the tracked calls have distinct
ids and no forgotten id is tracked. -/
def Keys (h : CallHandler) : Prop :=
  (h.calls.map Call.id).Nodup ∧ ∀ id ∈ h.ignore, id ∉ h.calls.map Call.id

end CallHandler

/-- States reachable from the empty registry through inputs and runs of
`prune`. -/
inductive ReachablePruned : CallHandler → Prop where
  | init : ReachablePruned CallHandler.empty
  | step (env : Env) (i : Input) (h : CallHandler) :
      ReachablePruned h → ReachablePruned (h.step env i)
  | prune (h : CallHandler) : ReachablePruned h → ReachablePruned h.prune

/-- A registry with three calls: call 1 is finished and idle, call 2 is
finished and still recording, call 3 is in progress. -/
def finishedHandler : CallHandler :=
  { calls :=
      [ { Call.init 1 "echo123" "Echo" 0 with status := "FINISHED" },
        { Call.init 2 "alice" "Alice" 0 with
          status := "FINISHED", isRecording := true, writer := true },
        { Call.init 3 "bob" "Bob" 0 with status := "INPROGRESS" } ]
    ignore := [] }

/-- Preferences with one contact in each list and the default "no". -/
def listsEnv : Env :=
  { recordAllEnv (fun _ => 0) with
    autoRecordYes := ["both", "friend"]
    autoRecordAsk := ["both", "colleague"]
    autoRecordNo := ["stranger"]
    autoRecordDefault := "no" }

/-- The integer `q` is a nearest multiple of `k` to `c`: it is a multiple of
`k` and no multiple of `k` is closer to `c`. -/
def IsNearestMultiple (k c q : Int) : Prop :=
  k ∣ q ∧ ∀ m : Int, k ∣ m → |c - q| ≤ |c - m|

/-- A recording call whose estimator (window 600, precision 320) has seen 599
observations of a delta of 479 samples, with an empty local buffer and 479
samples in the remote buffer. -/
def roundingCall : Call :=
  { Call.init 1 "echo123" "Echo" 0 with
    isRecording := true
    writer := true
    stereo := true
    stereoMix := 0
    bufferRemote := List.replicate 958 0
    sync := (AutoSync.create (100 * 2 * 3) 320).addAll (List.replicate 599 479) }

/-- The mirror image of `driftingCall`: 320001 samples in the local buffer,
none in the remote buffer, after 599 observations of a delta of -320000. -/
def laggingCall : Call :=
  { Call.init 1 "echo123" "Echo" 0 with
    isRecording := true
    writer := true
    stereo := true
    stereoMix := 0
    bufferLocal := List.replicate 640002 0
    sync := (AutoSync.create (100 * 2 * 3) 320).addAll (List.replicate 599 (-320000)) }

/-! # Histories of an estimator -/

/-- A call of one of the two mutating methods of `AutoSync`. -/
inductive AutoSync.Op where
  | add (d : Int)
  | reset
deriving Repr, DecidableEq

/-- The estimator after one method call. -/
def AutoSync.apply (a : AutoSync) : AutoSync.Op → AutoSync
  | AutoSync.Op.add d => a.add d
  | AutoSync.Op.reset => a.reset

/-- The estimator after a sequence of `add` and `reset` calls. -/
def AutoSync.applyAll (a : AutoSync) (ops : List AutoSync.Op) : AutoSync :=
  ops.foldl AutoSync.apply a

/-! ## Single precision arithmetic: lemmas -/

namespace Binary32

theorem pow2_pos (e : Int) : 0 < pow2 e := by
  unfold pow2
  exact Nat.pow_pos (by decide)

theorem pow2_of_nonpos (e : Int) (h : e ≤ 0) : pow2 e = 1 := by
  unfold pow2
  rw [Int.toNat_of_nonpos h, pow_zero]

theorem pow2_cast (e : Int) (h : 0 ≤ e) : ((pow2 e : Nat) : ℚ) = (2 : ℚ) ^ e := by
  unfold pow2
  push_cast
  rw [← zpow_natCast, Int.toNat_of_nonneg h]

/-- The quotient of the two one-sided powers is the power of two. -/
theorem pow2_div (e : Int) : ((pow2 e : Nat) : ℚ) / ((pow2 (-e) : Nat) : ℚ) = (2 : ℚ) ^ e := by
  rcases le_total 0 e with h | h
  · rw [pow2_of_nonpos (-e) (by omega), pow2_cast e h]
    simp
  · rw [pow2_of_nonpos e h, pow2_cast (-e) (by omega), zpow_neg]
    simp

theorem log2Fuel_spec : ∀ (fuel n : Nat), n ≤ fuel → 0 < n →
    2 ^ log2Fuel fuel n ≤ n ∧ n < 2 ^ (log2Fuel fuel n + 1) := by
  intro fuel
  induction fuel with
  | zero => intro n h1 h2; omega
  | succ fuel ih =>
    intro n h1 h2
    unfold log2Fuel
    by_cases hn : n < 2
    · rw [if_pos hn]
      have : n = 1 := by omega
      subst this
      simp
    · rw [if_neg hn]
      have h := ih (n / 2) (by omega) (by omega)
      rw [pow_succ, pow_succ]
      omega

theorem log2_spec (n : Nat) (h : 0 < n) : 2 ^ log2 n ≤ n ∧ n < 2 ^ (log2 n + 1) :=
  log2Fuel_spec n n (le_refl n) h

/-- The exponent of a positive fraction brackets it between two consecutive
powers of two. -/
theorem exponent_spec (num den : Nat) (hn : 0 < num) (hd : 0 < den) :
    (2 : ℚ) ^ exponent num den ≤ (num : ℚ) / (den : ℚ) ∧
    (num : ℚ) / (den : ℚ) < (2 : ℚ) ^ (exponent num den + 1) := by
  have hdq : (0 : ℚ) < (den : ℚ) := by exact_mod_cast hd
  obtain ⟨hn1, hn2⟩ := log2_spec num hn
  obtain ⟨hd1, hd2⟩ := log2_spec den hd
  have hn1q : (2 : ℚ) ^ (log2 num : Int) ≤ (num : ℚ) := by
    rw [zpow_natCast]; exact_mod_cast hn1
  have hn2q : (num : ℚ) < (2 : ℚ) ^ ((log2 num : Int) + 1) := by
    have : (num : ℚ) < (2 : ℚ) ^ (log2 num + 1) := by exact_mod_cast hn2
    rw [← zpow_natCast] at this
    push_cast at this
    exact this
  have hd1q : (2 : ℚ) ^ (log2 den : Int) ≤ (den : ℚ) := by
    rw [zpow_natCast]; exact_mod_cast hd1
  have hd2q : (den : ℚ) < (2 : ℚ) ^ ((log2 den : Int) + 1) := by
    have : (den : ℚ) < (2 : ℚ) ^ (log2 den + 1) := by exact_mod_cast hd2
    rw [← zpow_natCast] at this
    push_cast at this
    exact this
  have h2 : (0 : ℚ) < 2 := by norm_num
  have hp : ∀ z : Int, (0 : ℚ) < (2 : ℚ) ^ z := fun z => zpow_pos h2 z
  have htest : (den * pow2 ((log2 num : Int) - (log2 den : Int)) ≤
      num * pow2 (-((log2 num : Int) - (log2 den : Int)))) ↔
      (2 : ℚ) ^ ((log2 num : Int) - (log2 den : Int)) ≤ (num : ℚ) / (den : ℚ) := by
    rw [← pow2_div, div_le_div_iff₀ (by exact_mod_cast pow2_pos _) hdq]
    constructor
    · intro h
      have : ((den * pow2 ((log2 num : Int) - (log2 den : Int)) : Nat) : ℚ) ≤
          ((num * pow2 (-((log2 num : Int) - (log2 den : Int))) : Nat) : ℚ) := by
        exact_mod_cast h
      push_cast at this
      linarith
    · intro h
      have : ((den * pow2 ((log2 num : Int) - (log2 den : Int)) : Nat) : ℚ) ≤
          ((num * pow2 (-((log2 num : Int) - (log2 den : Int))) : Nat) : ℚ) := by
        push_cast
        linarith
      exact_mod_cast this
  unfold exponent
  simp only
  by_cases ht : den * pow2 ((log2 num : Int) - (log2 den : Int)) ≤
      num * pow2 (-((log2 num : Int) - (log2 den : Int)))
  · rw [if_pos ht]
    refine ⟨htest.mp ht, ?_⟩
    rw [div_lt_iff₀ hdq]
    have e1 : (2 : ℚ) ^ ((log2 num : Int) - (log2 den : Int) + 1) * (2 : ℚ) ^ (log2 den : Int)
        = (2 : ℚ) ^ ((log2 num : Int) + 1) := by
      rw [← zpow_add₀ (by norm_num : (2 : ℚ) ≠ 0)]
      congr 1
      ring
    have := hp ((log2 num : Int) - (log2 den : Int) + 1)
    nlinarith
  · rw [if_neg ht]
    have hlt : (num : ℚ) / (den : ℚ) < (2 : ℚ) ^ ((log2 num : Int) - (log2 den : Int)) :=
      lt_of_not_le (fun h => ht (htest.mpr h))
    refine ⟨?_, by rw [sub_add_cancel]; exact hlt⟩
    rw [le_div_iff₀ hdq]
    have e1 : (2 : ℚ) ^ ((log2 num : Int) - (log2 den : Int) - 1) *
        (2 : ℚ) ^ ((log2 den : Int) + 1) = (2 : ℚ) ^ (log2 num : Int) := by
      rw [← zpow_add₀ (by norm_num : (2 : ℚ) ≠ 0)]
      congr 1
      ring
    have := hp ((log2 num : Int) - (log2 den : Int) - 1)
    nlinarith

end Binary32

namespace Binary32

/-- The rounded quotient is within one half of the fraction, and even at a
tie. -/
theorem roundHalfEven_spec (num den : Nat) (hd : 0 < den) :
    ((roundHalfEven num den : Nat) : ℚ) - 1 / 2 ≤ (num : ℚ) / (den : ℚ) ∧
    (num : ℚ) / (den : ℚ) ≤ ((roundHalfEven num den : Nat) : ℚ) + 1 / 2 ∧
    (((num : ℚ) / (den : ℚ) = ((roundHalfEven num den : Nat) : ℚ) - 1 / 2 ∨
        (num : ℚ) / (den : ℚ) = ((roundHalfEven num den : Nat) : ℚ) + 1 / 2) →
      roundHalfEven num den % 2 = 0) := by
  have hdq : (0 : ℚ) < (den : ℚ) := by exact_mod_cast hd
  have hsplit : (num : ℚ) = (den : ℚ) * ((num / den : Nat) : ℚ) + ((num % den : Nat) : ℚ) := by
    exact_mod_cast (Nat.div_add_mod num den).symm
  have hr : ((num % den : Nat) : ℚ) < (den : ℚ) := by exact_mod_cast Nat.mod_lt num hd
  have hr0 : (0 : ℚ) ≤ ((num % den : Nat) : ℚ) := Nat.cast_nonneg _
  have hx : (num : ℚ) / (den : ℚ) =
      ((num / den : Nat) : ℚ) + ((num % den : Nat) : ℚ) / (den : ℚ) := by
    rw [div_eq_iff (ne_of_gt hdq), add_mul, div_mul_cancel₀ _ (ne_of_gt hdq)]
    linarith
  have hfrac0 : (0 : ℚ) ≤ ((num % den : Nat) : ℚ) / (den : ℚ) := div_nonneg hr0 hdq.le
  unfold roundHalfEven
  simp only
  by_cases h1 : 2 * (num % den) < den
  · rw [if_pos h1]
    have h1q : 2 * ((num % den : Nat) : ℚ) < (den : ℚ) := by exact_mod_cast h1
    have hf : ((num % den : Nat) : ℚ) / (den : ℚ) < 1 / 2 := by
      rw [div_lt_iff₀ hdq]; linarith
    refine ⟨by linarith, by linarith, ?_⟩
    rintro (h | h) <;> linarith
  · rw [if_neg h1]
    by_cases h2 : den < 2 * (num % den)
    · rw [if_pos h2]
      have h2q : (den : ℚ) < 2 * ((num % den : Nat) : ℚ) := by exact_mod_cast h2
      have hf : 1 / 2 < ((num % den : Nat) : ℚ) / (den : ℚ) := by
        rw [lt_div_iff₀ hdq]; linarith
      have hf1 : ((num % den : Nat) : ℚ) / (den : ℚ) < 1 := by
        rw [div_lt_iff₀ hdq]; linarith
      push_cast
      refine ⟨by linarith, by linarith, ?_⟩
      rintro (h | h) <;> linarith
    · rw [if_neg h2]
      have h3 : 2 * (num % den) = den := by omega
      have h3q : 2 * ((num % den : Nat) : ℚ) = (den : ℚ) := by exact_mod_cast h3
      have hf : ((num % den : Nat) : ℚ) / (den : ℚ) = 1 / 2 := by
        rw [div_eq_iff (ne_of_gt hdq)]; linarith
      by_cases h4 : num / den % 2 = 0
      · rw [if_pos h4]
        refine ⟨by linarith, by linarith, fun _ => h4⟩
      · rw [if_neg h4]
        push_cast
        refine ⟨by linarith, by linarith, fun _ => by omega⟩

/-- Rounding to the nearest integer is monotone in the fraction. -/
theorem roundHalfEven_mono (n1 d1 n2 d2 : Nat) (h1 : 0 < d1) (h2 : 0 < d2)
    (h : (n1 : ℚ) / (d1 : ℚ) ≤ (n2 : ℚ) / (d2 : ℚ)) :
    roundHalfEven n1 d1 ≤ roundHalfEven n2 d2 := by
  obtain ⟨a1, a2, a3⟩ := roundHalfEven_spec n1 d1 h1
  obtain ⟨b1, b2, b3⟩ := roundHalfEven_spec n2 d2 h2
  by_contra hc
  have hc' : roundHalfEven n2 d2 + 1 ≤ roundHalfEven n1 d1 := by omega
  have hq : ((roundHalfEven n2 d2 : Nat) : ℚ) + 1 ≤ ((roundHalfEven n1 d1 : Nat) : ℚ) := by
    exact_mod_cast hc'
  have e1 : (n1 : ℚ) / (d1 : ℚ) = ((roundHalfEven n1 d1 : Nat) : ℚ) - 1 / 2 := by linarith
  have e2 : (n2 : ℚ) / (d2 : ℚ) = ((roundHalfEven n2 d2 : Nat) : ℚ) + 1 / 2 := by linarith
  have e3 : ((roundHalfEven n1 d1 : Nat) : ℚ) = ((roundHalfEven n2 d2 : Nat) : ℚ) + 1 := by
    linarith
  have e4 : roundHalfEven n1 d1 = roundHalfEven n2 d2 + 1 := by exact_mod_cast e3
  have p1 := a3 (Or.inl e1)
  have p2 := b3 (Or.inr e2)
  omega

/-- A fraction that is an integer is rounded to itself. -/
theorem roundHalfEven_exact (num den k : Nat) (hd : 0 < den)
    (h : (num : ℚ) / (den : ℚ) = (k : ℚ)) : roundHalfEven num den = k := by
  obtain ⟨a1, a2, _⟩ := roundHalfEven_spec num den hd
  rw [h] at a1 a2
  have h1 : ((roundHalfEven num den : Nat) : ℚ) < (k : ℚ) + 1 := by linarith
  have h2 : (k : ℚ) < ((roundHalfEven num den : Nat) : ℚ) + 1 := by linarith
  have h1' : roundHalfEven num den < k + 1 := by exact_mod_cast h1
  have h2' : k < roundHalfEven num den + 1 := by exact_mod_cast h2
  omega

/-- The fraction in units of the quantum. -/
theorem scaled_eq (num den : Nat) (q : Int) :
    ((num * pow2 (-q) : Nat) : ℚ) / ((den * pow2 q : Nat) : ℚ) =
      (num : ℚ) / (den : ℚ) / (2 : ℚ) ^ q := by
  have h := pow2_div q
  have hp1 : ((pow2 q : Nat) : ℚ) ≠ 0 := by exact_mod_cast (pow2_pos q).ne'
  have hp2 : ((pow2 (-q) : Nat) : ℚ) ≠ 0 := by exact_mod_cast (pow2_pos (-q)).ne'
  rw [← h]
  push_cast
  by_cases hden : (den : ℚ) = 0
  · simp [hden]
  · field_simp

theorem quantum_ge (num den : Nat) : -149 ≤ quantum num den := by
  unfold quantum; exact le_max_right _ _

theorem quantum_ge_exponent (num den : Nat) : exponent num den - 23 ≤ quantum num den := by
  unfold quantum; exact le_max_left _ _

/-- The significand is within one half of the fraction in units of the
quantum. -/
theorem significand_near (num den : Nat) (hd : 0 < den) :
    ((significand num den : Nat) : ℚ) - 1 / 2 ≤
      (num : ℚ) / (den : ℚ) / (2 : ℚ) ^ quantum num den ∧
    (num : ℚ) / (den : ℚ) / (2 : ℚ) ^ quantum num den ≤
      ((significand num den : Nat) : ℚ) + 1 / 2 := by
  have h := roundHalfEven_spec (num * pow2 (-(quantum num den))) (den * pow2 (quantum num den))
    (Nat.mul_pos hd (pow2_pos _))
  rw [scaled_eq] at h
  exact ⟨h.1, h.2.1⟩

/-- The significand has at most 24 bits (the value `2 ^ 24` itself arises when
the fraction rounds up to the next power of two). -/
theorem significand_le (num den : Nat) (hn : 0 < num) (hd : 0 < den) :
    significand num den ≤ 2 ^ 24 := by
  obtain ⟨h1, _⟩ := significand_near num den hd
  obtain ⟨_, e2⟩ := exponent_spec num den hn hd
  have hq := quantum_ge_exponent num den
  have h2 : (0 : ℚ) < (2 : ℚ) ^ quantum num den := zpow_pos (by norm_num) _
  have hy : (num : ℚ) / (den : ℚ) / (2 : ℚ) ^ quantum num den < (2 : ℚ) ^ (24 : Int) := by
    rw [div_lt_iff₀ h2, ← zpow_add₀ (by norm_num : (2 : ℚ) ≠ 0)]
    refine lt_of_lt_of_le e2 ?_
    exact zpow_le_zpow_right₀ (by norm_num) (by omega)
  have h3 : ((significand num den : Nat) : ℚ) < (2 : ℚ) ^ (24 : Int) + 1 := by linarith
  have h4 : ((significand num den : Nat) : ℚ) < (((2 ^ 24 + 1 : Nat)) : ℚ) := by
    have e : (2 : ℚ) ^ (24 : Int) = (2 : ℚ) ^ (24 : Nat) := by norm_cast
    rw [e] at h3
    norm_num at h3 ⊢
    exact h3
  have h5 : significand num den < 2 ^ 24 + 1 := by exact_mod_cast h4
  omega

/-- A normal result has a full significand. -/
theorem significand_ge (num den : Nat) (hn : 0 < num) (hd : 0 < den)
    (hq : quantum num den = exponent num den - 23) : 2 ^ 23 ≤ significand num den := by
  obtain ⟨_, h1⟩ := significand_near num den hd
  obtain ⟨e1, _⟩ := exponent_spec num den hn hd
  have h2 : (0 : ℚ) < (2 : ℚ) ^ quantum num den := zpow_pos (by norm_num) _
  have hy : (2 : ℚ) ^ (23 : Int) ≤ (num : ℚ) / (den : ℚ) / (2 : ℚ) ^ quantum num den := by
    rw [le_div_iff₀ h2, ← zpow_add₀ (by norm_num : (2 : ℚ) ≠ 0)]
    refine le_trans ?_ e1
    exact zpow_le_zpow_right₀ (by norm_num) (by omega)
  have h3 : (2 : ℚ) ^ (23 : Int) - 1 < ((significand num den : Nat) : ℚ) := by linarith
  have h4 : (((2 ^ 23 - 1 : Nat)) : ℚ) < ((significand num den : Nat) : ℚ) := by
    have e : (2 : ℚ) ^ (23 : Int) = (2 : ℚ) ^ (23 : Nat) := by norm_cast
    rw [e] at h3
    norm_num at h3 ⊢
    exact h3
  have h5 : 2 ^ 23 - 1 < significand num den := by exact_mod_cast h4
  omega

end Binary32

namespace Binary32

theorem round_of_pos (neg : Bool) (num den : Nat) (hn : 0 < num) :
    round neg num den =
      if 104 < quantum num den ∨ (quantum num den = 104 ∧ 2 ^ 24 ≤ significand num den) then
        infinite neg
      else
        finite (if neg then -(significand num den : Int) else (significand num den : Int))
          (quantum num den) := by
  unfold round
  rw [if_neg (by omega)]

theorem round_zero (neg : Bool) (den : Nat) : round neg 0 den = finite 0 0 := by
  unfold round
  rw [if_pos rfl]

/-- The comparison of two finite values is the comparison of the numbers they
denote. -/
theorem lt_finite (m1 e1 m2 e2 : Int) :
    lt (finite m1 e1) (finite m2 e2) = decide (toRat (finite m1 e1) < toRat (finite m2 e2)) := by
  unfold lt toRat
  have hp1 : (0 : ℚ) < ((pow2 (e2 - e1) : Nat) : ℚ) := by exact_mod_cast pow2_pos _
  have hd := pow2_div (e1 - e2)
  rw [neg_sub] at hd
  have h2 : (0 : ℚ) < (2 : ℚ) ^ e2 := zpow_pos (by norm_num) _
  have key : (m1 * (pow2 (e1 - e2) : Int) < m2 * (pow2 (e2 - e1) : Int)) ↔
      ((m1 : ℚ) * (2 : ℚ) ^ e1 < (m2 : ℚ) * (2 : ℚ) ^ e2) := by
    have e : (2 : ℚ) ^ e1 = (2 : ℚ) ^ (e1 - e2) * (2 : ℚ) ^ e2 := by
      rw [← zpow_add₀ (by norm_num : (2 : ℚ) ≠ 0)]
      congr 1
      ring
    rw [e, ← mul_assoc, mul_lt_mul_right h2, ← hd, ← mul_div_assoc, div_lt_iff₀ hp1]
    constructor
    · intro h; exact_mod_cast h
    · intro h; exact_mod_cast h
  simp only [key]

theorem lt_infinite_left (y : Binary32) : lt (infinite false) y = false := by
  cases y <;> simp [lt]

theorem lt_nan_left (y : Binary32) : lt nan y = false := by
  cases y <;> simp [lt]

theorem lt_nan_right (x : Binary32) : lt x nan = false := by
  cases x <;> simp [lt]

theorem quantum_mono (n1 d1 n2 d2 : Nat) (hn1 : 0 < n1) (hd1 : 0 < d1) (hn2 : 0 < n2)
    (hd2 : 0 < d2) (h : (n1 : ℚ) / (d1 : ℚ) ≤ (n2 : ℚ) / (d2 : ℚ)) :
    quantum n1 d1 ≤ quantum n2 d2 := by
  obtain ⟨a1, _⟩ := exponent_spec n1 d1 hn1 hd1
  obtain ⟨_, b2⟩ := exponent_spec n2 d2 hn2 hd2
  have hE : exponent n1 d1 ≤ exponent n2 d2 := by
    by_contra hc
    have : (2 : ℚ) ^ (exponent n2 d2 + 1) ≤ (2 : ℚ) ^ exponent n1 d1 :=
      zpow_le_zpow_right₀ (by norm_num) (by omega)
    linarith
  unfold quantum
  exact max_le_max (by omega) (le_refl _)

/-- Rounding is monotone: a smaller positive fraction never rounds to a larger
value. -/
theorem round_mono (n1 d1 n2 d2 : Nat) (hn1 : 0 < n1) (hd1 : 0 < d1) (hn2 : 0 < n2)
    (hd2 : 0 < d2) (h : (n1 : ℚ) / (d1 : ℚ) ≤ (n2 : ℚ) / (d2 : ℚ)) :
    lt (round false n2 d2) (round false n1 d1) = false := by
  have hq := quantum_mono n1 d1 n2 d2 hn1 hd1 hn2 hd2 h
  rw [round_of_pos false n2 d2 hn2]
  by_cases ho2 : 104 < quantum n2 d2 ∨ (quantum n2 d2 = 104 ∧ 2 ^ 24 ≤ significand n2 d2)
  · rw [if_pos ho2]
    exact lt_infinite_left _
  · rw [if_neg ho2, round_of_pos false n1 d1 hn1]
    have hs1 := significand_le n1 d1 hn1 hd1
    have hq0 : (0 : ℚ) < (2 : ℚ) ^ quantum n1 d1 := zpow_pos (by norm_num) _
    have hmono : quantum n1 d1 = quantum n2 d2 → significand n1 d1 ≤ significand n2 d2 := by
      intro he
      unfold significand
      apply roundHalfEven_mono _ _ _ _ (Nat.mul_pos hd1 (pow2_pos _)) (Nat.mul_pos hd2 (pow2_pos _))
      rw [scaled_eq, scaled_eq, he]
      exact div_le_div_of_nonneg_right h (zpow_pos (by norm_num) _).le
    have ho1 : ¬ (104 < quantum n1 d1 ∨ (quantum n1 d1 = 104 ∧ 2 ^ 24 ≤ significand n1 d1)) := by
      rintro (hc | ⟨hc1, hc2⟩)
      · exact ho2 (Or.inl (by omega))
      · rcases lt_or_eq_of_le hq with hlt | heq
        · exact ho2 (Or.inl (by omega))
        · have := hmono heq
          exact ho2 (Or.inr ⟨by omega, by omega⟩)
    rw [if_neg ho1]
    simp only [Bool.false_eq_true, if_false]
    unfold lt
    rw [decide_eq_false_iff_not, not_lt]
    rcases lt_or_eq_of_le hq with hlt | heq
    · have hnorm : quantum n2 d2 = exponent n2 d2 - 23 := by
        have := quantum_ge n1 d1
        unfold quantum at hlt ⊢
        rcases max_cases (exponent n2 d2 - 23) (-149) with ⟨hm, _⟩ | ⟨hm, _⟩
        · exact hm
        · rw [hm] at hlt
          have := le_max_right (exponent n1 d1 - 23) (-149)
          omega
      have hs2 := significand_ge n2 d2 hn2 hd2 hnorm
      rw [pow2_of_nonpos (quantum n1 d1 - quantum n2 d2) (by omega)]
      have hp : 2 ≤ pow2 (quantum n2 d2 - quantum n1 d1) := by
        unfold pow2
        have : 1 ≤ (quantum n2 d2 - quantum n1 d1).toNat := by omega
        calc 2 = 2 ^ 1 := rfl
          _ ≤ 2 ^ (quantum n2 d2 - quantum n1 d1).toNat := Nat.pow_le_pow_right (by decide) this
      have : (significand n1 d1 : Int) * 1 ≤
          (significand n2 d2 : Int) * (pow2 (quantum n2 d2 - quantum n1 d1) : Int) := by
        have h3 : significand n1 d1 * 1 ≤
            significand n2 d2 * pow2 (quantum n2 d2 - quantum n1 d1) := by
          calc significand n1 d1 * 1 ≤ 2 ^ 24 := by omega
            _ = 2 ^ 23 * 2 := by norm_num
            _ ≤ significand n2 d2 * pow2 (quantum n2 d2 - quantum n1 d1) :=
                Nat.mul_le_mul hs2 hp
        exact_mod_cast h3
      simpa using this
    · have := hmono heq
      rw [heq, sub_self, pow2_of_nonpos 0 (le_refl 0)]
      simp only [Nat.cast_one, mul_one]
      exact_mod_cast this

end Binary32

namespace Binary32

theorem toRat_finite (m e : Int) : toRat (finite m e) = (m : ℚ) * (2 : ℚ) ^ e := rfl

/-- A fraction that is itself a binary32 number (at most 24 significant bits,
last bit not below exponent -149, below the overflow threshold) is rounded to
itself. -/
theorem round_exact (num den : Nat) (hn : 0 < num) (hd : 0 < den) (m : Nat) (q : Int)
    (hm : m ≤ 2 ^ 24) (hq : -149 ≤ q) (hq2 : q ≤ 104) (hov : q = 104 → m < 2 ^ 24)
    (hval : (num : ℚ) / (den : ℚ) = (m : ℚ) * (2 : ℚ) ^ q) :
    ∃ k : Nat, round false num den = finite (k : Int) (quantum num den) ∧
      ((k : Int) : ℚ) * (2 : ℚ) ^ quantum num den = (m : ℚ) * (2 : ℚ) ^ q := by
  obtain ⟨e1, e2⟩ := exponent_spec num den hn hd
  have h2 : (2 : ℚ) ≠ 0 := by norm_num
  have hpos : ∀ z : Int, (0 : ℚ) < (2 : ℚ) ^ z := fun z => zpow_pos (by norm_num) z
  have hmq : (m : ℚ) ≤ (2 : ℚ) ^ (24 : Int) := by
    have : ((m : Nat) : ℚ) ≤ ((2 ^ 24 : Nat) : ℚ) := by exact_mod_cast hm
    have e : (2 : ℚ) ^ (24 : Int) = ((2 ^ 24 : Nat) : ℚ) := by norm_num
    rw [e]; exact this
  -- the exponent is at most q + 24
  have hE : exponent num den ≤ q + 24 := by
    by_contra hc
    have h3 : (2 : ℚ) ^ (q + 24 + 1) ≤ (2 : ℚ) ^ exponent num den :=
      zpow_le_zpow_right₀ (by norm_num) (by omega)
    have h4 : (m : ℚ) * (2 : ℚ) ^ q ≤ (2 : ℚ) ^ (24 : Int) * (2 : ℚ) ^ q :=
      mul_le_mul_of_nonneg_right hmq (hpos q).le
    rw [← zpow_add₀ h2] at h4
    have h5 : (2 : ℚ) ^ (24 + q) < (2 : ℚ) ^ (q + 24 + 1) :=
      zpow_lt_zpow_right₀ (by norm_num) (by omega)
    rw [hval] at e1
    linarith
  -- the fraction is a whole number of quanta
  have hk : ∃ k : Nat, (num : ℚ) / (den : ℚ) / (2 : ℚ) ^ quantum num den = (k : ℚ) ∧
      (quantum num den ≤ 104) ∧ (quantum num den = 104 → k < 2 ^ 24) := by
    by_cases hfull : exponent num den = q + 24
    · -- the significand is 2 ^ 24 and the quantum is q + 1
      have hm24 : (m : ℚ) = (2 : ℚ) ^ (24 : Int) := by
        apply le_antisymm hmq
        by_contra hc
        rw [not_le] at hc
        have h4 : (m : ℚ) * (2 : ℚ) ^ q < (2 : ℚ) ^ (24 : Int) * (2 : ℚ) ^ q :=
          mul_lt_mul_of_pos_right hc (hpos q)
        rw [← zpow_add₀ h2, ← hval] at h4
        rw [hfull, add_comm] at e1
        linarith
      have hm24n : m = 2 ^ 24 := by
        have e : (2 : ℚ) ^ (24 : Int) = ((2 ^ 24 : Nat) : ℚ) := by norm_num
        rw [e] at hm24
        exact_mod_cast hm24
      have hQ : quantum num den = q + 1 := by
        unfold quantum
        rw [hfull, show q + 24 - 23 = q + 1 by ring]
        exact max_eq_left (by omega)
      refine ⟨2 ^ 23, ?_, ?_, ?_⟩
      · rw [hval, hm24, hQ, div_eq_iff (hpos _).ne', ← zpow_add₀ h2]
        have e : ((2 ^ 23 : Nat) : ℚ) = (2 : ℚ) ^ (23 : Int) := by norm_num
        rw [e, ← zpow_add₀ h2]
        congr 1
        ring
      · have : q ≠ 104 := fun h => by have := hov h; omega
        omega
      · intro _; norm_num
    · have hQ : quantum num den ≤ q := by
        unfold quantum
        exact max_le (by omega) hq
      refine ⟨m * 2 ^ (q - quantum num den).toNat, ?_, by omega, ?_⟩
      · rw [hval, div_eq_iff (hpos _).ne']
        push_cast
        rw [mul_assoc, ← zpow_natCast, Int.toNat_of_nonneg (by omega), ← zpow_add₀ h2]
        congr 2
        ring
      · intro h104
        have : q = 104 := by omega
        have hz : (q - quantum num den).toNat = 0 := by omega
        rw [hz, pow_zero, mul_one]
        exact hov this
  obtain ⟨k, hk1, hk2, hk3⟩ := hk
  have hsig : significand num den = k := by
    unfold significand
    apply roundHalfEven_exact _ _ _ (Nat.mul_pos hd (pow2_pos _))
    rw [scaled_eq]
    exact hk1
  refine ⟨k, ?_, ?_⟩
  · rw [round_of_pos false num den hn, if_neg, hsig]
    · simp
    · rw [hsig]
      rintro (hc | ⟨hc1, hc2⟩)
      · omega
      · have := hk3 hc1
        omega
  · rw [Int.cast_natCast, ← hval, ← hk1, div_mul_cancel₀ _ (hpos _).ne']

/-- The result of rounding a positive fraction is not a NaN, and when finite it
is a non-negative binary32 number in the form `round_exact` asks for. -/
theorem round_cases (num den : Nat) (hn : 0 < num) (hd : 0 < den) :
    round false num den = infinite false ∨
    (round false num den = finite (significand num den : Int) (quantum num den) ∧
      significand num den ≤ 2 ^ 24 ∧ -149 ≤ quantum num den ∧ quantum num den ≤ 104 ∧
      (quantum num den = 104 → significand num den < 2 ^ 24)) := by
  rw [round_of_pos false num den hn]
  by_cases ho : 104 < quantum num den ∨ (quantum num den = 104 ∧ 2 ^ 24 ≤ significand num den)
  · left; rw [if_pos ho]
  · right
    rw [if_neg ho]
    refine ⟨by simp, significand_le num den hn hd, quantum_ge num den, ?_, ?_⟩
    · by_contra hc
      exact ho (Or.inl (by omega))
    · intro h
      by_contra hc
      exact ho (Or.inr ⟨h, by omega⟩)

/-- Rounding never crosses a binary32 number from below: a fraction that is at
most the value of a rounded result rounds to at most that result. -/
theorem round_le_of_le (n1 d1 n2 d2 : Nat) (hn1 : 0 < n1) (hd1 : 0 < d1) (hn2 : 0 < n2)
    (hd2 : 0 < d2)
    (h : (n1 : ℚ) / (d1 : ℚ) ≤ toRat (round false n2 d2))
    (hfin : round false n2 d2 ≠ infinite false) :
    lt (round false n2 d2) (round false n1 d1) = false := by
  rcases round_cases n2 d2 hn2 hd2 with hinf | ⟨hr, hs, hq1, hq2, hov⟩
  · exact absurd hinf hfin
  · rw [hr, toRat_finite, Int.cast_natCast] at h
    have hx1 : (0 : ℚ) < (n1 : ℚ) / (d1 : ℚ) :=
      div_pos (by exact_mod_cast hn1) (by exact_mod_cast hd1)
    have hpos : (0 : ℚ) < (2 : ℚ) ^ quantum n2 d2 := zpow_pos (by norm_num) _
    have hsp : 0 < significand n2 d2 := by
      rcases Nat.eq_zero_or_pos (significand n2 d2) with h0 | h0
      · rw [h0] at h; simp at h; linarith
      · exact h0
    -- the value of the result, as a fraction of naturals
    have hfrac : ((significand n2 d2 * pow2 (quantum n2 d2) : Nat) : ℚ) /
        ((pow2 (-(quantum n2 d2)) : Nat) : ℚ) =
        ((significand n2 d2 : Nat) : ℚ) * (2 : ℚ) ^ quantum n2 d2 := by
      push_cast
      rw [mul_div_assoc, pow2_div]
    obtain ⟨k, hk1, hk2⟩ := round_exact (significand n2 d2 * pow2 (quantum n2 d2))
      (pow2 (-(quantum n2 d2))) (Nat.mul_pos hsp (pow2_pos _)) (pow2_pos _)
      (significand n2 d2) (quantum n2 d2) hs hq1 hq2 hov hfrac
    have hm := round_mono n1 d1 (significand n2 d2 * pow2 (quantum n2 d2))
      (pow2 (-(quantum n2 d2))) hn1 hd1 (Nat.mul_pos hsp (pow2_pos _)) (pow2_pos _)
      (by rw [hfrac]; exact h)
    rw [hk1] at hm
    rw [hr]
    rcases round_cases n1 d1 hn1 hd1 with hinf1 | ⟨hr1, _⟩
    · rw [hinf1] at hm
      simp [lt] at hm
    · rw [hr1] at hm ⊢
      rw [lt_finite, decide_eq_false_iff_not] at hm ⊢
      rw [toRat_finite, toRat_finite] at hm ⊢
      rw [hk2] at hm
      rw [Int.cast_natCast]
      exact hm

theorem lt_round_zero (num den : Nat) (e : Int) :
    lt (round false num den) (finite 0 e) = false := by
  rcases Nat.eq_zero_or_pos num with h0 | hn
  · rw [h0, round_zero]
    simp [lt]
  · rw [round_of_pos false num den hn]
    split
    · rfl
    · simp only [Bool.false_eq_true, if_false]
      unfold lt
      rw [decide_eq_false_iff_not, not_lt, zero_mul]
      exact mul_nonneg (Int.natCast_nonneg _) (Int.natCast_nonneg _)

end Binary32

namespace Binary32

/-- The rounding error of a fraction in the normal range is at most the
fraction times `2 ^ -24`. -/
theorem round_error (num den : Nat) (hn : 0 < num) (hd : 0 < den)
    (hnorm : -149 ≤ exponent num den - 23) :
    (num : ℚ) / (den : ℚ) * (1 - 1 / 2 ^ 24) ≤
      ((significand num den : Nat) : ℚ) * (2 : ℚ) ^ quantum num den ∧
    ((significand num den : Nat) : ℚ) * (2 : ℚ) ^ quantum num den ≤
      (num : ℚ) / (den : ℚ) * (1 + 1 / 2 ^ 24) := by
  obtain ⟨s1, s2⟩ := significand_near num den hd
  obtain ⟨e1, _⟩ := exponent_spec num den hn hd
  have hQ : quantum num den = exponent num den - 23 := by
    unfold quantum
    exact max_eq_left hnorm
  have hpos : (0 : ℚ) < (2 : ℚ) ^ quantum num den := zpow_pos (by norm_num) _
  have hq : (2 : ℚ) ^ quantum num den * 2 ^ 23 ≤ (num : ℚ) / (den : ℚ) := by
    have e : (2 : ℚ) ^ quantum num den * 2 ^ 23 = (2 : ℚ) ^ exponent num den := by
      have e23 : (2 : ℚ) ^ (23 : Nat) = (2 : ℚ) ^ (23 : Int) := by norm_cast
      rw [hQ, e23, ← zpow_add₀ (by norm_num : (2 : ℚ) ≠ 0)]
      congr 1
      ring
    rw [e]; exact e1
  rw [div_le_iff₀ hpos] at s2
  rw [le_div_iff₀ hpos] at s1
  constructor
  · nlinarith
  · nlinarith

theorem exponent_nonneg (n : Nat) (hn : 0 < n) : 0 ≤ exponent n 1 := by
  obtain ⟨_, e2⟩ := exponent_spec n 1 hn (by decide)
  by_contra hc
  have h1 : (2 : ℚ) ^ (exponent n 1 + 1) ≤ (2 : ℚ) ^ (0 : Int) :=
    zpow_le_zpow_right₀ (by norm_num) (by omega)
  have h2 : (1 : ℚ) ≤ (n : ℚ) := by exact_mod_cast hn
  simp at e2 h1
  linarith

theorem abs_round (neg : Bool) (num den : Nat) :
    abs (round neg num den) = round false num den := by
  unfold round
  split
  · rfl
  · split
    · rfl
    · cases neg <;> simp [abs]

theorem ofInt_natCast (n : Nat) : ofInt (n : Int) = round false n 1 := by
  unfold ofInt
  have h : ¬ ((n : Int) < 0) := by omega
  simp [h]

theorem ofInt_of_nonneg (n : Int) (h : 0 ≤ n) : ofInt n = round false n.natAbs 1 := by
  unfold ofInt
  rw [decide_eq_false (by omega)]

theorem abs_ofInt (n : Int) : abs (ofInt n) = round false n.natAbs 1 := by
  unfold ofInt
  exact abs_round _ _ _

/-- The absolute value of a quotient is the quotient of the absolute
values. -/
theorem abs_div (x y : Binary32) : abs (div x y) = div (abs x) (abs y) := by
  cases x with
  | nan => cases y <;> rfl
  | infinite s => cases y <;> simp [div, abs]
  | finite m1 e1 =>
    cases y with
    | nan => rfl
    | infinite t => rfl
    | finite m2 e2 =>
      rw [show abs (finite m1 e1) = finite (m1.natAbs : Int) e1 from rfl,
        show abs (finite m2 e2) = finite (m2.natAbs : Int) e2 from rfl]
      simp only [div]
      by_cases h2 : m2 = 0
      · by_cases h1 : m1 = 0
        · simp [h1, h2, abs]
        · simp [h1, h2, abs]
      · have h2n : ((m2.natAbs : Nat) : Int) ≠ 0 := by omega
        have h1lt : ¬ (((m1.natAbs : Nat) : Int) < 0) := by omega
        have h2lt : ¬ (((m2.natAbs : Nat) : Int) < 0) := by omega
        rw [if_neg h2, if_neg h2n, abs_round, decide_eq_false h1lt, decide_eq_false h2lt,
          Int.natAbs_ofNat, Int.natAbs_ofNat]
        rfl

/-- The square root in `dev` is a NaN when `(float)sum` is infinite. -/
theorem sqrt_nan_of_infinite (z n : Binary32) (s : Bool)
    (hn : n = infinite false ∨ ∃ (k : Nat) (q : Int), n = finite (k : Int) q) :
    sqrt (div (sub z (div (mul (infinite s) (infinite s)) n)) n) = nan := by
  rcases hn with rfl | ⟨k, q, rfl⟩
  · cases z <;> simp [mul, div, sub, sqrt]
  · have hk : ¬ ((k : Int) < 0) := by omega
    rcases z with _ | t | _ <;> cases s <;> (try cases t) <;> simp [mul, div, sub, sqrt, hk]

theorem round_infinite (neg : Bool) (num den : Nat)
    (h : round false num den = infinite false) : round neg num den = infinite neg := by
  unfold round at h ⊢
  split
  · rename_i h0; rw [if_pos h0] at h; cases h
  · rename_i h0
    rw [if_neg h0] at h
    split
    · rfl
    · rename_i h1; rw [if_neg h1] at h; cases h

/-- The first test of `getSync` on magnitudes: if the window sum `A`, the
window size `N` and the precision `P` satisfy `A <= P` for `N = 1` or
`4 * A <= 3 * N * P` in general, and `(float)A` is finite, the quotient
computed in binary32 does not exceed `(float)P`. -/
theorem lt_div_ofNat (A N P : Nat) (hN : 0 < N)
    (h : (N = 1 ∧ A ≤ P) ∨ 4 * A ≤ 3 * N * P)
    (hfin : round false A 1 ≠ infinite false) :
    lt (round false P 1) (div (round false A 1) (round false N 1)) = false := by
  have h1 : (0 : Nat) < 1 := by decide
  rcases Nat.eq_zero_or_pos A with hA | hA
  · rw [hA, round_zero]
    rcases round_cases N 1 hN h1 with hi | ⟨hr, _⟩
    · rw [hi]; exact lt_round_zero _ _ _
    · rw [hr]
      simp only [div]
      split
      · simp [lt_nan_right]
      · simp only [Int.natAbs_zero, zero_mul, round_zero]
        exact lt_round_zero _ _ _
  · have hP : 0 < P := by
      rcases h with ⟨_, h⟩ | h
      · omega
      · rcases Nat.eq_zero_or_pos P with h0 | h0
        · rw [h0] at h; omega
        · exact h0
    rcases round_cases A 1 hA h1 with hi | ⟨hrA, hsA, hqA1, hqA2, hovA⟩
    · exact absurd hi hfin
    rcases round_cases N 1 hN h1 with hi | ⟨hrN, hsN, hqN1, hqN2, hovN⟩
    · rw [hi, hrA]
      exact lt_round_zero _ _ _
    have hnA : -149 ≤ exponent A 1 - 23 := by have := exponent_nonneg A hA; omega
    have hnN : -149 ≤ exponent N 1 - 23 := by have := exponent_nonneg N hN; omega
    have hQA : quantum A 1 = exponent A 1 - 23 := by unfold quantum; exact max_eq_left hnA
    have hQN : quantum N 1 = exponent N 1 - 23 := by unfold quantum; exact max_eq_left hnN
    have hgA := significand_ge A 1 hA h1 hQA
    have hgN := significand_ge N 1 hN h1 hQN
    obtain ⟨eA1, eA2⟩ := round_error A 1 hA h1 hnA
    obtain ⟨eN1, eN2⟩ := round_error N 1 hN h1 hnN
    simp only [Nat.cast_one, div_one] at eA1 eA2 eN1 eN2
    have hsN0 : ((significand N 1 : Nat) : Int) ≠ 0 := by omega
    have hsNlt : ¬ (((significand N 1 : Nat) : Int) < 0) := by omega
    have hsAlt : ¬ (((significand A 1 : Nat) : Int) < 0) := by omega
    rw [hrA, hrN]
    simp only [div]
    rw [if_neg hsN0]
    simp only [hsNlt, hsAlt, decide_False, Int.natAbs_ofNat, bne_self_eq_false]
    -- the exact quotient of the two rounded values
    have hX : 0 < significand A 1 * pow2 (quantum A 1 - quantum N 1) :=
      Nat.mul_pos (by omega) (pow2_pos _)
    have hY : 0 < significand N 1 * pow2 (quantum N 1 - quantum A 1) :=
      Nat.mul_pos (by omega) (pow2_pos _)
    have h2pos : ∀ z : Int, (0 : ℚ) < (2 : ℚ) ^ z := fun z => zpow_pos (by norm_num) z
    have hvN : (0 : ℚ) < ((significand N 1 : Nat) : ℚ) * (2 : ℚ) ^ quantum N 1 :=
      mul_pos (by exact_mod_cast (by omega : 0 < significand N 1)) (h2pos _)
    have hquot : ((significand A 1 * pow2 (quantum A 1 - quantum N 1) : Nat) : ℚ) /
        ((significand N 1 * pow2 (quantum N 1 - quantum A 1) : Nat) : ℚ) =
        (((significand A 1 : Nat) : ℚ) * (2 : ℚ) ^ quantum A 1) /
          (((significand N 1 : Nat) : ℚ) * (2 : ℚ) ^ quantum N 1) := by
      have hd := pow2_div (quantum A 1 - quantum N 1)
      rw [neg_sub] at hd
      have hp1 : ((pow2 (quantum N 1 - quantum A 1) : Nat) : ℚ) ≠ 0 := by
        exact_mod_cast (pow2_pos _).ne'
      have e : (2 : ℚ) ^ quantum A 1 =
          (2 : ℚ) ^ (quantum A 1 - quantum N 1) * (2 : ℚ) ^ quantum N 1 := by
        rw [← zpow_add₀ (by norm_num : (2 : ℚ) ≠ 0)]
        congr 1
        ring
      rw [e, ← hd]
      push_cast
      have hsNq : ((significand N 1 : Nat) : ℚ) ≠ 0 := by
        exact_mod_cast (by omega : significand N 1 ≠ 0)
      have := (h2pos (quantum N 1)).ne'
      field_simp
      ring
    rcases h with ⟨hN1, hAP⟩ | h4
    · -- window of one entry: the quotient is `(float)A` itself
      subst hN1
      have hs1 : significand 1 1 = 2 ^ 23 := by decide
      have hq1 : quantum 1 1 = -23 := by decide
      have hone : ((significand 1 1 : Nat) : ℚ) * (2 : ℚ) ^ quantum 1 1 = 1 := by
        rw [hs1, hq1]
        norm_num
      rw [hone, div_one] at hquot
      have hm := round_mono A 1 P 1 hA h1 hP h1
        (by simp only [Nat.cast_one, div_one]; exact_mod_cast hAP)
      rcases round_cases P 1 hP h1 with hi | ⟨hrP, _⟩
      · rw [hi]; exact lt_infinite_left _
      · apply round_le_of_le _ _ _ _ hX hY hP h1
        · rw [hquot, hrP, toRat_finite, Int.cast_natCast]
          rw [hrP, hrA, lt_finite, decide_eq_false_iff_not, toRat_finite, toRat_finite,
            Int.cast_natCast, Int.cast_natCast, not_lt] at hm
          exact hm
        · rw [hrP]; simp
    · apply round_mono _ _ _ _ hX hY hP h1
      rw [hquot, div_le_iff₀ hvN]
      simp only [Nat.cast_one, div_one]
      have hA' : (4 : ℚ) * (A : ℚ) ≤ 3 * (N : ℚ) * (P : ℚ) := by exact_mod_cast h4
      have hNq : (0 : ℚ) < (N : ℚ) := by exact_mod_cast hN
      have hPq : (0 : ℚ) < (P : ℚ) := by exact_mod_cast hP
      have hAq : (0 : ℚ) < (A : ℚ) := by exact_mod_cast hA
      have hb : (P : ℚ) * ((N : ℚ) * (1 - 1 / 2 ^ 24)) ≤
          (P : ℚ) * (((significand N 1 : Nat) : ℚ) * (2 : ℚ) ^ quantum N 1) :=
        mul_le_mul_of_nonneg_left eN1 hPq.le
      have hc : (A : ℚ) * (1 + 1 / 2 ^ 24) ≤ (P : ℚ) * ((N : ℚ) * (1 - 1 / 2 ^ 24)) := by
        have : (0 : ℚ) ≤ (N : ℚ) * (P : ℚ) := (mul_pos hNq hPq).le
        nlinarith
      linarith

end Binary32

namespace Binary32

end Binary32

namespace Binary32

theorem isqrtAux_spec : ∀ (k x acc : Nat), acc * acc ≤ x →
    x < (acc + 2 ^ (k + 1)) * (acc + 2 ^ (k + 1)) →
    isqrtAux k x acc * isqrtAux k x acc ≤ x ∧
      x < (isqrtAux k x acc + 1) * (isqrtAux k x acc + 1) := by
  intro k
  induction k with
  | zero =>
    intro x acc h1 h2
    unfold isqrtAux
    split
    · rename_i h
      exact ⟨h, by simpa [Nat.add_assoc] using h2⟩
    · rename_i h
      exact ⟨h1, by omega⟩
  | succ k ih =>
    intro x acc h1 h2
    unfold isqrtAux
    apply ih
    · split
      · rename_i h; exact h
      · exact h1
    · split
      · have e : acc + 2 ^ (k + 1) + 2 ^ (k + 1) = acc + 2 ^ (k + 1 + 1) := by
          rw [pow_succ 2 (k + 1)]; omega
        rw [e]; exact h2
      · rename_i h; omega

/-- The integer root is the floor of the square root. -/
theorem isqrt_spec (x : Nat) :
    isqrt x * isqrt x ≤ x ∧ x < (isqrt x + 1) * (isqrt x + 1) := by
  unfold isqrt
  apply isqrtAux_spec
  · simp
  · rcases Nat.eq_zero_or_pos x with h0 | hx
    · rw [h0]; simp
    · obtain ⟨_, h2⟩ := log2_spec x hx
      have h1 : 1 ≤ 2 ^ (log2 x + 1) := Nat.one_le_two_pow
      calc x < 2 ^ (log2 x + 1) := h2
        _ = 2 ^ (log2 x + 1) * 1 := (Nat.mul_one _).symm
        _ ≤ 2 ^ (log2 x + 1) * 2 ^ (log2 x + 1) := Nat.mul_le_mul_left _ h1
        _ = (0 + 2 ^ (log2 x + 1)) * (0 + 2 ^ (log2 x + 1)) := by simp

end Binary32

namespace Binary32

/-- The square root of a positive finite value: with `x`, `s` and `h` as in
`sqrt`, the exact root of `m * 2 ^ e` lies between `s * 2 ^ h` and
`(s + 1) * 2 ^ h`, it is `s * 2 ^ h` exactly when `s * s = x`, and the result
of `sqrt` is the rounding of `(s + 1/2) * 2 ^ h` otherwise. -/
theorem sqrt_finite (m e : Int) (hm : 0 < m) :
    ∃ (s : Nat) (h : Int),
      (s : ℝ) * (2 : ℝ) ^ h ≤ Real.sqrt ((m : ℝ) * (2 : ℝ) ^ e) ∧
      Real.sqrt ((m : ℝ) * (2 : ℝ) ^ e) < ((s : ℝ) + 1) * (2 : ℝ) ^ h ∧
      ((s : ℝ) * (2 : ℝ) ^ h = Real.sqrt ((m : ℝ) * (2 : ℝ) ^ e) →
        sqrt (finite m e) = round false (2 * s * pow2 h) (2 * pow2 (-h))) ∧
      ((s : ℝ) * (2 : ℝ) ^ h ≠ Real.sqrt ((m : ℝ) * (2 : ℝ) ^ e) →
        sqrt (finite m e) = round false ((2 * s + 1) * pow2 h) (2 * pow2 (-h))) := by
  obtain ⟨sh, hsh, hsh0⟩ : ∃ sh : Int, sh = (if (e - 64) % 2 = 0 then 64 else 65) ∧ 0 ≤ sh := by
    refine ⟨_, rfl, ?_⟩
    split <;> norm_num
  have hpar : (e - sh) % 2 = 0 := by
    rw [hsh]
    split <;> omega
  obtain ⟨h, hh⟩ : ∃ h : Int, e - sh = 2 * h := ⟨(e - sh) / 2, by omega⟩
  have hdiv : (e - sh) / 2 = h := by omega
  have hspec := isqrt_spec (m.natAbs * 2 ^ sh.toNat)
  set x := m.natAbs * 2 ^ sh.toNat with hx
  set s := isqrt x with hs
  have h2 : (2 : ℝ) ≠ 0 := by norm_num
  have hpow : (0 : ℝ) < (2 : ℝ) ^ h := zpow_pos (by norm_num) _
  -- the value is x * (2 ^ h) ^ 2
  have hval : (m : ℝ) * (2 : ℝ) ^ e = (x : ℝ) * ((2 : ℝ) ^ h) ^ 2 := by
    have hmx : (x : ℝ) = (m : ℝ) * (2 : ℝ) ^ sh := by
      rw [hx]
      push_cast
      have e1 : ((m.natAbs : Nat) : ℝ) = (m : ℝ) := by
        have h0 : ((m.natAbs : Nat) : Int) = m := Int.natAbs_of_nonneg hm.le
        have h1 : (((m.natAbs : Nat) : Int) : ℝ) = (m : ℝ) := by rw [h0]
        rw [← h1, Int.cast_natCast]
      rw [e1, ← zpow_natCast, Int.toNat_of_nonneg hsh0]
    have he : e = sh + (h + h) := by omega
    rw [hmx, he, zpow_add₀ h2, zpow_add₀ h2]
    ring
  have hroot : Real.sqrt ((m : ℝ) * (2 : ℝ) ^ e) = Real.sqrt (x : ℝ) * (2 : ℝ) ^ h := by
    rw [hval, Real.sqrt_mul (Nat.cast_nonneg x), Real.sqrt_sq hpow.le]
  have hlow : (s : ℝ) ≤ Real.sqrt (x : ℝ) := by
    rw [Real.le_sqrt (Nat.cast_nonneg s) (Nat.cast_nonneg x)]
    have : ((s * s : Nat) : ℝ) ≤ (x : ℝ) := by exact_mod_cast hspec.1
    push_cast at this
    nlinarith
  have hup : Real.sqrt (x : ℝ) < (s : ℝ) + 1 := by
    rw [Real.sqrt_lt' (by positivity)]
    have : ((x : Nat) : ℝ) < (((s + 1) * (s + 1) : Nat) : ℝ) := by exact_mod_cast hspec.2
    push_cast at this
    nlinarith
  have hunf : sqrt (finite m e) =
      round false ((2 * s + (if s * s = x then 0 else 1)) * pow2 h) (2 * pow2 (-h)) := by
    unfold sqrt
    simp only
    rw [if_neg (by omega), if_neg (by omega), ← hsh, ← hx, ← hs, hdiv]
  refine ⟨s, h, ?_, ?_, ?_, ?_⟩
  · rw [hroot]
    exact mul_le_mul_of_nonneg_right hlow hpow.le
  · rw [hroot]
    exact mul_lt_mul_of_pos_right hup hpow
  · intro heq
    rw [hroot] at heq
    have h1 : (s : ℝ) = Real.sqrt (x : ℝ) := mul_right_cancel₀ hpow.ne' heq
    have h3 : (s : ℝ) * (s : ℝ) = (x : ℝ) := by
      rw [h1]
      exact Real.mul_self_sqrt (Nat.cast_nonneg x)
    have h4 : s * s = x := by exact_mod_cast h3
    rw [hunf, if_pos h4, Nat.add_zero]
  · intro hne
    have h4 : s * s ≠ x := by
      intro hc
      apply hne
      rw [hroot]
      congr 1
      have : (x : ℝ) = (s : ℝ) * (s : ℝ) := by exact_mod_cast hc.symm
      rw [this, Real.sqrt_mul_self (Nat.cast_nonneg s)]
    rw [hunf, if_neg h4]

end Binary32

/-! ## AutoSync: lemmas -/

namespace AutoSync

theorem toLong_intCast (k : Int) : toLong (k : ℚ) = k := by
  unfold toLong
  split <;> simp

theorem toLong_div (s : Int) (n : Nat) (hn : 0 < n) :
    toLong ((s : ℚ) / (n : ℚ)) = Int.tdiv s n := by
  unfold toLong
  have hnq : (0 : ℚ) < (n : ℚ) := by exact_mod_cast hn
  by_cases hs : 0 ≤ s
  · have : (0 : ℚ) ≤ (s : ℚ) / (n : ℚ) := div_nonneg (by exact_mod_cast hs) hnq.le
    rw [if_pos this, Int.tdiv_eq_ediv hs (by omega)]
    exact Rat.floor_intCast_div_natCast s n
  · have hs' : s < 0 := by omega
    have : ¬ (0 : ℚ) ≤ (s : ℚ) / (n : ℚ) := by
      rw [not_le]
      exact div_neg_of_neg_of_pos (by exact_mod_cast hs') hnq
    rw [if_neg this]
    have h1 : (s : ℚ) / (n : ℚ) = -((((-s : Int)) : ℚ) / (n : ℚ)) := by
      push_cast; ring
    rw [h1, Int.ceil_neg, Rat.floor_intCast_div_natCast]
    have h2 : Int.tdiv s n = -(Int.tdiv (-s) n) := by
      rw [Int.neg_tdiv, neg_neg]
    rw [h2, Int.tdiv_eq_ediv (by omega) (by omega)]

/-- The exact root comparison agrees with the real square root. -/
theorem sqrtLtExact_iff (v p : ℚ) :
    sqrtLtExact v p = true ↔ 0 ≤ v ∧ Real.sqrt (v : ℝ) < (p : ℝ) := by
  unfold sqrtLtExact
  simp only [Bool.and_eq_true, decide_eq_true_eq]
  constructor
  · rintro ⟨⟨hv, hp⟩, hlt⟩
    refine ⟨hv, ?_⟩
    rw [Real.sqrt_lt' (by exact_mod_cast hp)]
    have : (v : ℝ) < (p : ℝ) * (p : ℝ) := by exact_mod_cast hlt
    nlinarith
  · rintro ⟨hv, hlt⟩
    have hp : (0 : ℝ) < (p : ℝ) := lt_of_le_of_lt (Real.sqrt_nonneg _) hlt
    rw [Real.sqrt_lt' hp] at hlt
    refine ⟨⟨hv, by exact_mod_cast hp⟩, ?_⟩
    have : (v : ℝ) < (p : ℝ) * (p : ℝ) := by nlinarith
    exact_mod_cast this

/-- Integer form of `getSyncExact` for a non-empty window. -/
theorem getSyncExact_eq_int (a : AutoSync) (hn : 0 < a.size) :
    a.getSyncExact =
      if a.suppress ≠ 0 then 0
      else if |a.sum| > a.precision * a.size ∧
          0 ≤ a.sum2 * a.size - a.sum * a.sum ∧ 0 < a.precision ∧
          a.sum2 * a.size - a.sum * a.sum < a.precision * a.precision * (a.size * a.size) then
        Int.tdiv a.sum a.size
      else 0 := by
  have hnq : (0 : ℚ) < (a.size : ℚ) := by exact_mod_cast hn
  have hne : (a.size : ℚ) ≠ 0 := ne_of_gt hnq
  have havg : |a.avgExact| > (a.precision : ℚ) ↔ |a.sum| > a.precision * a.size := by
    unfold avgExact
    rw [abs_div, abs_of_pos hnq, gt_iff_lt, lt_div_iff₀ hnq]
    constructor
    · intro h; exact_mod_cast h
    · intro h; exact_mod_cast h
  have hrad : a.radicandExact =
      ((a.sum2 * a.size - a.sum * a.sum : Int) : ℚ) / ((a.size : ℚ) * (a.size : ℚ)) := by
    unfold radicandExact
    push_cast
    field_simp
  have hdev : sqrtLtExact a.radicandExact (a.precision : ℚ) = true ↔
      (0 ≤ a.sum2 * a.size - a.sum * a.sum ∧ 0 < a.precision ∧
        a.sum2 * a.size - a.sum * a.sum < a.precision * a.precision * (a.size * a.size)) := by
    unfold sqrtLtExact
    simp only [Bool.and_eq_true, decide_eq_true_eq]
    have hsq : (0 : ℚ) < (a.size : ℚ) * (a.size : ℚ) := mul_pos hnq hnq
    rw [hrad, div_nonneg_iff, div_lt_iff₀ hsq]
    constructor
    · rintro ⟨⟨h1, h2⟩, h3⟩
      refine ⟨?_, by exact_mod_cast h2, by exact_mod_cast h3⟩
      rcases h1 with h1 | h1
      · exact_mod_cast h1.1
      · exact absurd h1.2 (not_le.mpr hsq)
    · rintro ⟨h1, h2, h3⟩
      exact ⟨⟨Or.inl ⟨by exact_mod_cast h1, hsq.le⟩, by exact_mod_cast h2⟩, by exact_mod_cast h3⟩
  unfold getSyncExact
  by_cases hs : a.suppress ≠ 0
  · simp [hs]
  · rw [if_neg hs, if_neg hs]
    by_cases hc : |a.avgExact| > (a.precision : ℚ) ∧ sqrtLtExact a.radicandExact (a.precision : ℚ) = true
    · rw [if_pos hc, if_pos ⟨havg.mp hc.1, hdev.mp hc.2⟩]
      exact toLong_div a.sum a.size hn
    · rw [if_neg hc, if_neg]
      rintro ⟨h1, h2⟩
      exact hc ⟨havg.mpr h1, hdev.mpr h2⟩

end AutoSync


namespace AutoSync

theorem sum_map_set (f : Int → Int) (l : List Int) (i : Nat) (d : Int) (hi : i < l.length) :
    ((l.set i d).map f).sum = (l.map f).sum + (f d - f (l.getD i 0)) := by
  induction l generalizing i with
  | nil => simp at hi
  | cons x xs ih =>
    cases i with
    | zero => simp; ring
    | succ j =>
      have hj : j < xs.length := by simpa using hi
      simp only [List.set_cons_succ, List.map_cons, List.sum_cons, ih j hj, List.getD_cons_succ]
      ring

theorem sum_set (l : List Int) (i : Nat) (d : Int) (hi : i < l.length) :
    (l.set i d).sum = l.sum + (d - l.getD i 0) := by
  have h := sum_map_set id l i d hi
  simpa using h

theorem WF_create (s : Nat) (p : Int) (hs : 0 < s) : (create s p).WF := by
  unfold WF create
  simp [hs]

theorem WF_add (a : AutoSync) (d : Int) (h : a.WF) : (a.add d).WF := by
  obtain ⟨hlen, hpos, hidx, hsum, hsum2, hsup⟩ := h
  have hi : a.index < a.delays.length := by omega
  refine ⟨?_, ?_, ?_, ?_, ?_, ?_⟩
  · simp [add, hlen]
  · simpa [add] using hpos
  · simp only [add]
    split <;> omega
  · simp only [add]
    rw [sum_set _ _ _ hi, hsum]
  · simp only [add]
    rw [sum_map_set _ _ _ _ hi, hsum2]
  · simp only [add]
    split <;> omega

theorem WF_reset (a : AutoSync) (h : a.WF) : a.reset.WF := by
  obtain ⟨hlen, hpos, hidx, hsum, hsum2, _⟩ := h
  exact ⟨hlen, hpos, hidx, hsum, hsum2, le_refl _⟩

theorem WF_addAll (ds : List Int) (a : AutoSync) (h : a.WF) : (a.addAll ds).WF := by
  induction ds generalizing a with
  | nil => exact h
  | cons d ds ih => exact ih (a.add d) (WF_add a d h)

theorem addAll_append (a : AutoSync) (xs ys : List Int) :
    a.addAll (xs ++ ys) = (a.addAll xs).addAll ys := by
  simp [addAll, List.foldl_append]

theorem size_add (a : AutoSync) (d : Int) : (a.add d).size = a.size := rfl

theorem precision_add (a : AutoSync) (d : Int) : (a.add d).precision = a.precision := rfl

theorem size_addAll (ds : List Int) (a : AutoSync) : (a.addAll ds).size = a.size := by
  induction ds generalizing a with
  | nil => rfl
  | cons d ds ih => exact (ih (a.add d)).trans (size_add a d)

theorem precision_addAll (ds : List Int) (a : AutoSync) :
    (a.addAll ds).precision = a.precision := by
  induction ds generalizing a with
  | nil => rfl
  | cons d ds ih => exact (ih (a.add d)).trans (precision_add a d)

theorem suppress_addAll (ds : List Int) (a : AutoSync) :
    (a.addAll ds).suppress = a.suppress - ds.length := by
  induction ds generalizing a with
  | nil => rfl
  | cons d ds ih =>
    have h1 : (a.add d).suppress = a.suppress - 1 := by
      simp only [add]
      split <;> omega
    have h2 := ih (a.add d)
    simp only [addAll, List.foldl_cons, List.length_cons] at h2 ⊢
    rw [h2, h1]
    omega

theorem getSync_of_suppress (a : AutoSync) (h : a.suppress ≠ 0) : a.getSync = 0 := by
  simp [getSync, h]

theorem getSyncExact_of_suppress (a : AutoSync) (h : a.suppress ≠ 0) : a.getSyncExact = 0 := by
  simp [getSyncExact, h]

/-- The value of `getSync` depends on the countdown, the two totals, the size
and the precision only; used to evaluate it at a concrete state. -/
theorem getSync_eval (a : AutoSync) (s s2 : Int) (n : Nat) (p r : Int)
    (hsup : a.suppress = 0) (hs : a.sum = s) (hs2 : a.sum2 = s2) (hn : a.size = n)
    (hp : a.precision = p)
    (h : getSync (AutoSync.mk [] n 0 s s2 p 0) = r) : a.getSync = r := by
  unfold getSync avg dev at h ⊢
  rw [hsup, hs, hs2, hn, hp]
  exact h

end AutoSync

theorem sum_sq_dev (μ : ℚ) (xs : List Int) :
    (xs.map (fun (x : Int) => ((x : ℚ) - μ) * ((x : ℚ) - μ))).sum =
      (((xs.map (fun x => x * x)).sum : Int) : ℚ) - 2 * μ * ((xs.sum : Int) : ℚ)
        + (xs.length : ℚ) * μ * μ := by
  induction xs with
  | nil => simp
  | cons x xs ih =>
    simp only [List.map_cons, List.sum_cons, ih, List.length_cons]
    push_cast
    ring

theorem popVariance_eq (xs : List Int) (h : 0 < xs.length) :
    popVariance xs =
      ((((xs.map (fun x => x * x)).sum : Int) : ℚ)
        - ((xs.sum : Int) : ℚ) * ((xs.sum : Int) : ℚ) / (xs.length : ℚ)) / (xs.length : ℚ) := by
  have hn : (xs.length : ℚ) ≠ 0 := by exact_mod_cast (Nat.pos_iff_ne_zero.mp h)
  unfold popVariance
  rw [sum_sq_dev]
  unfold listMean
  field_simp
  ring

namespace AutoSync

theorem avgExact_eq_listMean (a : AutoSync) (h : a.WF) : a.avgExact = listMean a.delays := by
  obtain ⟨hlen, _, _, hsum, _, _⟩ := h
  unfold avgExact listMean
  rw [hsum, hlen]

theorem radicandExact_eq_popVariance (a : AutoSync) (h : a.WF) :
    a.radicandExact = popVariance a.delays := by
  obtain ⟨hlen, hpos, _, hsum, hsum2, _⟩ := h
  rw [popVariance_eq _ (by omega)]
  unfold radicandExact
  rw [hsum, hsum2, hlen]

theorem popVariance_nonneg (xs : List Int) : 0 ≤ popVariance xs := by
  unfold popVariance
  apply div_nonneg
  · apply List.sum_nonneg
    intro q hq
    obtain ⟨x, _, rfl⟩ := List.mem_map.mp hq
    exact mul_self_nonneg _
  · exact Nat.cast_nonneg _

end AutoSync

/-- In exact arithmetic the estimate is the truncated mean under the exact
tests: `getSyncExact` returns 0 while the settle countdown is non-zero; once
it is zero it returns the window mean `sum/size` truncated toward zero if the
absolute mean exceeds the precision and the population standard deviation of
the window is below the precision, and 0 otherwise. -/
theorem getSyncExact_truncated_mean (a : AutoSync) (hwf : a.WF) :
    listMean a.delays = (a.sum : ℚ) / (a.size : ℚ) ∧
    (a.suppress ≠ 0 → a.getSyncExact = 0) ∧
    (a.suppress = 0 →
      (|listMean a.delays| > (a.precision : ℚ) ∧
          Real.sqrt ((popVariance a.delays : ℚ) : ℝ) < ((a.precision : ℤ) : ℝ) →
        a.getSyncExact = AutoSync.toLong (listMean a.delays)) ∧
      (¬ (|listMean a.delays| > (a.precision : ℚ) ∧
          Real.sqrt ((popVariance a.delays : ℚ) : ℝ) < ((a.precision : ℤ) : ℝ)) →
        a.getSyncExact = 0)) := by
  have havg := AutoSync.avgExact_eq_listMean a hwf
  have hrad := AutoSync.radicandExact_eq_popVariance a hwf
  have hdev : AutoSync.sqrtLtExact a.radicandExact (a.precision : ℚ) = true ↔
      Real.sqrt ((popVariance a.delays : ℚ) : ℝ) < ((a.precision : ℤ) : ℝ) := by
    rw [AutoSync.sqrtLtExact_iff, hrad]
    constructor
    · rintro ⟨_, h⟩; exact_mod_cast h
    · intro h; exact ⟨AutoSync.popVariance_nonneg _, by exact_mod_cast h⟩
  refine ⟨?_, AutoSync.getSyncExact_of_suppress a, ?_⟩
  · rw [← havg]; rfl
  · intro hs
    unfold AutoSync.getSyncExact
    rw [if_neg (by simp [hs]), havg]
    constructor
    · intro hc; rw [if_pos ⟨hc.1, hdev.mpr hc.2⟩]
    · intro hc; rw [if_neg (fun h => hc ⟨h.1, hdev.mp h.2⟩)]


namespace AutoSync

theorem addAll_replicate_succ (a : AutoSync) (j : Nat) (k : Int) :
    a.addAll (List.replicate (j + 1) k) = (a.addAll (List.replicate j k)).add k := by
  rw [List.replicate_succ', addAll_append]
  rfl

/-- After `j` consecutive `add k` calls, the `j` window positions written
last (counted cyclically back from the write position) hold `k`. -/
theorem window_fill (k : Int) (j : Nat) (a : AutoSync) (hwf : a.WF) :
    ∀ pos, pos < a.size →
      ((pos < (a.addAll (List.replicate j k)).index ∧
          (a.addAll (List.replicate j k)).index ≤ pos + j) ∨
        ((a.addAll (List.replicate j k)).index ≤ pos ∧
          (a.addAll (List.replicate j k)).index + a.size ≤ pos + j)) →
      (a.addAll (List.replicate j k)).delays[pos]? = some k := by
  induction j with
  | zero =>
    intro pos hpos h
    exfalso
    simp only [List.replicate_zero, addAll, List.foldl_nil] at h
    omega
  | succ j ih =>
    intro pos hpos h
    rw [addAll_replicate_succ] at h ⊢
    have hb := WF_addAll (List.replicate j k) a hwf
    have hsz := size_addAll (List.replicate j k) a
    generalize a.addAll (List.replicate j k) = b at ih h hb hsz ⊢
    obtain ⟨hlen, _, hidx, _, _, _⟩ := hb
    simp only [add] at h ⊢
    rw [List.getElem?_set]
    by_cases hp : b.index = pos
    · rw [if_pos hp, if_pos (by omega)]
    · rw [if_neg hp]
      apply ih pos hpos
      split at h <;> omega

theorem delays_addAll_replicate (k : Int) (m : Nat) (a : AutoSync) (hwf : a.WF)
    (hm : a.size ≤ m) :
    (a.addAll (List.replicate m k)).delays = List.replicate a.size k := by
  have hb := WF_addAll (List.replicate m k) a hwf
  have hsz := size_addAll (List.replicate m k) a
  have hfill := window_fill k m a hwf
  generalize a.addAll (List.replicate m k) = b at hfill hb hsz ⊢
  obtain ⟨hlen, _, hidx, _, _, _⟩ := hb
  apply List.ext_getElem?
  intro pos
  by_cases hpos : pos < a.size
  · rw [hfill pos hpos (by omega)]
    simp [List.getElem?_replicate, hpos]
  · rw [List.getElem?_eq_none (by omega), List.getElem?_eq_none (by simp; omega)]

theorem abs_sum_le (p : Int) (l : List Int) (h : ∀ d ∈ l, |d| ≤ p) :
    |l.sum| ≤ p * l.length := by
  induction l with
  | nil => simp
  | cons x xs ih =>
    have hx : |x| ≤ p := h x (List.mem_cons_self _ _)
    have hxs := ih (fun d hd => h d (List.mem_cons_of_mem _ hd))
    simp only [List.sum_cons, List.length_cons]
    push_cast
    have := abs_add x xs.sum
    linarith

/-- In exact arithmetic a consistent window whose entries all have magnitude
at most the precision never yields a correction. -/
theorem getSyncExact_of_bounded (a : AutoSync) (hwf : a.WF)
    (hb : ∀ d ∈ a.delays, |d| ≤ a.precision) : a.getSyncExact = 0 := by
  obtain ⟨hlen, hpos, _, hsum, _, _⟩ := hwf
  rw [getSyncExact_eq_int a hpos]
  have h := abs_sum_le a.precision a.delays hb
  rw [← hsum, hlen] at h
  split
  · rfl
  · rw [if_neg]
    intro hc
    omega

theorem bounded_add (a : AutoSync) (d p : Int) (hd : |d| ≤ p)
    (hb : ∀ x ∈ a.delays, |x| ≤ p) : ∀ x ∈ (a.add d).delays, |x| ≤ p := by
  intro x hx
  simp only [add] at hx
  rcases List.mem_or_eq_of_mem_set hx with h | h
  · exact hb x h
  · rw [h]; exact hd

theorem bounded_addAll (ds : List Int) (a : AutoSync) (p : Int) (hd : ∀ d ∈ ds, |d| ≤ p)
    (hb : ∀ x ∈ a.delays, |x| ≤ p) : ∀ x ∈ (a.addAll ds).delays, |x| ≤ p := by
  induction ds generalizing a with
  | nil => exact hb
  | cons d ds ih =>
    exact ih (a.add d) (fun x hx => hd x (List.mem_cons_of_mem _ hx))
      (bounded_add a d p (hd d (List.mem_cons_self _ _)) hb)

/-- The state after at least `size` consecutive `add k` calls: the countdown
has expired and the totals are those of a window holding `k` everywhere. -/
theorem totals_addAll_replicate (a : AutoSync) (hwf : a.WF) (k : Int) (m : Nat)
    (hm : a.size ≤ m) :
    (a.addAll (List.replicate m k)).suppress = 0 ∧
    (a.addAll (List.replicate m k)).sum = (a.size : Int) * k ∧
    (a.addAll (List.replicate m k)).sum2 = (a.size : Int) * (k * k) ∧
    (a.addAll (List.replicate m k)).size = a.size ∧
    (a.addAll (List.replicate m k)).precision = a.precision := by
  have hb := WF_addAll (List.replicate m k) a hwf
  have hsz := size_addAll (List.replicate m k) a
  have hpr := precision_addAll (List.replicate m k) a
  have hsup := suppress_addAll (List.replicate m k) a
  have hdel := delays_addAll_replicate k m a hwf hm
  generalize a.addAll (List.replicate m k) = b at hb hsz hpr hsup hdel ⊢
  obtain ⟨hlen, hpos, hidx, hsum, hsum2, hle⟩ := hb
  obtain ⟨_, _, _, _, _, hle0⟩ := hwf
  refine ⟨?_, ?_, ?_, hsz, hpr⟩
  · rw [hsup, List.length_replicate]; omega
  · rw [hsum, hdel, List.sum_replicate]; simp
  · rw [hsum2, hdel, List.map_replicate, List.sum_replicate]; simp

/-- In exact arithmetic a steady drift is estimated exactly: from any
consistent state with precision at least 1, after at least `size` consecutive
`add k` calls with `|k|` above the precision, `getSyncExact` is `k`. -/
theorem getSyncExact_constant (a : AutoSync) (hwf : a.WF) (hp : 1 ≤ a.precision)
    (k : Int) (hk : |k| > a.precision) (m : Nat) (hm : a.size ≤ m) :
    (a.addAll (List.replicate m k)).getSyncExact = k := by
  obtain ⟨hs0, hS, hS2, hsz, hpr⟩ := totals_addAll_replicate a hwf k m hm
  have hpos : 0 < (a.addAll (List.replicate m k)).size := by rw [hsz]; exact hwf.2.1
  generalize a.addAll (List.replicate m k) = b at hs0 hS hS2 hsz hpr hpos ⊢
  have hN : (0 : Int) < (a.size : Int) := by exact_mod_cast hwf.2.1
  rw [getSyncExact_eq_int b hpos, if_neg (by simp [hs0]), hS, hS2, hpr, hsz, if_pos]
  · exact Int.mul_tdiv_cancel_left k (ne_of_gt hN)
  · refine ⟨?_, ?_, by omega, ?_⟩
    · rw [abs_mul, abs_of_pos hN, mul_comm]
      exact mul_lt_mul_of_pos_right hk hN
    · have : (a.size : Int) * (k * k) * a.size - a.size * k * (a.size * k) = 0 := by ring
      omega
    · have h0 : (a.size : Int) * (k * k) * a.size - a.size * k * (a.size * k) = 0 := by ring
      rw [h0]
      have hp0 : (0 : Int) < a.precision := by omega
      positivity

end AutoSync


/-! ## AutoSync: the estimate in single precision -/

namespace AutoSync

/-- When the window sum is small against the precision (`|sum| <= precision`
for a window of one entry, `4 * |sum| <= 3 * size * precision` in general) the
binary32 computation of `getSync` returns 0: either `(float)sum` overflows and
the deviation is a NaN, or the rounded quotient does not exceed the rounded
precision. -/
theorem getSync_of_small (a : AutoSync) (hsz : 0 < a.size) (hp : 0 ≤ a.precision)
    (h : (a.size = 1 ∧ |a.sum| ≤ a.precision) ∨ 4 * |a.sum| ≤ 3 * a.size * a.precision) :
    a.getSync = 0 := by
  unfold getSync
  split
  · rfl
  · rw [if_neg]
    rw [Bool.and_eq_true, not_and_or]
    by_cases hinf : Binary32.round false a.sum.natAbs 1 = Binary32.infinite false
    · right
      unfold dev
      have hs : Binary32.ofInt a.sum = Binary32.infinite (decide (a.sum < 0)) := by
        unfold Binary32.ofInt
        exact Binary32.round_infinite _ _ _ hinf
      have hn : Binary32.ofInt (a.size : Int) = Binary32.infinite false ∨
          ∃ (k : Nat) (q : Int), Binary32.ofInt (a.size : Int) = Binary32.finite (k : Int) q := by
        rw [Binary32.ofInt_natCast]
        rcases Binary32.round_cases a.size 1 hsz (by decide) with hi | ⟨hr, _⟩
        · exact Or.inl hi
        · exact Or.inr ⟨_, _, hr⟩
      rw [hs, Binary32.sqrt_nan_of_infinite _ _ _ hn, Binary32.lt_nan_left]
      simp
    · left
      unfold avg
      rw [Binary32.abs_div, Binary32.abs_ofInt, Binary32.abs_ofInt,
        Binary32.ofInt_of_nonneg _ hp, Int.natAbs_ofNat]
      rw [Binary32.lt_div_ofNat a.sum.natAbs a.size a.precision.natAbs hsz _ hinf]
      · simp
      · rcases h with ⟨h1, h2⟩ | h2
        · left
          have := abs_le.mp h2
          refine ⟨h1, ?_⟩
          omega
        · right
          have e1 : ((a.sum.natAbs : Nat) : Int) = |a.sum| := Int.natCast_natAbs _
          have e2 : ((a.precision.natAbs : Nat) : Int) = a.precision := Int.natAbs_of_nonneg hp
          have : ((4 * a.sum.natAbs : Nat) : Int) ≤
              ((3 * a.size * a.precision.natAbs : Nat) : Int) := by
            push_cast
            rw [abs_of_nonneg hp]
            exact h2
          exact_mod_cast this

theorem holds_create (s : Nat) (p : Int) : (create s p).Holds (List.replicate s 0) := by
  refine ⟨[], List.replicate s 0, ?_, ?_, ?_, ?_⟩ <;> simp [create]

theorem holds_add (a : AutoSync) (h : List Int) (d : Int) (hwf : a.WF) (hh : a.Holds h) :
    (a.add d).Holds (h ++ [d]) := by
  obtain ⟨hlen, hpos, hidx, _, _, _⟩ := hwf
  obtain ⟨front, back, hd, hf, hb, hsz⟩ := hh
  have hlb : front.length + back.length = a.size := by
    rw [← hlen, hd, List.length_append]
  cases back with
  | nil => simp at hlb; omega
  | cons old rest =>
    have hdrop : (h ++ [d]).drop ((h ++ [d]).length - a.size) = rest ++ front ++ [d] := by
      have e : (h ++ [d]).length - a.size = (h.length - a.size) + 1 := by
        rw [List.length_append, List.length_singleton]; omega
      rw [e, List.drop_append_of_le_length (by omega), ← List.drop_drop, ← hb]
      simp
    have hset : (a.add d).delays = front ++ d :: rest := by
      simp only [add]
      rw [hd, ← hf]
      simp
    simp only [List.length_cons] at hlb
    by_cases hw : a.index + 1 ≥ a.size
    · have hrest : rest = [] := by
        apply List.eq_nil_of_length_eq_zero
        omega
      subst hrest
      refine ⟨[], front ++ [d], ?_, ?_, ?_, ?_⟩
      · rw [hset]; simp
      · simp only [add, List.length_nil]
        rw [if_pos hw]
      · rw [size_add, hdrop]; simp
      · rw [size_add, List.length_append, List.length_singleton]; omega
    · refine ⟨front ++ [d], rest, ?_, ?_, ?_, ?_⟩
      · rw [hset]; simp
      · simp only [add, List.length_append, List.length_singleton]
        rw [if_neg hw, hf]
      · rw [size_add, hdrop]; simp
      · rw [size_add, List.length_append, List.length_singleton]; omega

theorem holds_addAll (ds : List Int) (a : AutoSync) (h : List Int) (hwf : a.WF)
    (hh : a.Holds h) : (a.addAll ds).Holds (h ++ ds) := by
  induction ds generalizing a h with
  | nil => simpa [addAll] using hh
  | cons d ds ih =>
    have := ih (a.add d) (h ++ [d]) (WF_add a d hwf) (holds_add a h d hwf hh)
    simpa [addAll] using this

/-- Once at least `size` observations have been fed to a fresh estimator, the
running sum is the sum of the last `size` observations. -/
theorem sum_addAll_create (N : Nat) (p : Int) (hN : 0 < N) (l : List Int)
    (hl : N ≤ l.length) :
    ((create N p).addAll l).sum = (l.drop (l.length - N)).sum := by
  have hwf := WF_addAll l _ (WF_create N p hN)
  obtain ⟨front, back, hd, _, hb, _⟩ :=
    holds_addAll l (create N p) (List.replicate N 0) (WF_create N p hN) (holds_create N p)
  rw [size_addAll] at hb
  have hsz : (create N p).size = N := rfl
  rw [hsz] at hb
  obtain ⟨_, _, _, hsum, _, _⟩ := hwf
  rw [hsum, hd, List.sum_append, add_comm, ← List.sum_append, hb]
  congr 1
  rw [List.length_append, List.length_replicate, List.drop_append_eq_append_drop]
  have e1 : N + l.length - N = l.length := by omega
  rw [e1, List.length_replicate, List.drop_eq_nil_of_le (by simp; omega), List.nil_append]

end AutoSync

/-- Two adjacent observations of opposite sign partly cancel. -/
theorem abs_add_le_of_mul_neg (x y p : Int) (hxy : x * y < 0) (hx : |x| ≤ p) (hy : |y| ≤ p) :
    |x + y| ≤ p := by
  rw [abs_le] at hx hy ⊢
  rcases lt_trichotomy x 0 with h | h | h
  · have hy0 : 0 < y := by
      by_contra hc
      have : 0 ≤ x * y := mul_nonneg_of_nonpos_of_nonpos h.le (by omega)
      omega
    constructor <;> omega
  · rw [h, zero_mul] at hxy; omega
  · have hy0 : y < 0 := by
      by_contra hc
      have : 0 ≤ x * y := mul_nonneg h.le (by omega)
      omega
    constructor <;> omega

/-- The sum of a sign-alternating list with magnitudes at most `p` is at most
`p` times half the length, rounded up. -/
theorem alternating_sum_le (p : Int) (hp : 0 ≤ p) :
    ∀ c : List Int, List.Chain' (fun x y : Int => x * y < 0) c → (∀ d ∈ c, |d| ≤ p) →
      2 * |c.sum| ≤ (c.length + 1) * p
  | [], _, _ => by simp; omega
  | [x], _, hm => by
    have := hm x (List.mem_singleton_self x)
    simp
    omega
  | x :: y :: rest, hc, hm => by
    have hx := hm x (List.mem_cons_self _ _)
    have hy := hm y (List.mem_cons_of_mem _ (List.mem_cons_self _ _))
    have hxy : x * y < 0 := (List.chain'_cons.mp hc).1
    have hrest := alternating_sum_le p hp rest
      (List.chain'_cons.mp hc).2.tail
      (fun d hd => hm d (List.mem_cons_of_mem _ (List.mem_cons_of_mem _ hd)))
    have h1 := abs_add_le_of_mul_neg x y p hxy hx hy
    have h2 : |(x :: y :: rest).sum| ≤ |x + y| + |rest.sum| := by
      have : (x :: y :: rest).sum = (x + y) + rest.sum := by simp; ring
      rw [this]
      exact abs_add _ _
    simp only [List.length_cons] at hrest ⊢
    push_cast at hrest ⊢
    nlinarith

namespace Binary32

end Binary32

namespace AutoSync

end AutoSync

namespace AutoSync

end AutoSync

theorem steadyDrift_totals :
    steadyDrift.suppress = 0 ∧ steadyDrift.sum = 193200 ∧ steadyDrift.sum2 = 62210400 ∧
    steadyDrift.size = 600 ∧ steadyDrift.precision = 320 := by
  obtain ⟨h1, h2, h3, h4, h5⟩ := AutoSync.totals_addAll_replicate
    (AutoSync.create 600 320) (AutoSync.WF_create _ _ (by norm_num)) 322 600 (le_refl 600)
  unfold steadyDrift
  refine ⟨h1, ?_, ?_, ?_, ?_⟩
  · rw [h2]; show ((600 : Nat) : Int) * 322 = 193200; norm_num
  · rw [h3]; show ((600 : Nat) : Int) * (322 * 322) = 62210400; norm_num
  · rw [h4]; rfl
  · rw [h5]; rfl

theorem steadyDrift_dev : steadyDrift.dev = Binary32.nan := by
  obtain ⟨_, h2, h3, h4, _⟩ := steadyDrift_totals
  unfold AutoSync.dev
  rw [h2, h3, h4]
  decide

theorem steadyDrift_getSync : steadyDrift.getSync = 0 := by
  obtain ⟨h1, h2, h3, h4, h5⟩ := steadyDrift_totals
  exact AutoSync.getSync_eval steadyDrift 193200 62210400 600 320 0 h1 h2 h3 h4 h5 (by decide)

theorem steadyDrift_getSyncExact : steadyDrift.getSyncExact = 322 := by
  unfold steadyDrift
  exact AutoSync.getSyncExact_constant (AutoSync.create 600 320)
    (AutoSync.WF_create _ _ (by norm_num)) (by decide) 322 (by decide) 600 (le_refl 600)

theorem resetTwice_getSync :
    (((AutoSync.create 2 1).reset).addAll [5, 5]).getSync = 5 ∧
    ((AutoSync.create 2 1).addAll [5, 5]).getSync = 5 :=
  ⟨AutoSync.getSync_eval _ 10 50 2 1 5 (by decide) (by decide) (by decide) (by decide)
      (by decide) (by decide),
    AutoSync.getSync_eval _ 10 50 2 1 5 (by decide) (by decide) (by decide) (by decide)
      (by decide) (by decide)⟩

/-- The deviation test in binary32: the window 5001, 4999 has deviation exactly
1, which is not below the precision 1, so in exact arithmetic the estimate is
0; in binary32 `(float)sum2` is rounded from 50000002 to 50000000, the
radicand comes out as 0 and `getSync` returns 5000. -/
theorem tieState_getSync :
    tieState.suppress = 0 ∧ tieState.precision = 1 ∧ popVariance tieState.delays = 1 ∧
    tieState.getSyncExact = 0 ∧ tieState.getSync = 5000 := by
  refine ⟨by decide, by decide, ?_, ?_, ?_⟩
  · have hd : tieState.delays = [5001, 4999] := by decide
    rw [popVariance_eq _ (by decide), hd]
    norm_num
  · rw [AutoSync.getSyncExact_eq_int _ (by decide)]
    decide
  · exact AutoSync.getSync_eval _ 10000 50000002 2 1 5000 (by decide) (by decide) (by decide)
      (by decide) (by decide) (by decide)

/-- C2 (code defect): at the parameters of the program (window 600, precision
320), after 600 observations of a steady drift of 322 samples the window holds
322 everywhere and the estimate in exact arithmetic is 322, but in binary32
the product `(float)sum * (float)sum` and its quotient by the size are rounded,
the radicand comes out negative, `dev` is a NaN, the second test fails and
`getSync` returns 0, which is not within 1 of 322. -/
theorem getSync_constant_lost :
    steadyDrift = (AutoSync.create 600 320).addAll (List.replicate 600 322) ∧
    steadyDrift.suppress = 0 ∧
    steadyDrift.delays = List.replicate 600 322 ∧
    steadyDrift.precision = 320 ∧
    steadyDrift.getSyncExact = 322 ∧
    steadyDrift.dev = Binary32.nan ∧
    steadyDrift.getSync = 0 ∧
    ¬ (|steadyDrift.getSync - 322| ≤ 1) := by
  refine ⟨rfl, steadyDrift_totals.1, ?_, steadyDrift_totals.2.2.2.2, steadyDrift_getSyncExact,
    steadyDrift_dev, steadyDrift_getSync, ?_⟩
  · unfold steadyDrift
    rw [AutoSync.delays_addAll_replicate 322 600 _ (AutoSync.WF_create _ _ (by norm_num))
      (le_refl 600)]
    rfl
  · rw [steadyDrift_getSync]
    decide

/-- C3: starting from a freshly constructed estimator (window size at least
1, precision at least 0), after every `add` of a sequence of observations that
alternate in sign and have magnitude at most the precision, `getSync`
returns 0. -/
theorem getSync_jitter (N : Nat) (hN : 1 ≤ N) (p : Int) (hp : 0 ≤ p) (ds : List Int)
    (halt : List.Chain' (fun x y : Int => x * y < 0) ds) (hmag : ∀ d ∈ ds, |d| ≤ p)
    (n : Nat) :
    ((AutoSync.create N p).addAll (ds.take n)).getSync = 0 := by
  by_cases hl : (ds.take n).length < N
  · apply AutoSync.getSync_of_suppress
    rw [AutoSync.suppress_addAll]
    simp only [AutoSync.create]
    omega
  · have hsum := AutoSync.sum_addAll_create N p hN (ds.take n) (by omega)
    have hc : List.Chain' (fun x y : Int => x * y < 0)
        ((ds.take n).drop ((ds.take n).length - N)) := (halt.take n).drop _
    have hb := alternating_sum_le p hp _ hc
      (fun d hd => hmag d (List.mem_of_mem_take (List.mem_of_mem_drop hd)))
    have hlen : ((ds.take n).drop ((ds.take n).length - N)).length = N := by
      rw [List.length_drop]; omega
    rw [hlen, ← hsum] at hb
    have hsz : (AutoSync.create N p).size = N := rfl
    have hpr : (AutoSync.create N p).precision = p := rfl
    apply AutoSync.getSync_of_small
    · rw [AutoSync.size_addAll]; exact hN
    · rw [AutoSync.precision_addAll]; exact hp
    · rw [AutoSync.size_addAll, AutoSync.precision_addAll, hsz, hpr]
      generalize ((AutoSync.create N p).addAll (ds.take n)).sum = s at hb
      generalize |s| = t at hb
      by_cases h1 : N = 1
      · left
        refine ⟨h1, ?_⟩
        rw [h1] at hb
        push_cast at hb
        omega
      · right
        have hN2 : (2 : Int) ≤ (N : Int) := by
          have : 2 ≤ N := by omega
          exact_mod_cast this
        nlinarith

theorem getSync_jitter_witness :
    List.Chain' (fun x y : Int => x * y < 0) [3, -2, 3, -1] ∧
    ((AutoSync.create 2 3).addAll ([3, -2, 3, -1].take 3)).getSync = 0 :=
  ⟨by simp,
    getSync_jitter 2 (by decide) 3 (by decide) [3, -2, 3, -1] (by simp) (by decide) 3⟩

/-- C4 (as stated) fails: with window size 2 and precision 1, the second
`add` after `reset` (and after construction) already yields a non-zero
estimate. -/
theorem getSync_after_size_adds :
    [(5 : Int), 5].length = (AutoSync.create 2 1).size ∧
    (((AutoSync.create 2 1).reset).addAll [5, 5]).getSync = 5 ∧
    ((AutoSync.create 2 1).addAll [5, 5]).getSync = 5 :=
  ⟨rfl, resetTwice_getSync.1, resetTwice_getSync.2⟩

/-- C4 (amended): for an estimator in any state with window size `N`, after
`reset()` and likewise right after construction, `getSync` returns 0 after
each of the next `N - 1` `add` calls, whatever the values added. -/
theorem getSync_suppressed (a : AutoSync) (ds : List Int) (h : ds.length < a.size) :
    ((a.reset).addAll ds).getSync = 0 ∧
    ((AutoSync.create a.size a.precision).addAll ds).getSync = 0 := by
  constructor
  · apply AutoSync.getSync_of_suppress
    rw [AutoSync.suppress_addAll]
    simp only [AutoSync.reset]
    omega
  · apply AutoSync.getSync_of_suppress
    rw [AutoSync.suppress_addAll]
    simp only [AutoSync.create]
    omega

theorem getSync_suppressed_witness :
    [(1000 : Int), 2000].length < (AutoSync.create 3 1).size ∧
    (((AutoSync.create 3 1).reset).addAll [1000, 2000]).getSync = 0 :=
  ⟨by decide, (getSync_suppressed (AutoSync.create 3 1) [1000, 2000] (by decide)).1⟩

/-! ## Sample buffers: lemmas -/

theorem tdiv_cases (x : Int) (d : Int) (hd : 0 < d) :
    (0 ≤ x → Int.tdiv x d = x / d) ∧ (x < 0 → Int.tdiv x d = -((-x) / d)) := by
  constructor
  · intro hx
    exact Int.tdiv_eq_ediv hx (le_of_lt hd)
  · intro hx
    have h : Int.tdiv x d = -(Int.tdiv (-x) d) := by rw [Int.neg_tdiv, neg_neg]
    rw [h, Int.tdiv_eq_ediv (by omega) (le_of_lt hd)]

theorem toInt16_of_range (v : Int) (h1 : -32768 ≤ v) (h2 : v ≤ 32767) : toInt16 v = v := by
  unfold toInt16; omega

theorem toInt16_idem (v : Int) : toInt16 (toInt16 v) = toInt16 v := by
  unfold toInt16; omega

theorem readSample_range (b : Buffer) (i : Nat) :
    -32768 ≤ readSample b i ∧ readSample b i ≤ 32767 := by
  unfold readSample
  have h1 := (b.getD (2 * i) 0).isLt
  have h2 := (b.getD (2 * i + 1) 0).isLt
  simp only
  split <;> omega

theorem readSample_congr (a b : Buffer) (i : Nat) (h1 : a[2 * i]? = b[2 * i]?)
    (h2 : a[2 * i + 1]? = b[2 * i + 1]?) : readSample a i = readSample b i := by
  unfold readSample
  simp only [List.getD_eq_getElem?_getD, h1, h2]

theorem length_writeSample (b : Buffer) (i : Nat) (v : Int) :
    (writeSample b i v).length = b.length := by
  simp [writeSample]

theorem getElem?_writeSample_of_ne (b : Buffer) (i : Nat) (v : Int) (k : Nat)
    (h1 : k ≠ 2 * i) (h2 : k ≠ 2 * i + 1) : (writeSample b i v)[k]? = b[k]? := by
  unfold writeSample
  simp only [List.getElem?_set]
  rw [if_neg (by omega), if_neg (by omega)]

theorem readSample_writeSample_ne (b : Buffer) (i j : Nat) (v : Int) (h : j ≠ i) :
    readSample (writeSample b i v) j = readSample b j := by
  apply readSample_congr
  · exact getElem?_writeSample_of_ne b i v _ (by omega) (by omega)
  · exact getElem?_writeSample_of_ne b i v _ (by omega) (by omega)

theorem getElem?_writeSample_low (b : Buffer) (i : Nat) (v : Int) (h : 2 * i + 1 < b.length) :
    (writeSample b i v)[2 * i]? =
      some ⟨(v % 65536).toNat % 256, Nat.mod_lt _ (by decide)⟩ := by
  unfold writeSample
  rw [List.getElem?_set, if_neg (by omega), List.getElem?_set, if_pos rfl, if_pos (by omega)]

theorem getElem?_writeSample_high (b : Buffer) (i : Nat) (v : Int) (h : 2 * i + 1 < b.length) :
    (writeSample b i v)[2 * i + 1]? =
      some ⟨(v % 65536).toNat / 256 % 256, Nat.mod_lt _ (by decide)⟩ := by
  unfold writeSample
  rw [List.getElem?_set, if_pos rfl, if_pos (by simpa using h)]

theorem readSample_writeSample_same (b : Buffer) (i : Nat) (v : Int)
    (h : 2 * i + 1 < b.length) : readSample (writeSample b i v) i = toInt16 v := by
  unfold readSample toInt16
  simp only [List.getD_eq_getElem?_getD, getElem?_writeSample_low b i v h,
    getElem?_writeSample_high b i v h, Option.getD_some]
  have hu : 0 ≤ v % 65536 := Int.emod_nonneg _ (by decide)
  have hu2 : v % 65536 < 65536 := Int.emod_lt_of_pos _ (by decide)
  have hcast : (((v % 65536).toNat : Nat) : Int) = v % 65536 := Int.toNat_of_nonneg hu
  generalize (v % 65536).toNat = u at hcast
  split <;> omega

/-! ## Mixing loops -/

/-- Invariant of the loop of `mixToMono` after `n` iterations. -/
theorem mixToMono_loop (loc rem : Buffer) (n : Nat) (hl : 2 * n ≤ loc.length) :
    ((List.range n).foldl
        (fun b i => writeSample b i (toInt16 (Int.tdiv (readSample b i + readSample rem i) 2)))
        loc).length = loc.length ∧
    (∀ k, 2 * n ≤ k →
      ((List.range n).foldl
        (fun b i => writeSample b i (toInt16 (Int.tdiv (readSample b i + readSample rem i) 2)))
        loc)[k]? = loc[k]?) ∧
    (∀ i, i < n →
      readSample ((List.range n).foldl
        (fun b i => writeSample b i (toInt16 (Int.tdiv (readSample b i + readSample rem i) 2)))
        loc) i = toInt16 (Int.tdiv (readSample loc i + readSample rem i) 2)) := by
  induction n with
  | zero =>
    refine ⟨rfl, fun k _ => rfl, fun i hi => ?_⟩
    omega
  | succ n ih =>
    obtain ⟨ihlen, ihbytes, ihsamp⟩ := ih (by omega)
    rw [List.range_succ, List.foldl_append]
    simp only [List.foldl_cons, List.foldl_nil]
    generalize (List.range n).foldl
      (fun b i => writeSample b i (toInt16 (Int.tdiv (readSample b i + readSample rem i) 2)))
      loc = a at ihlen ihbytes ihsamp
    have hread : readSample a n = readSample loc n :=
      readSample_congr a loc n (ihbytes _ (by omega)) (ihbytes _ (by omega))
    refine ⟨?_, ?_, ?_⟩
    · rw [length_writeSample, ihlen]
    · intro k hk
      rw [getElem?_writeSample_of_ne _ _ _ _ (by omega) (by omega)]
      exact ihbytes k (by omega)
    · intro i hi
      by_cases hin : i = n
      · subst hin
        rw [readSample_writeSample_same _ _ _ (by omega), toInt16_idem, hread]
      · rw [readSample_writeSample_ne _ _ _ _ hin]
        exact ihsamp i (by omega)

/-- Invariant of the loop of `mixToStereo` after `n` iterations. -/
theorem mixToStereo_loop (fl fr : Int) (loc rem : Buffer) (n : Nat)
    (hl : 2 * n ≤ loc.length) (hr : 2 * n ≤ rem.length) :
    ((List.range n).foldl (Call.mixToStereoStep fl fr) (loc, rem)).1.length = loc.length ∧
    ((List.range n).foldl (Call.mixToStereoStep fl fr) (loc, rem)).2.length = rem.length ∧
    (∀ k, 2 * n ≤ k →
      ((List.range n).foldl (Call.mixToStereoStep fl fr) (loc, rem)).1[k]? = loc[k]? ∧
      ((List.range n).foldl (Call.mixToStereoStep fl fr) (loc, rem)).2[k]? = rem[k]?) ∧
    (∀ i, i < n →
      readSample ((List.range n).foldl (Call.mixToStereoStep fl fr) (loc, rem)).1 i =
        toInt16 (Int.tdiv (readSample loc i * fl + readSample rem i * fr + 50) 100) ∧
      readSample ((List.range n).foldl (Call.mixToStereoStep fl fr) (loc, rem)).2 i =
        toInt16 (Int.tdiv (readSample loc i * fr + readSample rem i * fl + 50) 100)) := by
  induction n with
  | zero =>
    refine ⟨rfl, rfl, fun k _ => ⟨rfl, rfl⟩, fun i hi => ?_⟩
    omega
  | succ n ih =>
    obtain ⟨ihl, ihr, ihbytes, ihsamp⟩ := ih (by omega) (by omega)
    rw [List.range_succ, List.foldl_append]
    simp only [List.foldl_cons, List.foldl_nil]
    generalize (List.range n).foldl (Call.mixToStereoStep fl fr) (loc, rem) = ab
      at ihl ihr ihbytes ihsamp
    obtain ⟨a, b⟩ := ab
    simp only at ihl ihr ihbytes ihsamp
    have hra : readSample a n = readSample loc n :=
      readSample_congr a loc n (ihbytes _ (by omega)).1 (ihbytes _ (by omega)).1
    have hrb : readSample b n = readSample rem n :=
      readSample_congr b rem n (ihbytes _ (by omega)).2 (ihbytes _ (by omega)).2
    simp only [Call.mixToStereoStep]
    refine ⟨?_, ?_, ?_, ?_⟩
    · rw [length_writeSample, ihl]
    · rw [length_writeSample, ihr]
    · intro k hk
      rw [getElem?_writeSample_of_ne _ _ _ _ (by omega) (by omega),
        getElem?_writeSample_of_ne _ _ _ _ (by omega) (by omega)]
      exact ihbytes k (by omega)
    · intro i hi
      by_cases hin : i = n
      · subst hin
        rw [readSample_writeSample_same _ _ _ (by omega),
          readSample_writeSample_same _ _ _ (by omega), toInt16_idem, toInt16_idem, hra, hrb]
        exact ⟨rfl, rfl⟩
      · rw [readSample_writeSample_ne _ _ _ _ hin, readSample_writeSample_ne _ _ _ _ hin]
        exact ihsamp i (by omega)

theorem half_sum_range (x y : Int) (hx1 : -32768 ≤ x) (hx2 : x ≤ 32767) (hy1 : -32768 ≤ y)
    (hy2 : y ≤ 32767) : -32768 ≤ Int.tdiv (x + y) 2 ∧ Int.tdiv (x + y) 2 ≤ 32767 := by
  have h := tdiv_cases (x + y) 2 (by decide)
  by_cases hs : 0 ≤ x + y
  · rw [h.1 hs]; omega
  · rw [h.2 (by omega)]; omega

theorem crossfade_range (x y pan : Int) (hp0 : 0 ≤ pan) (hp1 : pan ≤ 100)
    (hx1 : -32768 ≤ x) (hx2 : x ≤ 32767) (hy1 : -32768 ≤ y) (hy2 : y ≤ 32767) :
    -32768 ≤ Int.tdiv (x * (100 - pan) + y * pan + 50) 100 ∧
    Int.tdiv (x * (100 - pan) + y * pan + 50) 100 ≤ 32767 := by
  have hq : 0 ≤ 100 - pan := by omega
  have h1 : x * (100 - pan) ≤ 32767 * (100 - pan) := mul_le_mul_of_nonneg_right hx2 hq
  have h2 : -32768 * (100 - pan) ≤ x * (100 - pan) := mul_le_mul_of_nonneg_right hx1 hq
  have h3 : y * pan ≤ 32767 * pan := mul_le_mul_of_nonneg_right hy2 hp0
  have h4 : -32768 * pan ≤ y * pan := mul_le_mul_of_nonneg_right hy1 hp0
  generalize x * (100 - pan) = u at h1 h2
  generalize y * pan = w at h3 h4
  have h := tdiv_cases (u + w + 50) 100 (by decide)
  by_cases hs : 0 ≤ u + w + 50
  · rw [h.1 hs]; omega
  · rw [h.2 (by omega)]; omega

/-- C5: `mixToMono(n)` replaces each of the first `n` local samples by
`(local[i] + remote[i]) / 2` truncated toward zero, a value that fits in 16
bits, and leaves the rest of the local buffer and the whole remote buffer
unchanged. -/
theorem mixToMono_spec (c : Call) (n : Nat) (hl : 2 * n ≤ c.bufferLocal.length)
    (_hr : 2 * n ≤ c.bufferRemote.length) :
    (∀ i, i < n →
      readSample (c.mixToMono n).bufferLocal i =
        Int.tdiv (readSample c.bufferLocal i + readSample c.bufferRemote i) 2 ∧
      -32768 ≤ Int.tdiv (readSample c.bufferLocal i + readSample c.bufferRemote i) 2 ∧
      Int.tdiv (readSample c.bufferLocal i + readSample c.bufferRemote i) 2 ≤ 32767) ∧
    (c.mixToMono n).bufferLocal.length = c.bufferLocal.length ∧
    (∀ k, 2 * n ≤ k → (c.mixToMono n).bufferLocal[k]? = c.bufferLocal[k]?) ∧
    (∀ i, n ≤ i → readSample (c.mixToMono n).bufferLocal i = readSample c.bufferLocal i) ∧
    (c.mixToMono n).bufferRemote = c.bufferRemote := by
  obtain ⟨hlen, hbytes, hsamp⟩ := mixToMono_loop c.bufferLocal c.bufferRemote n hl
  simp only [Call.mixToMono, Int.toNat_ofNat]
  refine ⟨?_, hlen, hbytes, ?_, trivial⟩
  · intro i hi
    have hx := readSample_range c.bufferLocal i
    have hy := readSample_range c.bufferRemote i
    have hrange := half_sum_range _ _ hx.1 hx.2 hy.1 hy.2
    refine ⟨?_, hrange⟩
    rw [hsamp i hi, toInt16_of_range _ hrange.1 hrange.2]
  · intro i hi
    exact readSample_congr _ _ i (hbytes _ (by omega)) (hbytes _ (by omega))

theorem mixToMono_spec_witness :
    2 * 2 ≤ (Call.withSamples [2000, -2000] [1000, 3000]).bufferLocal.length ∧
    2 * 2 ≤ (Call.withSamples [2000, -2000] [1000, 3000]).bufferRemote.length ∧
    samplesOf (Call.withSamples [2000, -2000] [1000, 3000]).bufferLocal = [2000, -2000] ∧
    samplesOf (Call.withSamples [2000, -2000] [1000, 3000]).bufferRemote = [1000, 3000] ∧
    readSample ((Call.withSamples [2000, -2000] [1000, 3000]).mixToMono (2 : Nat)).bufferLocal 0
      = 1500 ∧
    readSample ((Call.withSamples [2000, -2000] [1000, 3000]).mixToMono (2 : Nat)).bufferLocal 1
      = 500 :=
  ⟨by decide, by decide, by decide, by decide,
    (((mixToMono_spec (Call.withSamples [2000, -2000] [1000, 3000]) 2 (by decide)
      (by decide)).1 0 (by decide)).1).trans (by decide),
    (((mixToMono_spec (Call.withSamples [2000, -2000] [1000, 3000]) 2 (by decide)
      (by decide)).1 1 (by decide)).1).trans (by decide)⟩

/-! ## tryToWrite: lemmas -/

namespace AutoSync

/-- The state of a fresh estimator after `j < N` observations of `k`. -/
theorem create_addAll_replicate (N : Nat) (p k : Int) (j : Nat) (hj : j < N) :
    ((create N p).addAll (List.replicate j k)).sum = j * k ∧
    ((create N p).addAll (List.replicate j k)).sum2 = j * (k * k) ∧
    ((create N p).addAll (List.replicate j k)).index = j ∧
    (∀ pos, j ≤ pos → ((create N p).addAll (List.replicate j k)).delays.getD pos 0 = 0) := by
  induction j with
  | zero =>
    refine ⟨by simp [addAll, create], by simp [addAll, create], rfl, ?_⟩
    intro pos _
    simp only [List.replicate_zero, addAll, List.foldl_nil, create, List.getD_eq_getElem?_getD,
      List.getElem?_replicate]
    split <;> rfl
  | succ j ih =>
    obtain ⟨h1, h2, h3, h4⟩ := ih (by omega)
    have hsz := size_addAll (List.replicate j k) (create N p)
    rw [addAll_replicate_succ]
    generalize (create N p).addAll (List.replicate j k) = b at h1 h2 h3 h4 hsz
    have hN : b.size = N := hsz
    refine ⟨?_, ?_, ?_, ?_⟩
    · simp only [add, h1, h3, h4 j (le_refl _)]
      push_cast; ring
    · simp only [add, h2, h3, h4 j (le_refl _)]
      push_cast; ring
    · simp only [add, h3, hN]
      rw [if_neg (by omega)]
    · intro pos hpos
      simp only [add, h3, List.getD_eq_getElem?_getD, List.getElem?_set]
      rw [if_neg (by omega)]
      have := h4 pos (by omega)
      rwa [List.getD_eq_getElem?_getD] at this

/-- The totals of a fresh estimator after `j < N` observations of `k` followed
by one observation of `d`. -/
theorem create_addAll_replicate_add (N : Nat) (p k : Int) (j : Nat) (hj : j < N) (d : Int) :
    (((create N p).addAll (List.replicate j k)).add d).sum = j * k + d ∧
    (((create N p).addAll (List.replicate j k)).add d).sum2 = j * (k * k) + d * d ∧
    (((create N p).addAll (List.replicate j k)).add d).suppress = N - j - 1 ∧
    (((create N p).addAll (List.replicate j k)).add d).size = N ∧
    (((create N p).addAll (List.replicate j k)).add d).precision = p := by
  obtain ⟨h1, h2, h3, h4⟩ := create_addAll_replicate N p k j hj
  have hsz := size_addAll (List.replicate j k) (create N p)
  have hpr := precision_addAll (List.replicate j k) (create N p)
  have hsup := suppress_addAll (List.replicate j k) (create N p)
  generalize (create N p).addAll (List.replicate j k) = b at h1 h2 h3 h4 hsz hpr hsup
  have hN : b.size = N := hsz
  have hP : b.precision = p := hpr
  have hS : b.suppress = N - j := by
    rw [hsup, List.length_replicate]; rfl
  refine ⟨?_, ?_, ?_, hN, hP⟩
  · simp only [add, h1, h3, h4 j (le_refl _)]
    ring
  · simp only [add, h2, h3, h4 j (le_refl _)]
    ring
  · simp only [add, hS]
    split <;> omega

end AutoSync

theorem driftingSync_add_getSync : (driftingSync.add 320001).getSync = 320000 := by
  unfold driftingSync
  obtain ⟨hs, hs2, hsup, hsz, hpr⟩ :=
    AutoSync.create_addAll_replicate_add (100 * 2 * 3) 320 320000 599 (by norm_num) 320001
  exact AutoSync.getSync_eval _ 192000001 61440000640001 600 320 320000
    (by rw [hsup]) (by rw [hs]; norm_num) (by rw [hs2]; norm_num) (by rw [hsz]) hpr (by decide)


namespace Call

theorem bufferLocal_doSync (c : Call) (s : Int) :
    (c.doSync s).bufferLocal =
      if 0 < s then c.bufferLocal ++ zeroBytes (s * 2) else c.bufferLocal := by
  unfold doSync
  by_cases h : 0 < s
  · simp only [gt_iff_lt, h, if_true, emit]
  · simp only [gt_iff_lt, h, if_false, emit]

theorem bufferRemote_doSync (c : Call) (s : Int) :
    (c.doSync s).bufferRemote =
      if 0 < s then c.bufferRemote else c.bufferRemote ++ zeroBytes (s * -2) := by
  unfold doSync
  by_cases h : 0 < s
  · simp only [gt_iff_lt, h, if_true, emit]
  · simp only [gt_iff_lt, h, if_false, emit]

theorem log_le_doSync (c : Call) (s : Int) : c.log <+: (c.doSync s).log := by
  unfold doSync
  split
  · exact List.prefix_append _ _
  · exact List.prefix_append _ _

theorem bufferLocal_syncStep (c : Call) :
    c.syncStep.bufferLocal =
      if 0 < c.syncAmount then c.bufferLocal ++ zeroBytes (c.syncAmount * 2)
      else c.bufferLocal := by
  unfold syncStep
  simp only
  by_cases h0 : c.syncAmount = 0
  · simp only [h0, ne_eq, not_true_eq_false, if_false, lt_self_iff_false]
    split <;> rfl
  · have key : ((({ c with sync := c.sync.add (c.remoteSamples - c.localSamples) } : Call).doSync
        c.syncAmount)).bufferLocal =
        if 0 < c.syncAmount then c.bufferLocal ++ zeroBytes (c.syncAmount * 2)
        else c.bufferLocal := bufferLocal_doSync _ _
    simp only [ne_eq, h0, not_false_eq_true, if_true]
    split
    · exact key
    · exact key

theorem bufferRemote_syncStep (c : Call) :
    c.syncStep.bufferRemote =
      if c.syncAmount < 0 then c.bufferRemote ++ zeroBytes (c.syncAmount * -2)
      else c.bufferRemote := by
  unfold syncStep
  simp only
  by_cases h0 : c.syncAmount = 0
  · simp only [h0, ne_eq, not_true_eq_false, if_false, lt_self_iff_false]
    split <;> rfl
  · have key : ((({ c with sync := c.sync.add (c.remoteSamples - c.localSamples) } : Call).doSync
        c.syncAmount)).bufferRemote =
        if c.syncAmount < 0 then c.bufferRemote ++ zeroBytes (c.syncAmount * -2)
        else c.bufferRemote := by
      rw [bufferRemote_doSync]
      by_cases hp : 0 < c.syncAmount
      · rw [if_pos hp, if_neg (by omega)]
      · rw [if_neg hp, if_pos (by omega)]
    simp only [ne_eq, h0, not_false_eq_true, if_true]
    split
    · exact key
    · exact key

theorem log_le_syncStep (c : Call) : c.log <+: c.syncStep.log := by
  unfold syncStep
  simp only
  have key : c.log <+: (({ c with sync := c.sync.add (c.remoteSamples - c.localSamples) }
      : Call).doSync c.syncAmount).log :=
    log_le_doSync ({ c with sync := c.sync.add (c.remoteSamples - c.localSamples) } : Call) _
  by_cases h0 : c.syncAmount = 0
  · simp only [h0, ne_eq, not_true_eq_false, if_false]
    split
    · exact List.prefix_append _ _
    · exact List.prefix_refl _
  · simp only [ne_eq, h0, not_false_eq_true, if_true]
    split
    · exact key.trans (List.prefix_append _ _)
    · exact key

theorem sync_stopRecordingNoFlush (c : Call) : c.stopRecordingNoFlush.sync = c.sync := by
  unfold stopRecordingNoFlush
  split <;> rfl

theorem sync_writeDispatch (w : AudioWriter) (n : Int) (f : Bool) (c : Call) :
    (c.writeDispatch w n f).1.sync = c.sync := by
  unfold writeDispatch
  split
  · rfl
  · split
    · rfl
    · split <;> rfl

theorem sync_writeSamples (w : AudioWriter) (n : Int) (f : Bool) (c : Call) :
    (c.writeSamples w n f).sync = c.sync := by
  unfold writeSamples
  simp only
  split
  · rw [sync_stopRecordingNoFlush]
    exact sync_writeDispatch w n f c
  · exact sync_writeDispatch w n f c

theorem sync_padBuffers (c : Call) : c.padBuffers.1.sync = c.sync := by
  unfold padBuffers
  simp only
  split
  · rfl
  · split <;> rfl

theorem log_le_padBuffers (c : Call) : c.log <+: c.padBuffers.1.log := by
  unfold padBuffers
  simp only
  split
  · exact List.prefix_append _ _
  · split
    · exact List.prefix_append _ _
    · exact List.prefix_refl _

theorem padBuffers_buffers (c : Call) :
    c.padBuffers.1.bufferLocal = c.bufferLocal ++
      List.replicate (max c.bufferLocal.length c.bufferRemote.length - c.bufferLocal.length) 0 ∧
    c.padBuffers.1.bufferRemote = c.bufferRemote ++
      List.replicate (max c.bufferLocal.length c.bufferRemote.length - c.bufferRemote.length) 0 ∧
    c.padBuffers.2 = ((max c.bufferLocal.length c.bufferRemote.length / 2 : Nat) : Int) := by
  unfold Call.padBuffers
  simp only
  rcases Nat.lt_trichotomy c.bufferLocal.length c.bufferRemote.length with h | h | h
  · have hmax : max c.bufferLocal.length c.bufferRemote.length = c.bufferRemote.length :=
      max_eq_right (le_of_lt h)
    have hz : ((c.bufferRemote.length : Int) - (c.bufferLocal.length : Int)).toNat
        = c.bufferRemote.length - c.bufferLocal.length := by omega
    rw [if_pos (by exact_mod_cast h), hmax]
    simp only [Call.emit, zeroBytes, hz, Nat.sub_self, List.replicate_zero, List.append_nil,
      true_and]
    rw [Int.tdiv_eq_ediv (by omega) (by decide)]
    norm_cast
  · rw [if_neg (by omega), if_neg (by omega), h]
    simp only [max_self, Nat.sub_self, List.replicate_zero, List.append_nil, true_and]
    rw [Int.tdiv_eq_ediv (by omega) (by decide)]
    norm_cast
  · have hmax : max c.bufferLocal.length c.bufferRemote.length = c.bufferLocal.length :=
      max_eq_left (le_of_lt h)
    have hz : ((c.bufferLocal.length : Int) - (c.bufferRemote.length : Int)).toNat
        = c.bufferLocal.length - c.bufferRemote.length := by omega
    rw [if_neg (by omega), if_pos (by exact_mod_cast h), hmax]
    simp only [Call.emit, zeroBytes, hz, Nat.sub_self, List.replicate_zero, List.append_nil,
      true_and]
    rw [Int.tdiv_eq_ediv (by omega) (by decide)]
    norm_cast

/-- The severe branch of `tryToWrite` (lines 492-498). -/
theorem tryToWrite_severe (rate : Int) (w : AudioWriter) (c : Call)
    (h : |c.syncStep.remoteSamples - c.syncStep.localSamples| > rate * 20) :
    c.tryToWrite rate w false =
      ({ ((c.syncStep.emit (Event.debugSevere
            (Int.tdiv (c.syncStep.remoteSamples - c.syncStep.localSamples) rate))).padBuffers).1
          with sync := ((c.syncStep.emit (Event.debugSevere
            (Int.tdiv (c.syncStep.remoteSamples - c.syncStep.localSamples) rate))).padBuffers).1.sync.reset
        } : Call).writeSamples w
        ((c.syncStep.emit (Event.debugSevere
            (Int.tdiv (c.syncStep.remoteSamples - c.syncStep.localSamples) rate))).padBuffers).2
        false := by
  unfold tryToWrite
  simp only [Bool.false_eq_true, if_false]
  rw [if_pos h]

/-- The ordinary branch of `tryToWrite` (lines 499-507). -/
theorem tryToWrite_ordinary (rate : Int) (w : AudioWriter) (c : Call)
    (h : ¬ |c.syncStep.remoteSamples - c.syncStep.localSamples| > rate * 20) :
    c.tryToWrite rate w false =
      if min c.syncStep.localSamples c.syncStep.remoteSamples < Int.tdiv rate 10 then c.syncStep
      else c.syncStep.writeSamples w (min c.syncStep.localSamples c.syncStep.remoteSamples)
        false := by
  unfold tryToWrite
  simp only [Bool.false_eq_true, if_false]
  rw [if_neg h]
  have hmin : (if c.syncStep.localSamples < c.syncStep.remoteSamples then c.syncStep.localSamples
      else c.syncStep.remoteSamples) = min c.syncStep.localSamples c.syncStep.remoteSamples := by
    split
    · rw [min_eq_left]; omega
    · rw [min_eq_right]; omega
  rw [hmin]

end Call


namespace Call

theorem log_emit (c : Call) (e : Event) : (c.emit e).log = c.log ++ [e] := rfl

theorem log_le_stopRecordingNoFlush (c : Call) : c.log <+: c.stopRecordingNoFlush.log := by
  unfold stopRecordingNoFlush
  split
  · exact List.prefix_refl _
  · exact List.prefix_append _ _

theorem log_writeDispatch_le (w : AudioWriter) (samples : Int) (flush : Bool) (c : Call) :
    (c.writeDispatch w samples flush).1.log <+: (c.writeSamples w samples flush).log := by
  unfold writeSamples
  simp only
  split
  · have h1 : (c.writeDispatch w samples flush).1.log <+:
        ((c.writeDispatch w samples flush).1.emit Event.errorBox).log := by
      rw [log_emit]; exact List.prefix_append _ _
    exact h1.trans (log_le_stopRecordingNoFlush _)
  · exact List.prefix_refl _

theorem length_withBytes (l r : Nat) :
    (Call.withBytes l r).bufferLocal.length = l ∧ (Call.withBytes l r).bufferRemote.length = r := by
  simp only [Call.withBytes, List.length_replicate, and_self]

end Call

theorem pan_identity (x y : Int) :
    Int.tdiv (x * 100 + y * 0 + 50) 100 = if 0 ≤ x then x else x + 1 := by
  have h := tdiv_cases (x * 100 + y * 0 + 50) 100 (by decide)
  split
  · rw [h.1 (by omega)]; omega
  · rw [h.2 (by omega)]; omega

theorem pan_swap (x y : Int) :
    Int.tdiv (x * 0 + y * 100 + 50) 100 = if 0 ≤ y then y else y + 1 := by
  have h := tdiv_cases (x * 0 + y * 100 + 50) 100 (by decide)
  split
  · rw [h.1 (by omega)]; omega
  · rw [h.2 (by omega)]; omega

theorem pan_result_range (x : Int) (h1 : -32768 ≤ x) (h2 : x ≤ 32767) :
    toInt16 (if 0 ≤ x then x else x + 1) = if 0 ≤ x then x else x + 1 := by
  apply toInt16_of_range <;> split <;> omega

/-- C6 (as stated) fails: on the local sample -1 and the remote sample 0,
`mixToStereo(1, 0)` changes the local sample to 0, and `mixToStereo(1, 100)`
leaves 0 in the remote buffer where a swap would put -1. -/
theorem mixToStereo_changes_negative :
    samplesOf (Call.withSamples [-1] [0]).bufferLocal = [-1] ∧
    samplesOf ((Call.withSamples [-1] [0]).mixToStereo 1 0).bufferLocal = [0] ∧
    samplesOf ((Call.withSamples [-1] [0]).mixToStereo 1 100).bufferRemote = [0] := by
  decide

/-- C6 (amended): the no-op and the pure channel swap are what the stereo
dispatch of `tryToWrite` does: with pan 0 it hands the encoder the local and
the remote buffer unmodified, with pan 100 the remote and the local buffer
unmodified, for any sample content.  `mixToStereo(n, 0)` and
`mixToStereo(n, 100)` themselves are a no-op and a swap on the non-negative
samples only: a negative sample comes out raised by 1. -/
theorem stereo_pan_extremes (c : Call) (n : Nat) (hl : 2 * n ≤ c.bufferLocal.length)
    (hr : 2 * n ≤ c.bufferRemote.length) (w : AudioWriter) (flush : Bool) :
    (c.log ++ [Event.writerWrite c.bufferLocal c.bufferRemote n flush] <+:
      (({ c with stereo := true, stereoMix := 0 } : Call).writeSamples w n flush).log) ∧
    (c.log ++ [Event.writerWrite c.bufferRemote c.bufferLocal n flush] <+:
      (({ c with stereo := true, stereoMix := 100 } : Call).writeSamples w n flush).log) ∧
    (∀ i, i < n →
      readSample (c.mixToStereo n 0).bufferLocal i =
        (if 0 ≤ readSample c.bufferLocal i then readSample c.bufferLocal i
          else readSample c.bufferLocal i + 1) ∧
      readSample (c.mixToStereo n 0).bufferRemote i =
        (if 0 ≤ readSample c.bufferRemote i then readSample c.bufferRemote i
          else readSample c.bufferRemote i + 1) ∧
      readSample (c.mixToStereo n 100).bufferLocal i =
        (if 0 ≤ readSample c.bufferRemote i then readSample c.bufferRemote i
          else readSample c.bufferRemote i + 1) ∧
      readSample (c.mixToStereo n 100).bufferRemote i =
        (if 0 ≤ readSample c.bufferLocal i then readSample c.bufferLocal i
          else readSample c.bufferLocal i + 1)) := by
  refine ⟨?_, ?_, ?_⟩
  · have h := Call.log_writeDispatch_le w n flush
      ({ c with stereo := true, stereoMix := 0 } : Call)
    simpa [Call.writeDispatch, Call.emit] using h
  · have h := Call.log_writeDispatch_le w n flush
      ({ c with stereo := true, stereoMix := 100 } : Call)
    simpa [Call.writeDispatch, Call.emit] using h
  · intro i hi
    have hx := readSample_range c.bufferLocal i
    have hy := readSample_range c.bufferRemote i
    obtain ⟨_, _, _, h0⟩ := mixToStereo_loop (100 - 0) 0 c.bufferLocal c.bufferRemote n hl hr
    obtain ⟨_, _, _, h100⟩ :=
      mixToStereo_loop (100 - 100) 100 c.bufferLocal c.bufferRemote n hl hr
    simp only [Call.mixToStereo, Int.toNat_ofNat]
    refine ⟨?_, ?_, ?_, ?_⟩
    · rw [(h0 i hi).1]
      simp only [sub_zero]
      rw [pan_identity, pan_result_range _ hx.1 hx.2]
    · rw [(h0 i hi).2]
      simp only [sub_zero]
      rw [pan_swap, pan_result_range _ hy.1 hy.2]
    · rw [(h100 i hi).1]
      simp only [sub_self]
      rw [pan_swap, pan_result_range _ hy.1 hy.2]
    · rw [(h100 i hi).2]
      simp only [sub_self]
      rw [pan_identity, pan_result_range _ hx.1 hx.2]

theorem stereo_pan_extremes_witness :
    2 * 1 ≤ (Call.withSamples [-1] [7]).bufferLocal.length ∧
    2 * 1 ≤ (Call.withSamples [-1] [7]).bufferRemote.length ∧
    readSample ((Call.withSamples [-1] [7]).mixToStereo (1 : Nat) 100).bufferLocal 0 = 7 :=
  ⟨by decide, by decide,
    ((stereo_pan_extremes (Call.withSamples [-1] [7]) 1 (by decide) (by decide)
      consumingWriter false).2.2 0 (by decide)).2.2.1.trans (by decide)⟩

/-- C7: for `0 < pan < 100`, `mixToStereo` sets the first `samples` samples of
the local buffer to `(L*(100-pan) + R*pan + 50) / 100` and of the remote buffer
to `(L*pan + R*(100-pan) + 50) / 100`, with the old values `L`, `R` and
division truncating toward zero; both results fit in 16 bits, and everything
from index `samples` on is unchanged. -/
theorem mixToStereo_spec (c : Call) (pan : Int) (hp0 : 0 < pan) (hp1 : pan < 100) (n : Nat)
    (hl : 2 * n ≤ c.bufferLocal.length) (hr : 2 * n ≤ c.bufferRemote.length) :
    (∀ i, i < n →
      readSample (c.mixToStereo n pan).bufferLocal i =
        Int.tdiv (readSample c.bufferLocal i * (100 - pan) + readSample c.bufferRemote i * pan
          + 50) 100 ∧
      readSample (c.mixToStereo n pan).bufferRemote i =
        Int.tdiv (readSample c.bufferLocal i * pan + readSample c.bufferRemote i * (100 - pan)
          + 50) 100 ∧
      -32768 ≤ readSample (c.mixToStereo n pan).bufferLocal i ∧
      readSample (c.mixToStereo n pan).bufferLocal i ≤ 32767 ∧
      -32768 ≤ readSample (c.mixToStereo n pan).bufferRemote i ∧
      readSample (c.mixToStereo n pan).bufferRemote i ≤ 32767 ∧
      toInt16 (Int.tdiv (readSample c.bufferLocal i * (100 - pan)
        + readSample c.bufferRemote i * pan + 50) 100) =
        Int.tdiv (readSample c.bufferLocal i * (100 - pan) + readSample c.bufferRemote i * pan
          + 50) 100 ∧
      toInt16 (Int.tdiv (readSample c.bufferLocal i * pan
        + readSample c.bufferRemote i * (100 - pan) + 50) 100) =
        Int.tdiv (readSample c.bufferLocal i * pan + readSample c.bufferRemote i * (100 - pan)
          + 50) 100) ∧
    (c.mixToStereo n pan).bufferLocal.length = c.bufferLocal.length ∧
    (c.mixToStereo n pan).bufferRemote.length = c.bufferRemote.length ∧
    (∀ k, 2 * n ≤ k →
      (c.mixToStereo n pan).bufferLocal[k]? = c.bufferLocal[k]? ∧
      (c.mixToStereo n pan).bufferRemote[k]? = c.bufferRemote[k]?) ∧
    (∀ i, n ≤ i →
      readSample (c.mixToStereo n pan).bufferLocal i = readSample c.bufferLocal i ∧
      readSample (c.mixToStereo n pan).bufferRemote i = readSample c.bufferRemote i) := by
  obtain ⟨hlen1, hlen2, hbytes, hsamp⟩ :=
    mixToStereo_loop (100 - pan) pan c.bufferLocal c.bufferRemote n hl hr
  simp only [Call.mixToStereo, Int.toNat_ofNat]
  refine ⟨?_, hlen1, hlen2, hbytes, ?_⟩
  · intro i hi
    have hx := readSample_range c.bufferLocal i
    have hy := readSample_range c.bufferRemote i
    have hA := crossfade_range (readSample c.bufferLocal i) (readSample c.bufferRemote i) pan
      (by omega) (by omega) hx.1 hx.2 hy.1 hy.2
    have hB := crossfade_range (readSample c.bufferRemote i) (readSample c.bufferLocal i) pan
      (by omega) (by omega) hy.1 hy.2 hx.1 hx.2
    have hcomm : readSample c.bufferRemote i * (100 - pan) + readSample c.bufferLocal i * pan
        = readSample c.bufferLocal i * pan + readSample c.bufferRemote i * (100 - pan) := by
      ring
    rw [hcomm] at hB
    have hTA := toInt16_of_range _ hA.1 hA.2
    have hTB := toInt16_of_range _ hB.1 hB.2
    rw [(hsamp i hi).1, (hsamp i hi).2, hTA, hTB]
    exact ⟨rfl, rfl, hA.1, hA.2, hB.1, hB.2, rfl, rfl⟩
  · intro i hi
    exact ⟨readSample_congr _ _ i (hbytes _ (by omega)).1 (hbytes _ (by omega)).1,
      readSample_congr _ _ i (hbytes _ (by omega)).2 (hbytes _ (by omega)).2⟩

theorem mixToStereo_spec_witness :
    (0 : Int) < 30 ∧ (30 : Int) < 100 ∧
    2 * 2 ≤ (Call.withSamples [1000, -7] [-2000, 5]).bufferLocal.length ∧
    2 * 2 ≤ (Call.withSamples [1000, -7] [-2000, 5]).bufferRemote.length ∧
    readSample ((Call.withSamples [1000, -7] [-2000, 5]).mixToStereo (2 : Nat) 30).bufferLocal 1
      = -2 :=
  ⟨by decide, by decide, by decide, by decide,
    ((mixToStereo_spec (Call.withSamples [1000, -7] [-2000, 5]) 30 (by decide) (by decide) 2
      (by decide) (by decide)).1 1 (by decide)).1.trans (by decide)⟩

/-- C8: `padBuffers` appends `max(l, r) - l` zero bytes to the local buffer
and `max(l, r) - r` zero bytes to the remote buffer, so that both end with
`max(l, r)` bytes, and returns `max(l, r) / 2`; with 1000 local and 1200 remote
bytes it appends 200 zero bytes to the local buffer and returns 600. -/
theorem padBuffers_spec (c : Call) :
    c.padBuffers.1.bufferLocal = c.bufferLocal ++
      List.replicate (max c.bufferLocal.length c.bufferRemote.length - c.bufferLocal.length) 0 ∧
    c.padBuffers.1.bufferRemote = c.bufferRemote ++
      List.replicate (max c.bufferLocal.length c.bufferRemote.length - c.bufferRemote.length) 0 ∧
    c.padBuffers.1.bufferLocal.length = max c.bufferLocal.length c.bufferRemote.length ∧
    c.padBuffers.1.bufferRemote.length = max c.bufferLocal.length c.bufferRemote.length ∧
    c.padBuffers.2 = ((max c.bufferLocal.length c.bufferRemote.length / 2 : Nat) : Int) ∧
    (c.bufferLocal.length = 1000 → c.bufferRemote.length = 1200 →
      c.padBuffers.1.bufferLocal = c.bufferLocal ++ List.replicate 200 0 ∧
      c.padBuffers.1.bufferRemote = c.bufferRemote ∧ c.padBuffers.2 = 600) := by
  obtain ⟨k1, k2, k3⟩ := Call.padBuffers_buffers c
  refine ⟨k1, k2, ?_, ?_, k3, ?_⟩
  · rw [k1, List.length_append, List.length_replicate]; omega
  · rw [k2, List.length_append, List.length_replicate]; omega
  · intro h1 h2
    rw [k1, k2, k3, h1, h2]
    simp

theorem padBuffers_spec_witness :
    (Call.withBytes 1000 1200).bufferLocal.length = 1000 ∧
    (Call.withBytes 1000 1200).bufferRemote.length = 1200 ∧
    (Call.withBytes 1000 1200).padBuffers.1.bufferLocal =
      (Call.withBytes 1000 1200).bufferLocal ++ List.replicate 200 0 ∧
    (Call.withBytes 1000 1200).padBuffers.1.bufferRemote =
      (Call.withBytes 1000 1200).bufferRemote ∧
    (Call.withBytes 1000 1200).padBuffers.2 = 600 :=
  ⟨(Call.length_withBytes 1000 1200).1, (Call.length_withBytes 1000 1200).2,
    (padBuffers_spec (Call.withBytes 1000 1200)).2.2.2.2.2 (Call.length_withBytes 1000 1200).1
      (Call.length_withBytes 1000 1200).2⟩


namespace AutoSync

theorem suppress_create_add (N : Nat) (p d : Int) : ((create N p).add d).suppress = N - 1 := by
  simp only [add, create]
  split <;> omega

end AutoSync

namespace Call

theorem syncAmount_of_suppress (c : Call)
    (h : (c.sync.add (c.remoteSamples - c.localSamples)).suppress ≠ 0) : c.syncAmount = 0 := by
  unfold syncAmount
  rw [AutoSync.getSync_of_suppress _ h]
  decide

theorem syncAmount_withBytes (l r : Nat) : (Call.withBytes l r).syncAmount = 0 := by
  apply syncAmount_of_suppress
  have h : (Call.withBytes l r).sync = AutoSync.create (100 * 2 * 3) 320 := rfl
  rw [h, AutoSync.suppress_create_add]
  norm_num

theorem samples_withBytes (l r : Nat) :
    (Call.withBytes l r).localSamples = Int.tdiv l 2 ∧
    (Call.withBytes l r).remoteSamples = Int.tdiv r 2 := by
  unfold localSamples remoteSamples
  rw [(length_withBytes l r).1, (length_withBytes l r).2]
  exact ⟨rfl, rfl⟩

end Call

theorem driftingCall_samples :
    driftingCall.localSamples = 0 ∧ driftingCall.remoteSamples = 320001 := by
  have hl : driftingCall.bufferLocal = [] := rfl
  have hr : driftingCall.bufferRemote = List.replicate 640002 0 := rfl
  unfold Call.localSamples Call.remoteSamples
  rw [hl, hr, List.length_replicate, List.length_nil]
  exact ⟨by decide, by decide⟩

theorem driftingCall_syncAmount : driftingCall.syncAmount = 320000 := by
  unfold Call.syncAmount
  rw [driftingCall_samples.1, driftingCall_samples.2]
  have hs : driftingCall.sync = driftingSync := by
    unfold driftingCall
    simp only
  rw [hs]
  have h := driftingSync_add_getSync
  simp only [sub_zero]
  rw [h]
  decide

theorem driftingCall_syncStep :
    driftingCall.syncStep.bufferLocal = zeroBytes 640000 ∧
    driftingCall.syncStep.bufferRemote = List.replicate 640002 0 ∧
    driftingCall.syncStep.localSamples = 320000 ∧
    driftingCall.syncStep.remoteSamples = 320001 := by
  have hl : driftingCall.bufferLocal = [] := rfl
  have hr : driftingCall.bufferRemote = List.replicate 640002 0 := rfl
  have h1 : driftingCall.syncStep.bufferLocal = zeroBytes 640000 := by
    rw [Call.bufferLocal_syncStep, driftingCall_syncAmount, if_pos (by decide), hl]
    rfl
  have h2 : driftingCall.syncStep.bufferRemote = List.replicate 640002 0 := by
    rw [Call.bufferRemote_syncStep, driftingCall_syncAmount, if_neg (by decide), hr]
  refine ⟨h1, h2, ?_, ?_⟩
  · unfold Call.localSamples
    rw [h1]
    unfold zeroBytes
    rw [List.length_replicate]
    decide
  · unfold Call.remoteSamples
    rw [h2, List.length_replicate]
    decide

theorem driftingCall_tryToWrite :
    driftingCall.tryToWrite 16000 consumingWriter false =
      driftingCall.syncStep.writeSamples consumingWriter 320000 false := by
  obtain ⟨_, _, h3, h4⟩ := driftingCall_syncStep
  have hmin : min (320000 : Int) 320001 = 320000 := by decide
  rw [Call.tryToWrite_ordinary _ _ _ (by rw [h3, h4]; decide), h3, h4, hmin,
    if_neg (by decide)]


namespace Call

theorem flags_syncStep (c : Call) :
    c.syncStep.stereo = c.stereo ∧ c.syncStep.stereoMix = c.stereoMix ∧
    c.syncStep.isRecording = c.isRecording := by
  unfold syncStep doSync
  simp only
  split <;> split <;> (try split) <;> exact ⟨rfl, rfl, rfl⟩

theorem log_syncStep_pos (c : Call) (h : 0 < c.syncAmount) (hf : c.syncFileOpen = false) :
    c.syncStep.log = c.log ++ [Event.debugPadLocal c.syncAmount] := by
  unfold syncStep doSync
  simp only [ne_eq, ne_of_gt h, not_false_eq_true, if_true, gt_iff_lt, h, emit, hf,
    Bool.false_eq_true, if_false]

theorem writeSamples_stereo_direct (w : AudioWriter) (n : Int) (f : Bool) (c : Call)
    (hs : c.stereo = true) (hm : c.stereoMix = 0)
    (hok : (w c.bufferLocal c.bufferRemote n f).success = true) :
    (c.writeSamples w n f).log = c.log ++ [Event.writerWrite c.bufferLocal c.bufferRemote n f] ∧
    (c.writeSamples w n f).bufferLocal = (w c.bufferLocal c.bufferRemote n f).chanA ∧
    (c.writeSamples w n f).bufferRemote = (w c.bufferLocal c.bufferRemote n f).chanB := by
  simp [writeSamples, writeDispatch, hs, hm, hok, emit]

end Call

/-- C9 (as stated) fails: the call enters `tryToWrite` with a delta of exactly
20 * 16000 + 1 samples, but the estimator has settled and a correction of
320000 samples is applied first; the remaining delta is 1, no severe
desynchronisation is reported, and the ordinary path writes
min(320000, 320001) samples, leaving one remote sample unwritten. -/
theorem tryToWrite_entry_delta_corrected :
    driftingCall.remoteSamples - driftingCall.localSamples = 16000 * 20 + 1 ∧
    driftingCall.syncAmount = 320000 ∧
    driftingCall.tryToWrite 16000 consumingWriter false =
      driftingCall.syncStep.writeSamples consumingWriter 320000 false ∧
    (∀ s, Event.debugSevere s ∉ (driftingCall.tryToWrite 16000 consumingWriter false).log) ∧
    (driftingCall.tryToWrite 16000 consumingWriter false).bufferRemote.length = 2 := by
  obtain ⟨hb1, hb2, _, _⟩ := driftingCall_syncStep
  have hflags := Call.flags_syncStep driftingCall
  have hst : driftingCall.syncStep.stereo = true := hflags.1
  have hmx : driftingCall.syncStep.stereoMix = 0 := hflags.2.1
  have hlog : driftingCall.syncStep.log = [Event.debugPadLocal 320000] := by
    rw [Call.log_syncStep_pos _ (by rw [driftingCall_syncAmount]; decide) rfl,
      driftingCall_syncAmount]
    rfl
  obtain ⟨hw1, _, hw3⟩ := Call.writeSamples_stereo_direct consumingWriter 320000 false
    driftingCall.syncStep hst hmx rfl
  refine ⟨?_, driftingCall_syncAmount, driftingCall_tryToWrite, ?_, ?_⟩
  · rw [driftingCall_samples.1, driftingCall_samples.2]; decide
  · intro s hs
    rw [driftingCall_tryToWrite, hw1, hlog] at hs
    simp at hs
  · rw [driftingCall_tryToWrite, hw3, hb2]
    simp only [consumingWriter, List.length_drop, List.length_replicate]
    decide

/-- C9 (amended): in a non-flush `tryToWrite` the severe-desync branch (the
warning, `padBuffers`, the write of the whole equalized length and the reset
of the estimator) is taken iff `|r - l| > 20 * R` for the sample counts `l`,
`r` after the drift correction of this call, if any, has been applied;
otherwise the ordinary `min(l, r)` path is taken and nothing is padded.  When
the quantized correction is zero these are the counts on entry, so that a
delta of exactly `20 * R + 1` (or its negative) triggers the branch and
`20 * R` (or its negative) does not. -/
theorem tryToWrite_severe_iff (rate : Int) (w : AudioWriter) (c : Call) :
    (|c.syncStep.remoteSamples - c.syncStep.localSamples| > rate * 20 →
      ∃ c2 : Call,
        c.tryToWrite rate w false = c2.writeSamples w
          ((max c.syncStep.bufferLocal.length c.syncStep.bufferRemote.length / 2 : Nat) : Int)
          false ∧
        c2.bufferLocal = c.syncStep.bufferLocal ++ List.replicate
          (max c.syncStep.bufferLocal.length c.syncStep.bufferRemote.length
            - c.syncStep.bufferLocal.length) 0 ∧
        c2.bufferRemote = c.syncStep.bufferRemote ++ List.replicate
          (max c.syncStep.bufferLocal.length c.syncStep.bufferRemote.length
            - c.syncStep.bufferRemote.length) 0 ∧
        c.syncStep.log ++ [Event.debugSevere
          (Int.tdiv (c.syncStep.remoteSamples - c.syncStep.localSamples) rate)] <+: c2.log ∧
        c2.sync.suppress = c2.sync.size ∧
        (c.tryToWrite rate w false).sync.suppress = (c.tryToWrite rate w false).sync.size) ∧
    (¬ |c.syncStep.remoteSamples - c.syncStep.localSamples| > rate * 20 →
      c.tryToWrite rate w false =
        if min c.syncStep.localSamples c.syncStep.remoteSamples < Int.tdiv rate 10 then
          c.syncStep
        else c.syncStep.writeSamples w
          (min c.syncStep.localSamples c.syncStep.remoteSamples) false) ∧
    (c.syncAmount = 0 →
      c.syncStep.bufferLocal = c.bufferLocal ∧ c.syncStep.bufferRemote = c.bufferRemote ∧
      (0 ≤ rate →
        (|c.remoteSamples - c.localSamples| = rate * 20 + 1 →
          |c.syncStep.remoteSamples - c.syncStep.localSamples| > rate * 20) ∧
        (|c.remoteSamples - c.localSamples| = rate * 20 →
          ¬ |c.syncStep.remoteSamples - c.syncStep.localSamples| > rate * 20))) := by
  refine ⟨?_, Call.tryToWrite_ordinary rate w c, ?_⟩
  · intro h
    have hpad := Call.padBuffers_buffers (c.syncStep.emit (Event.debugSevere
      (Int.tdiv (c.syncStep.remoteSamples - c.syncStep.localSamples) rate)))
    have hlogp := Call.log_le_padBuffers (c.syncStep.emit (Event.debugSevere
      (Int.tdiv (c.syncStep.remoteSamples - c.syncStep.localSamples) rate)))
    have heq := Call.tryToWrite_severe rate w c h
    generalize (c.syncStep.emit (Event.debugSevere
      (Int.tdiv (c.syncStep.remoteSamples - c.syncStep.localSamples) rate))).padBuffers = p
      at hpad hlogp heq
    have hb1 : (c.syncStep.emit (Event.debugSevere
        (Int.tdiv (c.syncStep.remoteSamples - c.syncStep.localSamples) rate))).bufferLocal
        = c.syncStep.bufferLocal := rfl
    have hb2 : (c.syncStep.emit (Event.debugSevere
        (Int.tdiv (c.syncStep.remoteSamples - c.syncStep.localSamples) rate))).bufferRemote
        = c.syncStep.bufferRemote := rfl
    rw [hb1, hb2] at hpad
    rw [Call.log_emit] at hlogp
    refine ⟨{ p.1 with sync := p.1.sync.reset }, ?_, hpad.1, hpad.2.1, hlogp, rfl, ?_⟩
    · rw [heq, hpad.2.2]
    · rw [heq, Call.sync_writeSamples]
      rfl
  · intro h0
    have hl : c.syncStep.bufferLocal = c.bufferLocal := by
      rw [Call.bufferLocal_syncStep, h0, if_neg (by decide)]
    have hr : c.syncStep.bufferRemote = c.bufferRemote := by
      rw [Call.bufferRemote_syncStep, h0, if_neg (by decide)]
    refine ⟨hl, hr, ?_⟩
    intro hrate
    have e1 : c.syncStep.localSamples = c.localSamples := by
      unfold Call.localSamples; rw [hl]
    have e2 : c.syncStep.remoteSamples = c.remoteSamples := by
      unfold Call.remoteSamples; rw [hr]
    rw [e1, e2]
    constructor
    · intro h; rw [h]; omega
    · intro h; rw [h]; omega

theorem tryToWrite_severe_iff_witness :
    (Call.withBytes 0 640002).syncAmount = 0 ∧ (0 : Int) ≤ 16000 ∧
    |(Call.withBytes 0 640002).remoteSamples - (Call.withBytes 0 640002).localSamples|
      = 16000 * 20 + 1 ∧
    ((Call.withBytes 0 640002).tryToWrite 16000 consumingWriter false).sync.suppress =
      ((Call.withBytes 0 640002).tryToWrite 16000 consumingWriter false).sync.size := by
  have hz := Call.syncAmount_withBytes 0 640002
  have hd : |(Call.withBytes 0 640002).remoteSamples - (Call.withBytes 0 640002).localSamples|
      = 16000 * 20 + 1 := by
    rw [(Call.samples_withBytes 0 640002).1, (Call.samples_withBytes 0 640002).2]
    decide
  have hthm := tryToWrite_severe_iff 16000 consumingWriter (Call.withBytes 0 640002)
  have hsev := ((hthm.2.2 hz).2.2 (by decide)).1 hd
  obtain ⟨_, _, _, _, _, _, hres⟩ := hthm.1 hsev
  exact ⟨hz, by decide, hd, hres⟩

/-! ## Call state machine and registry: lemmas -/

namespace Call

theorem Quiet.refl (c : Call) : Quiet c c := ⟨rfl, rfl, fun hx => hx⟩

theorem Quiet.trans {a b c : Call} (h1 : Quiet a b) (h2 : Quiet b c) : Quiet a c :=
  ⟨h2.1.trans h1.1, h2.2.1.trans h1.2.1, fun h => h1.2.2 (h2.2.2 h)⟩

theorem quiet_emit (c : Call) (e : Event) : Quiet c (c.emit e) := ⟨rfl, rfl, fun hx => hx⟩

theorem quiet_mixToMono (c : Call) (n : Int) : Quiet c (c.mixToMono n) := ⟨rfl, rfl, fun hx => hx⟩

theorem quiet_mixToStereo (c : Call) (n pan : Int) : Quiet c (c.mixToStereo n pan) :=
  ⟨rfl, rfl, fun hx => hx⟩

theorem quiet_stopRecordingNoFlush (c : Call) : Quiet c c.stopRecordingNoFlush := by
  unfold stopRecordingNoFlush
  split
  · exact Quiet.refl c
  · exact ⟨rfl, rfl, fun h => Bool.noConfusion h⟩

theorem quiet_writeDispatch (w : AudioWriter) (n : Int) (f : Bool) (c : Call) :
    Quiet c (c.writeDispatch w n f).1 := by
  unfold writeDispatch
  split
  · exact ⟨rfl, rfl, fun hx => hx⟩
  · split
    · exact ⟨rfl, rfl, fun hx => hx⟩
    · split <;> exact ⟨rfl, rfl, fun hx => hx⟩

theorem quiet_writeSamples (w : AudioWriter) (n : Int) (f : Bool) (c : Call) :
    Quiet c (c.writeSamples w n f) := by
  unfold writeSamples
  simp only
  split
  · exact (quiet_writeDispatch w n f c).trans
      ((quiet_emit _ _).trans (quiet_stopRecordingNoFlush _))
  · exact quiet_writeDispatch w n f c

theorem quiet_padBuffers (c : Call) : Quiet c c.padBuffers.1 := by
  unfold padBuffers
  simp only
  split
  · exact ⟨rfl, rfl, fun hx => hx⟩
  · split <;> exact ⟨rfl, rfl, fun hx => hx⟩

theorem quiet_doSync (c : Call) (s : Int) : Quiet c (c.doSync s) := by
  unfold doSync
  split <;> exact ⟨rfl, rfl, fun hx => hx⟩

theorem quiet_syncStep (c : Call) : Quiet c c.syncStep := by
  have h1 : Quiet c ({ c with sync := c.sync.add (c.remoteSamples - c.localSamples) } : Call) :=
    ⟨rfl, rfl, fun hx => hx⟩
  have h2 := quiet_doSync ({ c with sync := c.sync.add (c.remoteSamples - c.localSamples) } : Call)
    c.syncAmount
  unfold syncStep
  simp only
  split
  · split
    · exact ((h1.trans h2).trans ⟨rfl, rfl, fun hx => hx⟩).trans (quiet_emit _ _)
    · exact ((h1.trans h2).trans ⟨rfl, rfl, fun hx => hx⟩)
  · split
    · exact h1.trans (quiet_emit _ _)
    · exact h1

theorem quiet_tryToWrite (rate : Int) (w : AudioWriter) (f : Bool) (c : Call) :
    Quiet c (c.tryToWrite rate w f) := by
  unfold tryToWrite
  split
  · exact (quiet_padBuffers c).trans (quiet_writeSamples _ _ _ _)
  · simp only
    split
    · have h1 := quiet_emit c.syncStep (Event.debugSevere
        (Int.tdiv (c.syncStep.remoteSamples - c.syncStep.localSamples) rate))
      have h2 := quiet_padBuffers (c.syncStep.emit (Event.debugSevere
        (Int.tdiv (c.syncStep.remoteSamples - c.syncStep.localSamples) rate)))
      have h3 := ((quiet_syncStep c).trans h1).trans h2
      generalize (c.syncStep.emit (Event.debugSevere
        (Int.tdiv (c.syncStep.remoteSamples - c.syncStep.localSamples) rate))).padBuffers = p
        at h3
      have h4 : Quiet p.1 ({ p.1 with sync := p.1.sync.reset } : Call) :=
        ⟨rfl, rfl, fun hx => hx⟩
      exact (h3.trans h4).trans (quiet_writeSamples _ _ _ _)
    · generalize (if c.syncStep.localSamples < c.syncStep.remoteSamples then
        c.syncStep.localSamples else c.syncStep.remoteSamples) = samples
      split
      · exact quiet_syncStep c
      · exact (quiet_syncStep c).trans (quiet_writeSamples _ _ _ _)

theorem quiet_stopRecording (rate : Int) (w : AudioWriter) (f : Bool) (c : Call) :
    Quiet c (c.stopRecording rate w f) := by
  unfold stopRecording
  split
  · exact Quiet.refl c
  · have h : Quiet c (if f = true then (c.emit Event.debugStopRecording).tryToWrite rate w true
        else c.emit Event.debugStopRecording) := by
      split
      · exact (quiet_emit _ _).trans (quiet_tryToWrite _ _ _ _)
      · exact quiet_emit _ _
    exact ⟨h.1, h.2.1, fun hr => Bool.noConfusion hr⟩

theorem quiet_hideConfirmation (c : Call) (s : Int) : Quiet c (c.hideConfirmation s) := by
  unfold hideConfirmation
  split
  · exact ⟨rfl, rfl, fun hx => hx⟩
  · exact Quiet.refl c

theorem isRecording_hideConfirmation (c : Call) (s : Int) :
    (c.hideConfirmation s).isRecording = c.isRecording := by
  unfold hideConfirmation
  split <;> rfl

theorem quiet_denyRecording (rate : Int) (w : AudioWriter) (c : Call) :
    Quiet c (c.denyRecording rate w) := by
  unfold denyRecording removeFile
  have h1 : Quiet c ({ c with shouldRecord := 0 } : Call) := ⟨rfl, rfl, fun hx => hx⟩
  exact (h1.trans (quiet_stopRecording _ _ _ _)).trans (quiet_emit _ _)

theorem quiet_readLocal (env : Env) (data : Buffer) (c : Call) :
    Quiet c (c.readLocal env data) := by
  have h1 : Quiet c ({ c with bufferLocal := c.bufferLocal ++ data } : Call) :=
    ⟨rfl, rfl, fun hx => hx⟩
  unfold readLocal
  simp only
  split
  · exact h1.trans (quiet_tryToWrite _ _ _ _)
  · exact h1

theorem quiet_readRemote (env : Env) (data : Buffer) (c : Call) :
    Quiet c (c.readRemote env data) := by
  have h1 : Quiet c ({ c with bufferRemote := c.bufferRemote ++ data } : Call) :=
    ⟨rfl, rfl, fun hx => hx⟩
  unfold readRemote
  simp only
  split
  · exact h1.trans (quiet_tryToWrite _ _ _ _)
  · exact h1

theorem quiet_checkConnections (env : Env) (c : Call) : Quiet c (c.checkConnections env) := by
  unfold checkConnections
  exact (quiet_emit _ _).trans (quiet_stopRecording _ _ _ _)

theorem key_openPipeline (env : Env) (c : Call) :
    (c.openPipeline env).id = c.id ∧ (c.openPipeline env).confID = c.confID := by
  unfold openPipeline
  simp only
  split
  · exact ⟨rfl, rfl⟩
  · split <;> exact ⟨rfl, rfl⟩

theorem quiet_setShouldRecord (env : Env) (c : Call) : Quiet c (c.setShouldRecord env) := by
  unfold setShouldRecord
  repeat' split
  all_goals exact ⟨rfl, rfl, fun hx => hx⟩

/-- What `startRecording` guarantees to the registry: id and conference id
stay, and the recording flag is only set when no other tracked call of the
same conference is recording. -/
theorem startRecording_guard (env : Env) (others : List Call) (force : Bool) (c : Call) :
    (c.startRecording env others force).id = c.id ∧
    (c.startRecording env others force).confID = c.confID ∧
    ((c.startRecording env others force).isRecording = true →
      c.isRecording = true ∨ recordingInConference others c.confID = false) := by
  have h1 : Quiet c (if force = true then c.hideConfirmation 2 else c) := by
    split
    · exact quiet_hideConfirmation c 2
    · exact Quiet.refl c
  have h1r : (if force = true then c.hideConfirmation 2 else c).isRecording = c.isRecording := by
    split
    · exact isRecording_hideConfirmation c 2
    · rfl
  unfold startRecording
  simp only
  generalize (if force = true then c.hideConfirmation 2 else c) = c1 at h1 h1r
  obtain ⟨hid, hconf, hrec⟩ := h1
  by_cases hr : c1.isRecording = true
  · rw [if_pos hr]
    exact ⟨hid, hconf, fun _ => Or.inl (hrec hr)⟩
  · rw [if_neg hr]
    by_cases hc : recordingInConference (c1 :: others) c1.confID = true
    · rw [if_pos hc]
      refine ⟨hid, hconf, fun h => ?_⟩
      exact absurd h hr
    · rw [if_neg hc]
      have hno : recordingInConference others c.confID = false := by
        rw [← hconf]
        cases hx : recordingInConference others c1.confID
        · rfl
        · exfalso
          apply hc
          unfold recordingInConference at hx ⊢
          rw [List.any_cons, hx, Bool.or_true]
      split
      · have k := key_openPipeline env (c1.emit Event.showLegalInformation)
        exact ⟨k.1.trans hid, k.2.trans hconf, fun _ => Or.inr hno⟩
      · have q := quiet_setShouldRecord env c1
        split
        · exact ⟨q.1.trans hid, q.2.1.trans hconf, fun _ => Or.inr hno⟩
        · split
          · have k := key_openPipeline env (c1.setShouldRecord env).ask
            exact ⟨(k.1.trans q.1).trans hid, (k.2.trans q.2.1).trans hconf,
              fun _ => Or.inr hno⟩
          · have k := key_openPipeline env
              ((c1.setShouldRecord env).emit Event.showLegalInformation)
            exact ⟨(k.1.trans q.1).trans hid, (k.2.trans q.2.1).trans hconf,
              fun _ => Or.inr hno⟩

theorem setStatus_guard (env : Env) (others : List Call) (s : String) (c : Call) :
    (c.setStatus env others s).id = c.id ∧
    (c.setStatus env others s).confID = c.confID ∧
    ((c.setStatus env others s).isRecording = true →
      c.isRecording = true ∨ recordingInConference others c.confID = false) := by
  unfold setStatus
  simp only
  split
  · exact startRecording_guard env others false
      (({ c with status := s } : Call).emit (Event.startedCall c.id))
  · split
    · exact ⟨rfl, rfl, fun h => Or.inl h⟩
    · exact ⟨rfl, rfl, fun h => Or.inl h⟩

end Call


namespace CallHandler

theorem perm_insertCall (l : List Call) (c : Call) : (insertCall l c).Perm (c :: l) := by
  induction l with
  | nil => exact List.Perm.refl _
  | cons x xs ih =>
    unfold insertCall
    split
    · exact List.Perm.refl _
    · exact ((List.Perm.cons x ih).trans (List.Perm.swap c x xs))

theorem contains_eq_false (h : CallHandler) (id : Int) (hc : h.contains id = false) :
    id ∉ h.calls.map Call.id := by
  intro hmem
  obtain ⟨c, hcmem, hcid⟩ := List.mem_map.mp hmem
  have : h.contains id = true := by
    unfold contains
    rw [List.any_eq_true]
    exact ⟨c, hcmem, by simp [hcid]⟩
  rw [hc] at this
  exact Bool.noConfusion this

theorem mem_others (h : CallHandler) (id : Int) (c : Call) (hc : c ∈ h.calls) (hne : c.id ≠ id) :
    c ∈ h.others id := by
  unfold others
  rw [List.mem_filter]
  exact ⟨hc, by simp [hne]⟩

theorem recordingInConference_of_mem (l : List Call) (c : Call) (conf : Int) (hc : c ∈ l)
    (hr : c.isRecording = true) (hconf : c.confID = conf) :
    recordingInConference l conf = true := by
  unfold recordingInConference
  rw [List.any_eq_true]
  exact ⟨c, hc, by simp [hr, hconf]⟩

/-- Running a method on one call keeps the invariant when that method keeps
the id and the conference id and sets the recording flag only if no other
tracked call of the conference is recording. -/
theorem inv_onCall (h : CallHandler) (id : Int) (f : Call → Call)
    (hf : ∀ c ∈ h.calls, c.id = id →
      (f c).id = c.id ∧ (f c).confID = c.confID ∧
      ((f c).isRecording = true →
        c.isRecording = true ∨ recordingInConference (h.others id) c.confID = false))
    (hinv : h.Inv) : (h.onCall id f).Inv := by
  obtain ⟨hnd, hone⟩ := hinv
  have hids : ∀ c ∈ h.calls, (if c.id = id then f c else c).id = c.id := by
    intro c hc
    split
    · exact (hf c hc (by assumption)).1
    · rfl
  constructor
  · unfold onCall
    simp only [List.map_map]
    have : h.calls.map (Call.id ∘ fun c => if c.id = id then f c else c) = h.calls.map Call.id :=
      List.map_congr_left (fun c hc => hids c hc)
    rw [this]
    exact hnd
  · intro c1' h1 c2' h2 hr1 hr2 hconf
    unfold onCall at h1 h2
    simp only [List.mem_map] at h1 h2
    obtain ⟨c1, hc1, rfl⟩ := h1
    obtain ⟨c2, hc2, rfl⟩ := h2
    rw [hids c1 hc1, hids c2 hc2]
    by_cases e1 : c1.id = id
    · by_cases e2 : c2.id = id
      · rw [e1, e2]
      · rw [if_pos e1] at hr1 hconf
        rw [if_neg e2] at hr2 hconf
        obtain ⟨_, hk, hg⟩ := hf c1 hc1 e1
        rcases hg hr1 with hold | hno
        · exact hone c1 hc1 c2 hc2 hold hr2 (hk ▸ hconf)
        · have := recordingInConference_of_mem (h.others id) c2 c1.confID
            (mem_others h id c2 hc2 e2) hr2 (by rw [← hconf, hk])
          rw [hno] at this
          exact Bool.noConfusion this
    · by_cases e2 : c2.id = id
      · rw [if_neg e1] at hr1 hconf
        rw [if_pos e2] at hr2 hconf
        obtain ⟨_, hk, hg⟩ := hf c2 hc2 e2
        rcases hg hr2 with hold | hno
        · exact hone c1 hc1 c2 hc2 hr1 hold (hk ▸ hconf)
        · have := recordingInConference_of_mem (h.others id) c1 c2.confID
            (mem_others h id c1 hc1 e1) hr1 (by rw [hconf, hk])
          rw [hno] at this
          exact Bool.noConfusion this
      · rw [if_neg e1] at hr1 hconf
        rw [if_neg e2] at hr2 hconf
        exact hone c1 hc1 c2 hc2 hr1 hr2 hconf

theorem inv_onCall_quiet (h : CallHandler) (id : Int) (f : Call → Call)
    (hf : ∀ c, Call.Quiet c (f c)) (hinv : h.Inv) : (h.onCall id f).Inv :=
  inv_onCall h id f (fun c _ _ => ⟨(hf c).1, (hf c).2.1, fun hr => Or.inl ((hf c).2.2 hr)⟩) hinv

theorem inv_updateConfIDs (env : Env) (h : CallHandler) (hst : h.StableConfIDs env)
    (hinv : h.Inv) : (h.updateConfIDs env).Inv := by
  obtain ⟨hnd, hone⟩ := hinv
  constructor
  · unfold updateConfIDs
    simp only [List.map_map]
    exact hnd
  · intro c1' h1 c2' h2 hr1 hr2 hconf
    unfold updateConfIDs at h1 h2
    simp only [List.mem_map] at h1 h2
    obtain ⟨c1, hc1, rfl⟩ := h1
    obtain ⟨c2, hc2, rfl⟩ := h2
    simp only at hr1 hr2 hconf ⊢
    rw [hst c1 hc1 hr1, hst c2 hc2 hr2] at hconf
    exact hone c1 hc1 c2 hc2 hr1 hr2 hconf

theorem inv_newCall (env : Env) (h : CallHandler) (id : Int) (hnew : h.contains id = false)
    (hst : h.StableConfIDs env) (hinv : h.Inv) : (h.newCall env id).Inv := by
  have hup := inv_updateConfIDs env h hst hinv
  have hnotin : id ∉ (h.updateConfIDs env).calls.map Call.id := by
    have := contains_eq_false h id hnew
    unfold updateConfIDs
    simpa [List.map_map] using this
  obtain ⟨hnd, hone⟩ := hup
  unfold newCall
  simp only
  generalize (if (env.partnerHandle id).isEmpty = true then "UnknownCaller"
    else env.partnerHandle id) = n1
  generalize (if (env.partnerDispname id).isEmpty = true then "Unnamed Caller"
    else env.partnerDispname id) = n2
  have hperm := perm_insertCall (h.updateConfIDs env).calls (Call.init id n1 n2 (env.confId id))
  constructor
  · simp only
    rw [(hperm.map Call.id).nodup_iff, List.map_cons, List.nodup_cons]
    exact ⟨hnotin, hnd⟩
  · intro c1 h1 c2 h2 hr1 hr2 hconf
    simp only at h1 h2
    rw [hperm.mem_iff, List.mem_cons] at h1 h2
    rcases h1 with rfl | h1
    · exact Bool.noConfusion hr1
    · rcases h2 with rfl | h2
      · exact Bool.noConfusion hr2
      · exact hone c1 h1 c2 h2 hr1 hr2 hconf

theorem inv_prune (h : CallHandler) (hinv : h.Inv) : h.prune.Inv := by
  obtain ⟨hnd, hone⟩ := hinv
  constructor
  · unfold prune
    simp only
    exact hnd.sublist (List.Sublist.map _ (List.filter_sublist _))
  · intro c1 h1 c2 h2 hr1 hr2 hconf
    unfold prune at h1 h2
    simp only at h1 h2
    exact hone c1 (List.mem_of_mem_filter h1) c2 (List.mem_of_mem_filter h2) hr1 hr2 hconf

theorem inv_callCmd (env : Env) (h : CallHandler) (id : Int) (subCmd arg : String)
    (hst : (!h.ignore.contains id && !h.contains id) = true → h.StableConfIDs env)
    (hinv : h.Inv) : (h.callCmd env id subCmd arg).Inv := by
  unfold callCmd
  by_cases hig : h.ignore.contains id = true
  · rw [if_pos hig]; exact hinv
  · rw [if_neg hig]
    simp only
    have h1inv : (if h.contains id = true then h else h.newCall env id).Inv := by
      by_cases hk : h.contains id = true
      · rw [if_pos hk]; exact hinv
      · rw [if_neg hk]
        have hk' : h.contains id = false := Bool.eq_false_iff.mpr hk
        have hig' : h.ignore.contains id = false := Bool.eq_false_iff.mpr hig
        exact inv_newCall env h id hk' (hst (by rw [hig', hk']; rfl)) hinv
    generalize (if h.contains id = true then h else h.newCall env id) = h1 at h1inv
    apply inv_prune
    split
    · exact inv_onCall h1 id _ (fun c _ _ => Call.setStatus_guard env (h1.others id) arg c) h1inv
    · split
      · exact inv_onCall h1 id _
          (fun c _ _ => Call.setStatus_guard env (h1.others id) "INPROGRESS" c) h1inv
      · exact h1inv

theorem inv_step (env : Env) (i : Input) (h : CallHandler)
    (hst : h.refreshes i = true → h.StableConfIDs env) (hinv : h.Inv) : (h.step env i).Inv := by
  cases i with
  | callCmd id subCmd arg => exact inv_callCmd env h id subCmd arg hst hinv
  | startRecording id =>
    simp only [step, startRecording]
    split
    · exact hinv
    · exact inv_onCall h id _
        (fun c _ _ => Call.startRecording_guard env (h.others id) true c) hinv
  | stopRecording id =>
    simp only [step, stopRecording]
    split
    · exact hinv
    · exact inv_onCall_quiet h id _
        (fun c => (Call.quiet_stopRecording _ _ _ c).trans (Call.quiet_hideConfirmation _ _))
        hinv
  | stopRecordingAndDelete id =>
    simp only [step, stopRecordingAndDelete]
    split
    · exact hinv
    · exact inv_onCall_quiet h id _
        (fun c => ((Call.quiet_stopRecording _ _ _ c).trans (Call.quiet_emit _ _)).trans
          (Call.quiet_hideConfirmation _ _))
        hinv
  | confirm id =>
    simp only [step]
    apply inv_onCall_quiet h id _ _ hinv
    intro c
    split
    · exact ⟨rfl, rfl, fun hx => hx⟩
    · exact Call.Quiet.refl c
  | deny id =>
    simp only [step]
    apply inv_onCall_quiet h id _ _ hinv
    intro c
    split
    · have q := Call.quiet_denyRecording env.skypeSamplingRate env.writer c
      exact ⟨q.1, q.2.1, q.2.2⟩
    · exact Call.Quiet.refl c
  | readLocal id data =>
    exact inv_onCall_quiet h id _ (fun c => Call.quiet_readLocal env data c) hinv
  | readRemote id data =>
    exact inv_onCall_quiet h id _ (fun c => Call.quiet_readRemote env data c) hinv
  | connectionsClosed id =>
    exact inv_onCall_quiet h id _ (fun c => Call.quiet_checkConnections env c) hinv
  | updateConfIDs => exact inv_updateConfIDs env h (hst rfl) hinv

theorem inv_empty : CallHandler.empty.Inv :=
  ⟨List.nodup_nil, fun _ h1 => absurd h1 (List.not_mem_nil _)⟩

theorem reachable_run (trace : List (Env × Input)) (h : CallHandler) (hr : Reachable h) :
    Reachable (h.run trace) := by
  induction trace generalizing h with
  | nil => exact hr
  | cons ei rest ih => exact ih _ (Reachable.step ei.1 ei.2 h hr)

end CallHandler

/-- C10 (as stated) fails: calls 1 and 2 start recording in different
conferences; when the first status line of call 3 arrives, the constructor of
its `Call` refreshes the conference ids, Skype now reports conference 7 for
all calls, and two calls of conference 7 are recording. -/
theorem refresh_merges_recordings :
    Reachable (CallHandler.empty.run mergeTrace) ∧
    (CallHandler.empty.run mergeTrace).calls.map
      (fun c => (c.id, c.confID, c.isRecording)) = [(1, 7, true), (2, 7, true), (3, 7, false)] ∧
    ¬ (CallHandler.empty.run mergeTrace).OneRecordingPerConference := by
  refine ⟨CallHandler.reachable_run _ _ Reachable.init, by decide, by decide⟩

/-- C10 (amended): in every state reachable from the empty registry through
status events, forced start and stop requests, confirm and deny, stream data
and stream close, and conference id refreshes that leave the conference id of
every recording call as it is, the tracked calls have distinct ids and at most
one per conference id has its recording flag true. -/
theorem one_recording_per_conference (h : CallHandler) (hr : ReachableStable h) :
    (h.calls.map Call.id).Nodup ∧ h.OneRecordingPerConference := by
  induction hr with
  | init => exact CallHandler.inv_empty
  | step env i h _ hst ih => exact CallHandler.inv_step env i h hst ih

theorem one_recording_per_conference_witness :
    ReachableStable (CallHandler.empty.run dedupTrace) ∧
    (CallHandler.empty.run dedupTrace).calls.map
      (fun c => (c.id, c.confID, c.isRecording)) = [(1, 7, true), (2, 7, false)] ∧
    (CallHandler.empty.run dedupTrace).OneRecordingPerConference :=
  have hreach : ReachableStable (CallHandler.empty.run dedupTrace) :=
    ReachableStable.step (recordAllEnv (fun _ => 7)) (Input.callCmd 2 "STATUS" "INPROGRESS") _
      (ReachableStable.step (recordAllEnv (fun _ => 7)) (Input.callCmd 1 "STATUS" "INPROGRESS")
        CallHandler.empty ReachableStable.init (fun _ => by decide))
      (fun _ => by decide)
  ⟨hreach, by decide, (one_recording_per_conference _ hreach).2⟩

/-! ## startRecording and setStatus -/

namespace Call

theorem LogAdds.nothing (P : Event → Prop) (c : Call) : LogAdds P c c :=
  ⟨[], (List.append_nil _).symm, fun _ h => absurd h (List.not_mem_nil _)⟩

theorem LogAdds.followedBy {P : Event → Prop} {a b c : Call} (h1 : LogAdds P a b)
    (h2 : LogAdds P b c) : LogAdds P a c := by
  obtain ⟨e1, hl1, hp1⟩ := h1
  obtain ⟨e2, hl2, hp2⟩ := h2
  refine ⟨e1 ++ e2, ?_, ?_⟩
  · rw [hl2, hl1, List.append_assoc]
  · intro e he
    rcases List.mem_append.mp he with h | h
    · exact hp1 e h
    · exact hp2 e h

theorem LogAdds.of_log {P : Event → Prop} (c c' : Call) (evs : List Event)
    (h : c'.log = c.log ++ evs) (hp : ∀ e ∈ evs, P e) : LogAdds P c c' :=
  ⟨evs, h, hp⟩

theorem logAdds_emit (P : Event → Prop) (c : Call) (e : Event) (he : P e) :
    LogAdds P c (c.emit e) :=
  ⟨[e], rfl, fun x hx => by rw [List.mem_singleton.mp hx]; exact he⟩

theorem logAdds_same (P : Event → Prop) (c c' : Call) (h : c'.log = c.log) : LogAdds P c c' :=
  ⟨[], by rw [h, List.append_nil], fun _ hx => absurd hx (List.not_mem_nil _)⟩

theorem log_openPipeline (env : Env) (c : Call) :
    (c.openPipeline env).log =
      c.log ++ ([Event.debugStartRecording, Event.writerOpen env.outputStereo] ++
        (if !env.writerOpens then [Event.errorBox, Event.removeFile, Event.writerDelete]
         else if !env.reply1Accepted || !env.reply2Accepted then
           [Event.listen, Event.errorBox, Event.removeFile, Event.writerDelete]
         else [Event.listen, Event.startedRecording c.id])) := by
  unfold openPipeline
  simp only
  split
  · simp only [List.append_assoc]
  · split
    · simp only [List.append_assoc]
    · simp only [List.append_assoc]

theorem isRecording_openPipeline (env : Env) (c : Call) :
    (c.openPipeline env).isRecording =
      if !env.writerOpens then c.isRecording
      else if !env.reply1Accepted || !env.reply2Accepted then c.isRecording
      else true := by
  unfold openPipeline
  simp only
  split
  · rfl
  · split <;> rfl

theorem logAdds_openPipeline (P : Event → Prop) (env : Env) (c : Call)
    (hP : ∀ e, e.isCallSignal = false → P e) : LogAdds P c (c.openPipeline env) := by
  refine ⟨_, log_openPipeline env c, ?_⟩
  intro e he
  apply hP
  rcases List.mem_append.mp he with h | h
  · simp only [List.mem_cons, List.mem_singleton, List.not_mem_nil, or_false] at h
    rcases h with rfl | rfl <;> rfl
  · split at h
    · simp only [List.mem_cons, List.mem_singleton, List.not_mem_nil, or_false] at h
      rcases h with rfl | rfl | rfl <;> rfl
    · split at h
      · simp only [List.mem_cons, List.mem_singleton, List.not_mem_nil, or_false] at h
        rcases h with rfl | rfl | rfl | rfl <;> rfl
      · simp only [List.mem_cons, List.mem_singleton, List.not_mem_nil, or_false] at h
        rcases h with rfl | rfl <;> rfl

theorem log_setShouldRecord (env : Env) (c : Call) : (c.setShouldRecord env).log = c.log := by
  unfold setShouldRecord
  repeat' split
  all_goals rfl

theorem logAdds_hideConfirmation (P : Event → Prop) (c : Call) (s : Int)
    (hP : P Event.deleteDialog) : LogAdds P c (c.hideConfirmation s) := by
  unfold hideConfirmation
  split
  · exact logAdds_emit P _ _ hP
  · exact LogAdds.nothing P c

/-- The method `startRecording` emits neither `startedCall` nor
`stoppedCall`. -/
theorem logAdds_startRecording (env : Env) (others : List Call) (force : Bool) (c : Call) :
    LogAdds (fun e => e.isCallSignal = false) c (c.startRecording env others force) := by
  have h1 : LogAdds (fun e => e.isCallSignal = false) c
      (if force = true then c.hideConfirmation 2 else c) := by
    split
    · exact logAdds_hideConfirmation _ c 2 rfl
    · exact LogAdds.nothing _ c
  unfold startRecording
  simp only
  generalize (if force = true then c.hideConfirmation 2 else c) = c1 at h1
  split
  · exact h1
  · split
    · exact h1.followedBy (logAdds_emit _ _ Event.debugConference rfl)
    · split
      · exact (h1.followedBy (logAdds_emit _ _ Event.showLegalInformation rfl)).followedBy
          (logAdds_openPipeline _ env _ (fun e he => he))
      · have h2 : LogAdds (fun e => e.isCallSignal = false) c1 (c1.setShouldRecord env) :=
          logAdds_same _ _ _ (log_setShouldRecord env c1)
        have h3 : LogAdds (fun e => e.isCallSignal = false) (c1.setShouldRecord env)
            (c1.setShouldRecord env).ask := ⟨[Event.askDialog], rfl, fun x hx => by
              rw [List.mem_singleton.mp hx]; rfl⟩
        split
        · exact h1.followedBy h2
        · split
          · exact ((h1.followedBy h2).followedBy h3).followedBy
              (logAdds_openPipeline _ env _ (fun e he => he))
          · exact ((h1.followedBy h2).followedBy
              (logAdds_emit _ _ Event.showLegalInformation rfl)).followedBy
              (logAdds_openPipeline _ env _ (fun e he => he))

theorem statusActive_iff (c : Call) : c.statusActive = true ↔ c.status ∈ activeStatuses := by
  simp only [statusActive, activeStatuses, Bool.or_eq_true, beq_iff_eq, List.mem_cons,
    List.mem_singleton, List.not_mem_nil, or_false, or_assoc]

theorem statusDone_iff (c : Call) : c.statusDone = true ↔ c.status ∈ terminalStatuses := by
  simp only [statusDone, terminalStatuses, Bool.or_eq_true, beq_iff_eq, List.mem_cons,
    List.mem_singleton, List.not_mem_nil, or_false, or_assoc]

theorem okToDelete_iff (c : Call) :
    c.okToDelete = true ↔ c.isRecording = false ∧ c.confirmation = false := by
  unfold okToDelete
  cases c.isRecording <;> cases c.confirmation <;> simp

end Call


/-- C11: when another tracked call of the same conference id is active and
recording, `startRecording` on a call, forced or not and whatever the record
policy, returns before any pipeline is set up: the recording flag and the
encoder are as before (so a flag that is false stays false), and the only
effects are the deletion of a pending confirmation dialog by a forced start
and the debug line; no encoder is opened and no listening endpoint is
created. -/
theorem startRecording_conference_noop (env : Env) (h : CallHandler) (c1 c2 : Call)
    (force : Bool) (h1 : c1 ∈ h.calls) (_h2 : c2 ∈ h.calls) (hne : c1.id ≠ c2.id)
    (hconf : c1.confID = c2.confID) (_hact : c1.statusActive = true)
    (hrec : c1.isRecording = true) :
    (c2.startRecording env (h.others c2.id) force).isRecording = c2.isRecording ∧
    (c2.startRecording env (h.others c2.id) force).writer = c2.writer ∧
    (c2.isRecording = false →
      (c2.startRecording env (h.others c2.id) force).isRecording = false) ∧
    ∃ evs, (c2.startRecording env (h.others c2.id) force).log = c2.log ++ evs ∧
      (∀ e ∈ evs, e = Event.deleteDialog ∨ e = Event.debugConference) ∧
      Event.listen ∉ evs ∧ (∀ st, Event.writerOpen st ∉ evs) ∧
      (∀ i, Event.startedRecording i ∉ evs) := by
  have hmem : c1 ∈ h.others c2.id := CallHandler.mem_others h c2.id c1 h1 hne
  have k1 : (if force = true then c2.hideConfirmation 2 else c2).isRecording = c2.isRecording
      ∧ (if force = true then c2.hideConfirmation 2 else c2).writer = c2.writer
      ∧ (if force = true then c2.hideConfirmation 2 else c2).confID = c2.confID
      ∧ Call.LogAdds (fun e => e = Event.deleteDialog ∨ e = Event.debugConference) c2
          (if force = true then c2.hideConfirmation 2 else c2) := by
    split
    · refine ⟨Call.isRecording_hideConfirmation c2 2, ?_, (Call.quiet_hideConfirmation c2 2).2.1,
        Call.logAdds_hideConfirmation _ c2 2 (Or.inl rfl)⟩
      unfold Call.hideConfirmation
      split <;> rfl
    · exact ⟨rfl, rfl, rfl, Call.LogAdds.nothing _ c2⟩
  have key : (c2.startRecording env (h.others c2.id) force).isRecording = c2.isRecording ∧
      (c2.startRecording env (h.others c2.id) force).writer = c2.writer ∧
      Call.LogAdds (fun e => e = Event.deleteDialog ∨ e = Event.debugConference) c2
        (c2.startRecording env (h.others c2.id) force) := by
    unfold Call.startRecording
    simp only
    generalize (if force = true then c2.hideConfirmation 2 else c2) = c at k1
    obtain ⟨kr, kw, kc, kl⟩ := k1
    split
    · exact ⟨kr, kw, kl⟩
    · have hin : recordingInConference (c :: h.others c2.id) c.confID = true :=
        CallHandler.recordingInConference_of_mem _ c1 c.confID
          (List.mem_cons_of_mem _ hmem) hrec (by rw [kc, hconf])
      rw [if_pos hin]
      exact ⟨kr, kw, kl.followedBy (Call.logAdds_emit _ _ Event.debugConference (Or.inr rfl))⟩
  obtain ⟨kr, kw, evs, hlog, hev⟩ := key
  refine ⟨kr, kw, fun hf => by rw [kr, hf], evs, hlog, hev, ?_, ?_, ?_⟩
  · intro hx
    rcases hev _ hx with e | e <;> exact Event.noConfusion e
  · intro st hx
    rcases hev _ hx with e | e <;> exact Event.noConfusion e
  · intro i hx
    rcases hev _ hx with e | e <;> exact Event.noConfusion e

theorem startRecording_conference_noop_witness :
    (conferenceHandler.calls.getD 0 (Call.init 0 "" "" 0)).isRecording = true ∧
    (conferenceHandler.calls.getD 1 (Call.init 0 "" "" 0)).isRecording = false ∧
    ((conferenceHandler.calls.getD 1 (Call.init 0 "" "" 0)).startRecording
      (recordAllEnv (fun _ => 7)) (conferenceHandler.others 2) true).isRecording = false :=
  ⟨rfl, rfl,
    (startRecording_conference_noop (recordAllEnv (fun _ => 7)) conferenceHandler
      (conferenceHandler.calls.getD 0 (Call.init 0 "" "" 0))
      (conferenceHandler.calls.getD 1 (Call.init 0 "" "" 0)) true
      (List.mem_cons_self _ _) (List.mem_cons_of_mem _ (List.mem_cons_self _ _))
      (by decide) rfl (by decide) rfl).2.2.1 rfl⟩

/-- C12 (as stated) fails: with the default policy "ask", an unforced
`startRecording` on a call that is not recording, in a conference that is not
being recorded, raises the confirmation request and then opens the encoder
and the listening endpoints at once; the recording flag is true when it
returns. -/
theorem startRecording_ask_not_deferred :
    (Call.init 1 "echo123" "Echo" 0).isRecording = false ∧
    recordingInConference [] (Call.init 1 "echo123" "Echo" 0).confID = false ∧
    ((Call.init 1 "echo123" "Echo" 0).setShouldRecord askEnv).shouldRecord = 1 ∧
    ((Call.init 1 "echo123" "Echo" 0).startRecording askEnv [] false).isRecording = true ∧
    ((Call.init 1 "echo123" "Echo" 0).startRecording askEnv [] false).writer = true ∧
    ((Call.init 1 "echo123" "Echo" 0).startRecording askEnv [] false).log =
      [Event.askDialog, Event.debugStartRecording, Event.writerOpen false, Event.listen,
        Event.startedRecording 1] := by
  decide

/-- C12 (amended): for a call that is not recording and whose conference is
not being recorded, an unforced `startRecording` whose resolved policy is
"ask" raises a confirmation request and goes on to set up the pipeline at
once: the encoder is opened, and when the encoder opens and Skype accepts both
redirections the recording flag is true on return (otherwise it is false). -/
theorem startRecording_ask_records (env : Env) (others : List Call) (c : Call)
    (hrec : c.isRecording = false) (hconf : recordingInConference others c.confID = false)
    (hask : (c.setShouldRecord env).shouldRecord = 1) :
    c.startRecording env others false = ((c.setShouldRecord env).ask).openPipeline env ∧
    (c.startRecording env others false).confirmation = true ∧
    (∃ evs, (c.startRecording env others false).log =
      c.log ++ [Event.askDialog, Event.debugStartRecording, Event.writerOpen env.outputStereo]
        ++ evs) ∧
    (env.writerOpens = true → env.reply1Accepted = true → env.reply2Accepted = true →
      (c.startRecording env others false).isRecording = true ∧
      (c.startRecording env others false).writer = true) ∧
    (¬ (env.writerOpens = true ∧ env.reply1Accepted = true ∧ env.reply2Accepted = true) →
      (c.startRecording env others false).isRecording = false) := by
  have hno : recordingInConference (c :: others) c.confID = false := by
    unfold recordingInConference at hconf ⊢
    rw [List.any_cons, hconf, hrec]
    simp
  have heq : c.startRecording env others false = ((c.setShouldRecord env).ask).openPipeline env := by
    unfold Call.startRecording
    simp only [Bool.false_eq_true, if_false, hrec, hno, hask]
    rw [if_neg (by decide), if_pos trivial]
  have hlogS := Call.log_setShouldRecord env c
  have hrecS : (c.setShouldRecord env).isRecording = false := by
    have q := Call.quiet_setShouldRecord env c
    cases hx : (c.setShouldRecord env).isRecording
    · rfl
    · rw [q.2.2 hx] at hrec; exact Bool.noConfusion hrec
  refine ⟨heq, ?_, ?_, ?_, ?_⟩
  · rw [heq]
    unfold Call.openPipeline
    simp only
    split
    · rfl
    · split <;> rfl
  · rw [heq, Call.log_openPipeline]
    have : (c.setShouldRecord env).ask.log = c.log ++ [Event.askDialog] := by
      rw [← hlogS]; rfl
    rw [this]
    refine ⟨(if !env.writerOpens then [Event.errorBox, Event.removeFile, Event.writerDelete]
         else if !env.reply1Accepted || !env.reply2Accepted then
           [Event.listen, Event.errorBox, Event.removeFile, Event.writerDelete]
         else [Event.listen, Event.startedRecording (c.setShouldRecord env).ask.id]), ?_⟩
    simp only [List.append_assoc, List.cons_append, List.nil_append]
  · intro ho h1 h2
    rw [heq]
    constructor
    · rw [Call.isRecording_openPipeline, ho, h1, h2]; rfl
    · unfold Call.openPipeline
      simp only [ho, h1, h2, Bool.not_true, Bool.false_eq_true, if_false, Bool.or_self]
  · intro hnot
    rw [heq, Call.isRecording_openPipeline]
    have hra : (c.setShouldRecord env).ask.isRecording = false := hrecS
    by_cases ho : env.writerOpens = true
    · by_cases h1 : env.reply1Accepted = true
      · by_cases h2 : env.reply2Accepted = true
        · exact absurd ⟨ho, h1, h2⟩ hnot
        · simp [ho, h1, h2, hra]
      · simp [ho, h1, hra]
    · simp [ho, hra]

theorem startRecording_ask_records_witness :
    (Call.init 1 "echo123" "Echo" 0).isRecording = false ∧
    recordingInConference [] (Call.init 1 "echo123" "Echo" 0).confID = false ∧
    ((Call.init 1 "echo123" "Echo" 0).setShouldRecord askEnv).shouldRecord = 1 ∧
    ((Call.init 1 "echo123" "Echo" 0).startRecording askEnv [] false).confirmation = true ∧
    ((Call.init 1 "echo123" "Echo" 0).startRecording askEnv [] false).isRecording = true :=
  ⟨by decide, by decide, by decide,
    (startRecording_ask_records askEnv [] (Call.init 1 "echo123" "Echo" 0) (by decide)
      (by decide) (by decide)).2.1,
    ((startRecording_ask_records askEnv [] (Call.init 1 "echo123" "Echo" 0) (by decide)
      (by decide) (by decide)).2.2.2.1 rfl rfl rfl).1⟩

/-- C13: `setStatus(s)` emits `startedCall` and runs `startRecording(false)`
exactly when the previous status is not in Active and `s` is; it emits
`stoppedCall` exactly when the previous status is in Active and `s` is not;
in the latter case and when neither holds it has no other effect than the new
status and leaves the recording flag as it is. -/
theorem setStatus_transitions (env : Env) (others : List Call) (s : String) (c : Call) :
    (c.status ∉ activeStatuses → s ∈ activeStatuses →
      c.setStatus env others s =
        (({ c with status := s } : Call).emit (Event.startedCall c.id)).startRecording
          env others false ∧
      ∃ evs, (c.setStatus env others s).log = c.log ++ Event.startedCall c.id :: evs ∧
        ∀ e ∈ evs, e.isCallSignal = false) ∧
    (c.status ∈ activeStatuses → s ∉ activeStatuses →
      c.setStatus env others s = ({ c with status := s } : Call).emit (Event.stoppedCall c.id) ∧
      (c.setStatus env others s).log = c.log ++ [Event.stoppedCall c.id] ∧
      (c.setStatus env others s).isRecording = c.isRecording) ∧
    ((c.status ∈ activeStatuses ↔ s ∈ activeStatuses) →
      c.setStatus env others s = { c with status := s } ∧
      (c.setStatus env others s).log = c.log ∧
      (c.setStatus env others s).isRecording = c.isRecording) := by
  have hnow : ({ c with status := s } : Call).statusActive = true ↔ s ∈ activeStatuses :=
    Call.statusActive_iff _
  have hwas := Call.statusActive_iff c
  refine ⟨?_, ?_, ?_⟩
  · intro h1 h2
    have e1 : c.statusActive = false := Bool.eq_false_iff.mpr (fun h => h1 (hwas.mp h))
    have e2 : ({ c with status := s } : Call).statusActive = true := hnow.mpr h2
    have heq : c.setStatus env others s =
        (({ c with status := s } : Call).emit (Event.startedCall c.id)).startRecording
          env others false := by
      unfold Call.setStatus
      simp only [e1, e2, Bool.not_false, Bool.and_self, if_true]
    refine ⟨heq, ?_⟩
    obtain ⟨evs, hl, hp⟩ := Call.logAdds_startRecording env others false
      (({ c with status := s } : Call).emit (Event.startedCall c.id))
    refine ⟨evs, ?_, hp⟩
    rw [heq, hl]
    simp only [Call.emit, List.append_assoc, List.singleton_append]
  · intro h1 h2
    have e1 : c.statusActive = true := hwas.mpr h1
    have e2 : ({ c with status := s } : Call).statusActive = false :=
      Bool.eq_false_iff.mpr (fun h => h2 (hnow.mp h))
    have heq : c.setStatus env others s =
        ({ c with status := s } : Call).emit (Event.stoppedCall c.id) := by
      unfold Call.setStatus
      simp only [e1, e2, Bool.not_true, Bool.not_false, Bool.and_self, Bool.false_and,
        Bool.false_eq_true, if_false, if_true]
    exact ⟨heq, by rw [heq]; rfl, by rw [heq]; rfl⟩
  · intro hiff
    have heq : c.setStatus env others s = { c with status := s } := by
      unfold Call.setStatus
      by_cases h1 : c.status ∈ activeStatuses
      · have e1 : c.statusActive = true := hwas.mpr h1
        have e2 : ({ c with status := s } : Call).statusActive = true := hnow.mpr (hiff.mp h1)
        simp only [e1, e2, Bool.not_true, Bool.false_and, Bool.and_false, Bool.false_eq_true,
          if_false]
      · have e1 : c.statusActive = false := Bool.eq_false_iff.mpr (fun h => h1 (hwas.mp h))
        have e2 : ({ c with status := s } : Call).statusActive = false :=
          Bool.eq_false_iff.mpr (fun h => h1 (hiff.mpr (hnow.mp h)))
        simp only [e1, e2, Bool.not_false, Bool.and_false, Bool.false_and, Bool.false_eq_true,
          if_false]
    exact ⟨heq, by rw [heq], by rw [heq]⟩

theorem setStatus_transitions_witness :
    ("UNKNOWN" ∉ activeStatuses ∧ "INPROGRESS" ∈ activeStatuses) ∧
    ((Call.init 1 "echo123" "Echo" 0).setStatus askEnv [] "INPROGRESS" =
      (({ Call.init 1 "echo123" "Echo" 0 with status := "INPROGRESS" } : Call).emit
        (Event.startedCall 1)).startRecording askEnv [] false) ∧
    ((conferenceHandler.calls.getD 0 (Call.init 0 "" "" 0)).setStatus askEnv [] "FINISHED").log
      = [Event.stoppedCall 1] ∧
    ((conferenceHandler.calls.getD 0 (Call.init 0 "" "" 0)).setStatus askEnv []
      "FINISHED").isRecording = true ∧
    ((Call.init 1 "echo123" "Echo" 0).setStatus askEnv [] "RINGING").log = [] :=
  ⟨⟨by decide, by decide⟩,
    ((setStatus_transitions askEnv [] "INPROGRESS" (Call.init 1 "echo123" "Echo" 0)).1
      (by decide) (by decide)).1,
    ((setStatus_transitions askEnv [] "FINISHED"
      (conferenceHandler.calls.getD 0 (Call.init 0 "" "" 0))).2.1 (by decide) (by decide)).2.1,
    ((setStatus_transitions askEnv [] "FINISHED"
      (conferenceHandler.calls.getD 0 (Call.init 0 "" "" 0))).2.1 (by decide) (by decide)).2.2,
    ((setStatus_transitions askEnv [] "RINGING" (Call.init 1 "echo123" "Echo" 0)).2.2
      (by decide)).2.1⟩

/-! ## Registry keys, prune, record policy -/

namespace CallHandler

theorem ids_onCall (h : CallHandler) (id : Int) (f : Call → Call)
    (hf : ∀ c, (f c).id = c.id) : (h.onCall id f).calls.map Call.id = h.calls.map Call.id := by
  unfold onCall
  simp only [List.map_map]
  apply List.map_congr_left
  intro c _
  simp only [Function.comp]
  split
  · exact hf c
  · rfl

theorem ignore_onCall (h : CallHandler) (id : Int) (f : Call → Call) :
    (h.onCall id f).ignore = h.ignore := rfl

theorem keys_onCall (h : CallHandler) (id : Int) (f : Call → Call)
    (hf : ∀ c, (f c).id = c.id) (hk : h.Keys) : (h.onCall id f).Keys := by
  unfold Keys
  rw [ids_onCall h id f hf]
  exact hk

theorem ids_updateConfIDs (env : Env) (h : CallHandler) :
    (h.updateConfIDs env).calls.map Call.id = h.calls.map Call.id := by
  unfold updateConfIDs
  simp only [List.map_map]
  rfl

theorem keys_prune (h : CallHandler) (hk : h.Keys) : h.prune.Keys := by
  obtain ⟨hnd, hdis⟩ := hk
  constructor
  · exact hnd.sublist (List.Sublist.map _ (List.filter_sublist _))
  · intro id hid hmem
    unfold prune at hid hmem
    simp only at hid hmem
    obtain ⟨c, hc, hcid⟩ := List.mem_map.mp hmem
    have hcmem := List.mem_of_mem_filter hc
    have hkeep := (List.mem_filter.mp hc).2
    rcases List.mem_append.mp hid with h1 | h1
    · exact hdis id h1 (List.mem_map.mpr ⟨c, hcmem, hcid⟩)
    · obtain ⟨d, hd, hdid⟩ := List.mem_map.mp h1
      have hdmem := List.mem_of_mem_filter hd
      have hdrop := (List.mem_filter.mp hd).2
      have : c = d := List.inj_on_of_nodup_map hnd hcmem hdmem (hcid.trans hdid.symm)
      subst this
      rw [hdrop] at hkeep
      exact Bool.noConfusion hkeep

theorem keys_newCall (env : Env) (h : CallHandler) (id : Int) (hnew : h.contains id = false)
    (hig : h.ignore.contains id = false) (hk : h.Keys) : (h.newCall env id).Keys := by
  obtain ⟨hnd, hdis⟩ := hk
  have hnotin : id ∉ (h.updateConfIDs env).calls.map Call.id := by
    rw [ids_updateConfIDs]
    exact contains_eq_false h id hnew
  unfold newCall
  simp only
  generalize (if (env.partnerHandle id).isEmpty = true then "UnknownCaller"
    else env.partnerHandle id) = n1
  generalize (if (env.partnerDispname id).isEmpty = true then "Unnamed Caller"
    else env.partnerDispname id) = n2
  have hperm := perm_insertCall (h.updateConfIDs env).calls (Call.init id n1 n2 (env.confId id))
  have hids : ((insertCall (h.updateConfIDs env).calls
      (Call.init id n1 n2 (env.confId id))).map Call.id).Perm (id :: h.calls.map Call.id) := by
    have := hperm.map Call.id
    rw [List.map_cons, ids_updateConfIDs] at this
    exact this
  constructor
  · simp only
    rw [hids.nodup_iff, List.nodup_cons]
    exact ⟨contains_eq_false h id hnew, hnd⟩
  · intro x hx hmem
    simp only at hmem
    have hx' : x ∈ h.ignore := hx
    rw [hids.mem_iff, List.mem_cons] at hmem
    rcases hmem with rfl | hmem
    · have : h.ignore.contains x = true := List.elem_iff.mpr hx'
      rw [hig] at this
      exact Bool.noConfusion this
    · exact hdis x hx' hmem

theorem callCmd_ignored (env : Env) (h : CallHandler) (id : Int) (subCmd arg : String)
    (hid : id ∈ h.ignore) : h.callCmd env id subCmd arg = h := by
  unfold callCmd
  rw [if_pos (List.elem_iff.mpr hid)]

theorem keys_callCmd (env : Env) (h : CallHandler) (id : Int) (subCmd arg : String)
    (hk : h.Keys) : (h.callCmd env id subCmd arg).Keys := by
  unfold callCmd
  by_cases hig : h.ignore.contains id = true
  · rw [if_pos hig]; exact hk
  · rw [if_neg hig]
    simp only
    have h1k : (if h.contains id = true then h else h.newCall env id).Keys := by
      by_cases hc : h.contains id = true
      · rw [if_pos hc]; exact hk
      · rw [if_neg hc]
        exact keys_newCall env h id (Bool.eq_false_iff.mpr hc) (Bool.eq_false_iff.mpr hig) hk
    generalize (if h.contains id = true then h else h.newCall env id) = h1 at h1k
    apply keys_prune
    split
    · exact keys_onCall h1 id _ (fun c => (Call.setStatus_guard env _ arg c).1) h1k
    · split
      · exact keys_onCall h1 id _ (fun c => (Call.setStatus_guard env _ "INPROGRESS" c).1) h1k
      · exact h1k

theorem keys_step (env : Env) (i : Input) (h : CallHandler) (hk : h.Keys) :
    (h.step env i).Keys := by
  cases i with
  | callCmd id subCmd arg => exact keys_callCmd env h id subCmd arg hk
  | startRecording id =>
    simp only [step, startRecording]
    split
    · exact hk
    · exact keys_onCall h id _ (fun c => (Call.startRecording_guard env _ true c).1) hk
  | stopRecording id =>
    simp only [step, stopRecording]
    split
    · exact hk
    · exact keys_onCall h id _
        (fun c => ((Call.quiet_stopRecording _ _ _ c).trans
          (Call.quiet_hideConfirmation _ _)).1) hk
  | stopRecordingAndDelete id =>
    simp only [step, stopRecordingAndDelete]
    split
    · exact hk
    · exact keys_onCall h id _
        (fun c => (((Call.quiet_stopRecording _ _ _ c).trans (Call.quiet_emit _ _)).trans
          (Call.quiet_hideConfirmation _ _)).1) hk
  | confirm id =>
    simp only [step]
    apply keys_onCall h id _ _ hk
    intro c
    split <;> rfl
  | deny id =>
    simp only [step]
    apply keys_onCall h id _ _ hk
    intro c
    split
    · exact (Call.quiet_denyRecording env.skypeSamplingRate env.writer c).1
    · rfl
  | readLocal id data => exact keys_onCall h id _ (fun c => (Call.quiet_readLocal env data c).1) hk
  | readRemote id data =>
    exact keys_onCall h id _ (fun c => (Call.quiet_readRemote env data c).1) hk
  | connectionsClosed id =>
    exact keys_onCall h id _ (fun c => (Call.quiet_checkConnections env c).1) hk
  | updateConfIDs =>
    unfold Keys
    simp only [step]
    rw [ids_updateConfIDs]
    exact hk

theorem ignore_prune_le (h : CallHandler) : h.ignore ⊆ h.prune.ignore := by
  intro x hx
  unfold prune
  exact List.mem_append_left _ hx

theorem ignore_step_le (env : Env) (i : Input) (h : CallHandler) :
    h.ignore ⊆ (h.step env i).ignore := by
  cases i with
  | callCmd id subCmd arg =>
    simp only [step, callCmd]
    split
    · exact fun x hx => hx
    · intro x hx
      apply ignore_prune_le
      have e1 : (if h.contains id = true then h else h.newCall env id).ignore = h.ignore := by
        split <;> rfl
      split
      · rw [ignore_onCall, e1]; exact hx
      · split
        · rw [ignore_onCall, e1]; exact hx
        · rw [e1]; exact hx
  | startRecording id =>
    simp only [step, startRecording]
    split <;> exact fun x hx => hx
  | stopRecording id =>
    simp only [step, stopRecording]
    split <;> exact fun x hx => hx
  | stopRecordingAndDelete id =>
    simp only [step, stopRecordingAndDelete]
    split <;> exact fun x hx => hx
  | confirm id => exact fun x hx => hx
  | deny id => exact fun x hx => hx
  | readLocal id data => exact fun x hx => hx
  | readRemote id data => exact fun x hx => hx
  | connectionsClosed id => exact fun x hx => hx
  | updateConfIDs => exact fun x hx => hx

theorem keys_empty : CallHandler.empty.Keys :=
  ⟨List.nodup_nil, fun _ h => absurd h (List.not_mem_nil _)⟩

theorem keys_of_reachablePruned (h : CallHandler) (hr : ReachablePruned h) : h.Keys := by
  induction hr with
  | init => exact keys_empty
  | step env i h _ ih => exact keys_step env i h ih
  | prune h _ ih => exact keys_prune h ih

theorem run_cons (h : CallHandler) (ei : Env × Input) (rest : List (Env × Input)) :
    h.run (ei :: rest) = (h.step ei.1 ei.2).run rest := rfl

theorem keys_run (trace : List (Env × Input)) (h : CallHandler) (hk : h.Keys) :
    (h.run trace).Keys := by
  induction trace generalizing h with
  | nil => exact hk
  | cons ei rest ih => exact ih _ (keys_step ei.1 ei.2 h hk)

theorem ignore_run_le (trace : List (Env × Input)) (h : CallHandler) :
    h.ignore ⊆ (h.run trace).ignore := by
  induction trace generalizing h with
  | nil => exact fun x hx => hx
  | cons ei rest ih => exact fun x hx => ih _ (ignore_step_le ei.1 ei.2 h hx)

end CallHandler

/-- C14: in every registry state reachable through inputs and runs of `prune`
no id is both tracked and forgotten, and neither an input nor `prune` removes
an id from the forgotten set; a call that `prune` discards is forgotten, a
status event for a forgotten id leaves the registry as it is, and whatever
happens later a forgotten id stays forgotten and is never tracked again. -/
theorem forgotten_never_tracked (h : CallHandler) (hr : ReachablePruned h) :
    (∀ id, id ∈ h.ignore → id ∉ h.calls.map Call.id) ∧
    (∀ env i, h.ignore ⊆ (h.step env i).ignore) ∧
    h.ignore ⊆ h.prune.ignore ∧
    (∀ c ∈ h.calls, c.statusDone = true → c.okToDelete = true →
      c.id ∈ h.prune.ignore ∧ c.id ∉ h.prune.calls.map Call.id) ∧
    (∀ id ∈ h.ignore, ∀ env subCmd arg, h.callCmd env id subCmd arg = h) ∧
    (∀ id ∈ h.ignore, ∀ trace,
      id ∈ (h.run trace).ignore ∧ id ∉ (h.run trace).calls.map Call.id) := by
  have hk := CallHandler.keys_of_reachablePruned h hr
  refine ⟨hk.2, fun env i => CallHandler.ignore_step_le env i h, CallHandler.ignore_prune_le h,
    ?_, ?_, ?_⟩
  · intro c hc hd ho
    have hin : c.id ∈ h.prune.ignore := by
      unfold CallHandler.prune
      simp only
      apply List.mem_append_right
      exact List.mem_map.mpr ⟨c, List.mem_filter.mpr ⟨hc, by rw [hd, ho]; rfl⟩, rfl⟩
    exact ⟨hin, (CallHandler.keys_prune h hk).2 c.id hin⟩
  · intro id hid env subCmd arg
    exact CallHandler.callCmd_ignored env h id subCmd arg hid
  · intro id hid trace
    have hin := CallHandler.ignore_run_le trace h hid
    exact ⟨hin, (CallHandler.keys_run trace h hk).2 id hin⟩

theorem forgotten_never_tracked_witness :
    ReachablePruned (CallHandler.empty.step askEnv (Input.callCmd 5 "STATUS" "MISSED")) ∧
    (CallHandler.empty.step askEnv (Input.callCmd 5 "STATUS" "MISSED")).ignore = [5] ∧
    (CallHandler.empty.step askEnv (Input.callCmd 5 "STATUS" "MISSED")).callCmd askEnv 5
      "STATUS" "INPROGRESS" =
      CallHandler.empty.step askEnv (Input.callCmd 5 "STATUS" "MISSED") :=
  ⟨ReachablePruned.step _ _ _ ReachablePruned.init, by decide,
    (forgotten_never_tracked _ (ReachablePruned.step askEnv (Input.callCmd 5 "STATUS" "MISSED")
      _ ReachablePruned.init)).2.2.2.2.1 5 (by decide) askEnv "STATUS" "INPROGRESS"⟩


namespace CallHandler

theorem foldl_pruneVisit (l : List Call) (g : CallHandler) :
    l.foldl pruneVisit g =
      { calls := g.calls.filter (fun x =>
          !((l.filter (fun c => c.statusDone && c.okToDelete)).map Call.id).contains x.id)
        ignore := g.ignore ++ (l.filter (fun c => c.statusDone && c.okToDelete)).map Call.id } := by
  induction l generalizing g with
  | nil =>
    simp only [List.foldl_nil, List.filter_nil, List.map_nil, List.contains_nil, Bool.not_false,
      List.filter_true, List.append_nil]
  | cons c l ih =>
    rw [List.foldl_cons, ih]
    unfold pruneVisit
    by_cases hd : (c.statusDone && c.okToDelete) = true
    · have hf : List.filter (fun c => c.statusDone && c.okToDelete) (c :: l) =
          c :: List.filter (fun c => c.statusDone && c.okToDelete) l :=
        List.filter_cons_of_pos hd
      rw [if_pos hd, hf]
      simp only [List.filter_filter, List.map_cons, List.contains_cons, List.append_assoc,
        List.singleton_append, mk.injEq, and_true]
      apply List.filter_congr
      intro x _
      by_cases hx : x.id = c.id
      · simp [hx]
      · have h1 : (x.id == c.id) = false := by simpa using hx
        have h2 : (x.id != c.id) = true := by simpa using hx
        simp only [h1, h2, Bool.and_true, Bool.false_or, Bool.not_false, Bool.true_and,
          List.contains_cons]
    · have hf : List.filter (fun c => c.statusDone && c.okToDelete) (c :: l) =
          List.filter (fun c => c.statusDone && c.okToDelete) l :=
        List.filter_cons_of_neg hd
      rw [if_neg hd, hf]

theorem prune_eq_pruneLoop (h : CallHandler) (hnd : (h.calls.map Call.id).Nodup) :
    h.prune = h.pruneLoop := by
  unfold pruneLoop prune
  rw [foldl_pruneVisit]
  simp only [mk.injEq, and_true]
  apply List.filter_congr
  intro x hx
  cases hd : (x.statusDone && x.okToDelete)
  · simp only [Bool.not_false, Bool.not_eq_true', Bool.true_eq]
    rw [Bool.eq_false_iff]
    intro hc
    have hm := List.elem_iff.mp hc
    obtain ⟨y, hy, hyid⟩ := List.mem_map.mp hm
    have hymem := List.mem_of_mem_filter hy
    have hydrop := (List.mem_filter.mp hy).2
    have : y = x := List.inj_on_of_nodup_map hnd hymem hx hyid
    subst this
    rw [hd] at hydrop
    exact Bool.noConfusion hydrop
  · simp only [Bool.not_true, Bool.false_eq, Bool.not_eq_false']
    apply List.elem_iff.mpr
    exact List.mem_map.mpr ⟨x, List.mem_filter.mpr ⟨hx, hd⟩, rfl⟩

theorem doneOk_iff (c : Call) :
    (c.statusDone && c.okToDelete) = true ↔
      c.status ∈ terminalStatuses ∧ c.isRecording = false ∧ c.confirmation = false := by
  rw [Bool.and_eq_true, Call.statusDone_iff, Call.okToDelete_iff]

end CallHandler

/-- C15: `prune`, the loop over the tracked calls, removes from the live map
exactly the calls whose status is terminal and that are neither recording nor
awaiting a confirmation, adds exactly their ids to the forgotten set and
leaves the other calls in place, in their order; a call that is recording or
awaiting a decision is kept, and after a status event that was not ignored no
tracked call is both terminal and ok to delete. -/
theorem prune_spec (h : CallHandler) (hnd : (h.calls.map Call.id).Nodup) :
    h.prune = h.pruneLoop ∧
    (∀ c, c ∈ h.prune.calls ↔
      c ∈ h.calls ∧
        ¬ (c.status ∈ terminalStatuses ∧ c.isRecording = false ∧ c.confirmation = false)) ∧
    (∀ id, id ∈ h.prune.ignore ↔
      id ∈ h.ignore ∨
        ∃ c ∈ h.calls, c.id = id ∧
          c.status ∈ terminalStatuses ∧ c.isRecording = false ∧ c.confirmation = false) ∧
    List.Sublist h.prune.calls h.calls ∧
    (∀ c ∈ h.calls, c.isRecording = true ∨ c.confirmation = true → c ∈ h.prune.calls) ∧
    (∀ env id subCmd arg, h.ignore.contains id = false →
      ∀ c ∈ (h.callCmd env id subCmd arg).calls,
        ¬ (c.statusDone = true ∧ c.okToDelete = true)) := by
  have hcalls : ∀ c, c ∈ h.prune.calls ↔
      c ∈ h.calls ∧
        ¬ (c.status ∈ terminalStatuses ∧ c.isRecording = false ∧ c.confirmation = false) := by
    intro c
    unfold CallHandler.prune
    simp only [List.mem_filter, Bool.not_eq_true', ← CallHandler.doneOk_iff,
      Bool.not_eq_true]
  refine ⟨CallHandler.prune_eq_pruneLoop h hnd, hcalls, ?_, ?_, ?_, ?_⟩
  · intro id
    unfold CallHandler.prune
    simp only [List.mem_append, List.mem_map, List.mem_filter, CallHandler.doneOk_iff]
    constructor
    · rintro (h1 | ⟨c, ⟨hc, hd⟩, hid⟩)
      · exact Or.inl h1
      · exact Or.inr ⟨c, hc, hid, hd⟩
    · rintro (h1 | ⟨c, hc, hid, hd⟩)
      · exact Or.inl h1
      · exact Or.inr ⟨c, ⟨hc, hd⟩, hid⟩
  · exact List.filter_sublist _
  · intro c hc hbusy
    rw [hcalls]
    refine ⟨hc, ?_⟩
    rintro ⟨_, hr, hcf⟩
    rcases hbusy with hb | hb
    · rw [hr] at hb; exact Bool.noConfusion hb
    · rw [hcf] at hb; exact Bool.noConfusion hb
  · intro env id subCmd arg hig c hc hdo
    unfold CallHandler.callCmd at hc
    rw [if_neg (by rw [hig]; exact Bool.false_ne_true)] at hc
    simp only [CallHandler.prune, List.mem_filter] at hc
    have := hc.2
    rw [hdo.1, hdo.2] at this
    exact Bool.noConfusion this

theorem prune_spec_witness :
    (finishedHandler.calls.map Call.id).Nodup ∧
    finishedHandler.prune = finishedHandler.pruneLoop ∧
    finishedHandler.prune.calls.map Call.id = [2, 3] ∧
    finishedHandler.prune.ignore = [1] :=
  ⟨by decide, (prune_spec finishedHandler (by decide)).1, by decide, by decide⟩

/-- C16: `setShouldRecord` resolves the policy in this order: allow (2) if the
partner handle is in the allow list; otherwise ask (1) if it is in the ask
list; otherwise deny (0) if it is in the deny list; otherwise the default,
"yes" giving allow, "ask" ask, "no" deny, and any other value, the empty one
included, ask.  Nothing but `shouldRecord` changes. -/
theorem setShouldRecord_precedence (env : Env) (c : Call) :
    (c.skypeName ∈ env.autoRecordYes → (c.setShouldRecord env).shouldRecord = 2) ∧
    (c.skypeName ∉ env.autoRecordYes → c.skypeName ∈ env.autoRecordAsk →
      (c.setShouldRecord env).shouldRecord = 1) ∧
    (c.skypeName ∉ env.autoRecordYes → c.skypeName ∉ env.autoRecordAsk →
      c.skypeName ∈ env.autoRecordNo → (c.setShouldRecord env).shouldRecord = 0) ∧
    (c.skypeName ∉ env.autoRecordYes → c.skypeName ∉ env.autoRecordAsk →
      c.skypeName ∉ env.autoRecordNo →
        (env.autoRecordDefault = "yes" → (c.setShouldRecord env).shouldRecord = 2) ∧
        (env.autoRecordDefault = "ask" → (c.setShouldRecord env).shouldRecord = 1) ∧
        (env.autoRecordDefault = "no" → (c.setShouldRecord env).shouldRecord = 0) ∧
        (env.autoRecordDefault ≠ "yes" → env.autoRecordDefault ≠ "ask" →
          env.autoRecordDefault ≠ "no" → (c.setShouldRecord env).shouldRecord = 1)) ∧
    c.setShouldRecord env = { c with shouldRecord := (c.setShouldRecord env).shouldRecord } := by
  have e1 : env.autoRecordYes.contains c.skypeName = true ↔ c.skypeName ∈ env.autoRecordYes :=
    List.elem_iff
  have e2 : env.autoRecordAsk.contains c.skypeName = true ↔ c.skypeName ∈ env.autoRecordAsk :=
    List.elem_iff
  have e3 : env.autoRecordNo.contains c.skypeName = true ↔ c.skypeName ∈ env.autoRecordNo :=
    List.elem_iff
  refine ⟨?_, ?_, ?_, ?_, ?_⟩
  · intro h1
    unfold Call.setShouldRecord
    rw [if_pos (e1.mpr h1)]
  · intro h1 h2
    unfold Call.setShouldRecord
    rw [if_neg (fun h => h1 (e1.mp h)), if_pos (e2.mpr h2)]
  · intro h1 h2 h3
    unfold Call.setShouldRecord
    rw [if_neg (fun h => h1 (e1.mp h)), if_neg (fun h => h2 (e2.mp h)), if_pos (e3.mpr h3)]
  · intro h1 h2 h3
    have hred : c.setShouldRecord env =
        if env.autoRecordDefault == "yes" then { c with shouldRecord := 2 }
        else if env.autoRecordDefault == "ask" then { c with shouldRecord := 1 }
        else if env.autoRecordDefault == "no" then { c with shouldRecord := 0 }
        else { c with shouldRecord := 1 } := by
      unfold Call.setShouldRecord
      rw [if_neg (fun h => h1 (e1.mp h)), if_neg (fun h => h2 (e2.mp h)),
        if_neg (fun h => h3 (e3.mp h))]
    rw [hred]
    refine ⟨?_, ?_, ?_, ?_⟩
    · intro hd
      rw [hd]; rfl
    · intro hd
      rw [hd]; rfl
    · intro hd
      rw [hd]; rfl
    · intro n1 n2 n3
      rw [if_neg (by simpa using n1), if_neg (by simpa using n2), if_neg (by simpa using n3)]
  · unfold Call.setShouldRecord
    repeat' split
    all_goals rfl

theorem setShouldRecord_precedence_witness :
    ("both" ∈ listsEnv.autoRecordYes ∧ "both" ∈ listsEnv.autoRecordAsk ∧
      ((Call.init 1 "both" "B" 0).setShouldRecord listsEnv).shouldRecord = 2) ∧
    ("colleague" ∉ listsEnv.autoRecordYes ∧ "colleague" ∈ listsEnv.autoRecordAsk ∧
      ((Call.init 1 "colleague" "C" 0).setShouldRecord listsEnv).shouldRecord = 1) ∧
    ("stranger" ∈ listsEnv.autoRecordNo ∧
      ((Call.init 1 "stranger" "S" 0).setShouldRecord listsEnv).shouldRecord = 0) ∧
    ("nobody" ∉ listsEnv.autoRecordNo ∧ listsEnv.autoRecordDefault = "no" ∧
      ((Call.init 1 "nobody" "N" 0).setShouldRecord listsEnv).shouldRecord = 0) :=
  ⟨⟨by decide, by decide,
      (setShouldRecord_precedence listsEnv (Call.init 1 "both" "B" 0)).1 (by decide)⟩,
    ⟨by decide, by decide,
      (setShouldRecord_precedence listsEnv (Call.init 1 "colleague" "C" 0)).2.1 (by decide)
        (by decide)⟩,
    ⟨by decide,
      (setShouldRecord_precedence listsEnv (Call.init 1 "stranger" "S" 0)).2.2.1 (by decide)
        (by decide) (by decide)⟩,
    ⟨by decide, by decide,
      ((setShouldRecord_precedence listsEnv (Call.init 1 "nobody" "N" 0)).2.2.2.1 (by decide)
        (by decide) (by decide)).2.2.1 (by decide)⟩⟩

/-! ## The drift correction of tryToWrite -/

theorem roundingCall_samples :
    roundingCall.localSamples = 0 ∧ roundingCall.remoteSamples = 479 := by
  have hl : roundingCall.bufferLocal = [] := rfl
  have hr : roundingCall.bufferRemote = List.replicate 958 0 := rfl
  unfold Call.localSamples Call.remoteSamples
  rw [hl, hr, List.length_replicate, List.length_nil]
  exact ⟨by decide, by decide⟩

set_option maxRecDepth 8192 in
theorem roundingCall_getSync :
    (roundingCall.sync.add (roundingCall.remoteSamples - roundingCall.localSamples)).getSync
      = 479 := by
  rw [roundingCall_samples.1, roundingCall_samples.2]
  have hs : roundingCall.sync =
      (AutoSync.create (100 * 2 * 3) 320).addAll (List.replicate 599 479) := by
    unfold roundingCall
    simp only
  rw [hs]
  obtain ⟨h1, h2, hsup, hsz, hpr⟩ :=
    AutoSync.create_addAll_replicate_add (100 * 2 * 3) 320 479 599 (by norm_num) (479 - 0)
  exact AutoSync.getSync_eval _ 287400 137664600 600 320 479
    (by rw [hsup]) (by rw [h1]; norm_num) (by rw [h2]; norm_num) (by rw [hsz]) hpr (by decide)

theorem roundingCall_syncAmount : roundingCall.syncAmount = 320 := by
  unfold Call.syncAmount
  rw [roundingCall_getSync]
  decide

theorem laggingCall_samples :
    laggingCall.localSamples = 320001 ∧ laggingCall.remoteSamples = 0 := by
  have hl : laggingCall.bufferLocal = List.replicate 640002 0 := rfl
  have hr : laggingCall.bufferRemote = [] := rfl
  unfold Call.localSamples Call.remoteSamples
  rw [hl, hr, List.length_replicate, List.length_nil]
  exact ⟨by decide, by decide⟩

theorem laggingCall_syncAmount : laggingCall.syncAmount = -320000 := by
  unfold Call.syncAmount
  rw [laggingCall_samples.1, laggingCall_samples.2]
  have hs : laggingCall.sync =
      (AutoSync.create (100 * 2 * 3) 320).addAll (List.replicate 599 (-320000)) := by
    unfold laggingCall
    simp only
  rw [hs]
  obtain ⟨h1, h2, hsup, hsz, hpr⟩ :=
    AutoSync.create_addAll_replicate_add (100 * 2 * 3) 320 (-320000) 599 (by norm_num)
      (0 - 320001)
  rw [AutoSync.getSync_eval _ (-192000001) 61440000640001 600 320 (-320000)
    (by rw [hsup]) (by rw [h1]; norm_num) (by rw [h2]; norm_num) (by rw [hsz]) hpr (by decide)]
  decide

namespace Call

theorem sync_doSync (c : Call) (s : Int) : (c.doSync s).sync = c.sync := by
  unfold doSync
  split <;> rfl

theorem sync_syncStep (c : Call) :
    c.syncStep.sync =
      if c.syncAmount ≠ 0 then (c.sync.add (c.remoteSamples - c.localSamples)).reset
      else c.sync.add (c.remoteSamples - c.localSamples) := by
  have key := sync_doSync ({ c with sync := c.sync.add (c.remoteSamples - c.localSamples) } : Call)
    c.syncAmount
  unfold syncStep
  simp only
  by_cases h0 : c.syncAmount = 0
  · simp only [h0, ne_eq, not_true_eq_false, if_false]
    split <;> rfl
  · simp only [ne_eq, h0, not_false_eq_true, if_true]
    split
    · show (({ c with sync := c.sync.add (c.remoteSamples - c.localSamples) } : Call).doSync
        c.syncAmount).sync.reset = _
      rw [key]
    · show (({ c with sync := c.sync.add (c.remoteSamples - c.localSamples) } : Call).doSync
        c.syncAmount).sync.reset = _
      rw [key]

theorem tdiv_two_add (n : Nat) (s : Int) (hs : 0 ≤ s) :
    Int.tdiv (((n + (s * 2).toNat : Nat)) : Int) 2 = Int.tdiv (n : Int) 2 + s := by
  rw [Int.tdiv_eq_ediv (by omega) (by decide), Int.tdiv_eq_ediv (by omega) (by decide)]
  omega

end Call

/-- C17 (as stated) fails: the estimator of the call returns 479, the
correction applied is 320, and the multiple 480 of 160 is closer to 479. -/
theorem syncAmount_not_nearest :
    (roundingCall.sync.add (roundingCall.remoteSamples - roundingCall.localSamples)).getSync
      = 479 ∧
    roundingCall.syncAmount = 320 ∧
    ¬ IsNearestMultiple 160
      (roundingCall.sync.add (roundingCall.remoteSamples - roundingCall.localSamples)).getSync
      roundingCall.syncAmount := by
  refine ⟨roundingCall_getSync, roundingCall_syncAmount, ?_⟩
  rw [roundingCall_getSync, roundingCall_syncAmount]
  intro h
  have := h.2 480 (by decide)
  norm_num [abs_of_pos, abs_of_neg] at this

/-- C17 (amended): the correction applied in a non-flush `tryToWrite` is the
value `g` returned by the estimator quantized toward zero to a multiple of 160
samples: it is a multiple of 160, lies between 0 and `g`, and differs from `g`
by less than 160. -/
theorem syncAmount_truncates (c : Call) :
    (160 : Int) ∣ c.syncAmount ∧
    |(c.sync.add (c.remoteSamples - c.localSamples)).getSync - c.syncAmount| < 160 ∧
    (0 ≤ (c.sync.add (c.remoteSamples - c.localSamples)).getSync →
      0 ≤ c.syncAmount ∧
      c.syncAmount ≤ (c.sync.add (c.remoteSamples - c.localSamples)).getSync) ∧
    ((c.sync.add (c.remoteSamples - c.localSamples)).getSync ≤ 0 →
      (c.sync.add (c.remoteSamples - c.localSamples)).getSync ≤ c.syncAmount ∧
      c.syncAmount ≤ 0) ∧
    c.syncStep.bufferLocal =
      (if 0 < c.syncAmount then c.bufferLocal ++ zeroBytes (c.syncAmount * 2)
        else c.bufferLocal) ∧
    c.syncStep.bufferRemote =
      (if c.syncAmount < 0 then c.bufferRemote ++ zeroBytes (c.syncAmount * -2)
        else c.bufferRemote) := by
  refine ⟨?_, ?_, ?_, ?_, Call.bufferLocal_syncStep c, Call.bufferRemote_syncStep c⟩
  · exact Dvd.intro_left _ rfl
  all_goals
    unfold Call.syncAmount
    generalize (c.sync.add (c.remoteSamples - c.localSamples)).getSync = g
    have h := tdiv_cases g 160 (by decide)
  · by_cases hg : 0 ≤ g
    · rw [h.1 hg, abs_lt]; omega
    · rw [h.2 (by omega), abs_lt]; omega
  · intro hg
    rw [h.1 hg]; omega
  · intro hg
    by_cases h0 : g = 0
    · subst h0; decide
    · rw [h.2 (by omega)]; omega

/-- C18: in a non-flush `tryToWrite` a positive quantized correction `s`
appends `2 * s` zero bytes to the local buffer and leaves the remote buffer as
it is; a negative one appends `2 * |s|` zero bytes to the remote buffer and
leaves the local buffer as it is; in both cases the sample delta goes down by
`s` and the settle countdown of the estimator is re-armed to the window size.
When the quantized correction is zero no buffer changes and the estimator is
not reset. -/
theorem syncStep_correction (c : Call) :
    (0 < c.syncAmount →
      c.syncStep.bufferLocal = c.bufferLocal ++ List.replicate (2 * c.syncAmount.toNat) 0 ∧
      c.syncStep.bufferRemote = c.bufferRemote ∧
      c.syncStep.remoteSamples - c.syncStep.localSamples =
        c.remoteSamples - c.localSamples - c.syncAmount ∧
      c.syncStep.sync.suppress = c.sync.size ∧ c.syncStep.sync.size = c.sync.size) ∧
    (c.syncAmount < 0 →
      c.syncStep.bufferRemote = c.bufferRemote ++ List.replicate (2 * (-c.syncAmount).toNat) 0 ∧
      c.syncStep.bufferLocal = c.bufferLocal ∧
      c.syncStep.remoteSamples - c.syncStep.localSamples =
        c.remoteSamples - c.localSamples - c.syncAmount ∧
      c.syncStep.sync.suppress = c.sync.size ∧ c.syncStep.sync.size = c.sync.size) ∧
    (c.syncAmount = 0 →
      c.syncStep.bufferLocal = c.bufferLocal ∧ c.syncStep.bufferRemote = c.bufferRemote ∧
      c.syncStep.sync = c.sync.add (c.remoteSamples - c.localSamples)) := by
  have hL := Call.bufferLocal_syncStep c
  have hR := Call.bufferRemote_syncStep c
  have hS := Call.sync_syncStep c
  refine ⟨?_, ?_, ?_⟩
  · intro hpos
    rw [if_pos hpos] at hL
    rw [if_neg (by omega)] at hR
    rw [if_pos (by omega)] at hS
    have hz : (c.syncAmount * 2).toNat = 2 * c.syncAmount.toNat := by omega
    refine ⟨by rw [hL, zeroBytes, hz], hR, ?_, by rw [hS]; rfl, by rw [hS]; rfl⟩
    unfold Call.localSamples Call.remoteSamples
    rw [hL, hR, List.length_append, zeroBytes, List.length_replicate,
      Call.tdiv_two_add _ _ (le_of_lt hpos)]
    ring
  · intro hneg
    rw [if_neg (by omega)] at hL
    rw [if_pos hneg] at hR
    rw [if_pos (by omega)] at hS
    have hz : (c.syncAmount * -2).toNat = 2 * (-c.syncAmount).toNat := by omega
    have hz2 : c.syncAmount * -2 = (-c.syncAmount) * 2 := by ring
    refine ⟨by rw [hR, zeroBytes, hz], hL, ?_, by rw [hS]; rfl, by rw [hS]; rfl⟩
    unfold Call.localSamples Call.remoteSamples
    rw [hL, hR, List.length_append, zeroBytes, List.length_replicate, hz2,
      Call.tdiv_two_add _ _ (by omega)]
    ring
  · intro h0
    rw [h0, if_neg (by decide)] at hL hR
    rw [if_neg (by simp [h0])] at hS
    exact ⟨hL, hR, hS⟩

theorem syncStep_correction_witness :
    (0 < driftingCall.syncAmount ∧
      driftingCall.syncStep.bufferLocal =
        driftingCall.bufferLocal ++ List.replicate (2 * driftingCall.syncAmount.toNat) 0) ∧
    (laggingCall.syncAmount < 0 ∧
      laggingCall.syncStep.bufferRemote =
        laggingCall.bufferRemote ++ List.replicate (2 * (-laggingCall.syncAmount).toNat) 0) ∧
    ((Call.withBytes 10 20).syncAmount = 0 ∧
      (Call.withBytes 10 20).syncStep.bufferLocal = (Call.withBytes 10 20).bufferLocal) :=
  ⟨⟨by rw [driftingCall_syncAmount]; decide,
      ((syncStep_correction driftingCall).1 (by rw [driftingCall_syncAmount]; decide)).1⟩,
    ⟨by rw [laggingCall_syncAmount]; decide,
      ((syncStep_correction laggingCall).2.1 (by rw [laggingCall_syncAmount]; decide)).1⟩,
    ⟨Call.syncAmount_withBytes 10 20,
      ((syncStep_correction (Call.withBytes 10 20)).2.2 (Call.syncAmount_withBytes 10 20)).1⟩⟩

/-! ## Writing: flush and batches -/

theorem length_foldl_writeSample (g : Buffer → Nat → Int) (l : List Nat) (b : Buffer) :
    (l.foldl (fun b i => writeSample b i (g b i)) b).length = b.length := by
  induction l generalizing b with
  | nil => rfl
  | cons i l ih =>
    rw [List.foldl_cons, ih, length_writeSample]

theorem length_foldl_mixToStereoStep (fl fr : Int) (l : List Nat) (ab : Buffer × Buffer) :
    (l.foldl (Call.mixToStereoStep fl fr) ab).1.length = ab.1.length ∧
    (l.foldl (Call.mixToStereoStep fl fr) ab).2.length = ab.2.length := by
  induction l generalizing ab with
  | nil => exact ⟨rfl, rfl⟩
  | cons i l ih =>
    rw [List.foldl_cons]
    obtain ⟨h1, h2⟩ := ih (Call.mixToStereoStep fl fr ab i)
    rw [h1, h2]
    simp only [Call.mixToStereoStep, length_writeSample, and_self]

namespace Call

theorem length_mixToMono (c : Call) (n : Int) :
    (c.mixToMono n).bufferLocal.length = c.bufferLocal.length ∧
    (c.mixToMono n).bufferRemote = c.bufferRemote := by
  unfold mixToMono
  exact ⟨length_foldl_writeSample
    (fun b i => toInt16 (Int.tdiv (readSample b i + readSample c.bufferRemote i) 2)) _ _, rfl⟩

theorem length_mixToStereo (c : Call) (n pan : Int) :
    (c.mixToStereo n pan).bufferLocal.length = c.bufferLocal.length ∧
    (c.mixToStereo n pan).bufferRemote.length = c.bufferRemote.length := by
  unfold mixToStereo
  exact length_foldl_mixToStereoStep _ _ _ _

/-- The one event of the write dispatch is the call of `write` with the given
number of samples. -/
theorem log_writeDispatch (w : AudioWriter) (n : Int) (f : Bool) (c : Call) :
    ∃ a b, (c.writeDispatch w n f).1.log = c.log ++ [Event.writerWrite a b n f] ∧
      a.length = c.bufferLocal.length ∨
      (c.writeDispatch w n f).1.log = c.log ++ [Event.writerWrite a b n f] ∧
      a.length = c.bufferRemote.length := by
  unfold writeDispatch
  split
  · exact ⟨_, _, Or.inl ⟨rfl, (length_mixToMono c n).1⟩⟩
  · split
    · exact ⟨_, _, Or.inl ⟨rfl, rfl⟩⟩
    · split
      · exact ⟨_, _, Or.inr ⟨rfl, rfl⟩⟩
      · exact ⟨_, _, Or.inl ⟨rfl, (length_mixToStereo c n c.stereoMix).1⟩⟩

theorem log_writeSamples (w : AudioWriter) (n : Int) (f : Bool) (c : Call) :
    ∃ a b rest, (c.writeSamples w n f).log = c.log ++ Event.writerWrite a b n f :: rest ∧
      ∀ e ∈ rest, e.isWrite = false := by
  obtain ⟨a, b, hab⟩ := log_writeDispatch w n f c
  have hlog : (c.writeDispatch w n f).1.log = c.log ++ [Event.writerWrite a b n f] := by
    rcases hab with h | h <;> exact h.1
  unfold writeSamples
  simp only
  split
  · unfold stopRecordingNoFlush
    split
    · refine ⟨a, b, [Event.errorBox], ?_, ?_⟩
      · simp only [emit, hlog, List.append_assoc, List.singleton_append]
      · intro e he
        rw [List.mem_singleton.mp he]; rfl
    · refine ⟨a, b, [Event.errorBox, Event.debugStopRecording, Event.writerClose,
        Event.writerDelete, Event.closeSockets,
        Event.stoppedRecording ((c.writeDispatch w n f).1.emit Event.errorBox).id], ?_, ?_⟩
      · simp only [emit, hlog, List.append_assoc, List.singleton_append, List.cons_append,
          List.nil_append]
      · intro e he
        simp only [List.mem_cons, List.mem_singleton, List.not_mem_nil, or_false] at he
        rcases he with rfl | rfl | rfl | rfl | rfl | rfl <;> rfl
  · exact ⟨a, b, [], hlog, fun _ he => absurd he (List.not_mem_nil _)⟩

/-- What an encoder that consumes the samples it is handed leaves of the
buffers. -/
theorem writeSamples_consuming (w : AudioWriter) (n : Int) (f : Bool) (c : Call)
    (hw : ∀ a b k g, (w a b k g).success = true ∧ (w a b k g).chanA = a.drop (k * 2).toNat ∧
      (w a b k g).chanB = b.drop (k * 2).toNat) :
    (c.writeSamples w n f).bufferLocal.length = c.bufferLocal.length - (n * 2).toNat ∧
    (c.writeSamples w n f).bufferRemote.length = c.bufferRemote.length - (n * 2).toNat ∧
    (c.writeSamples w n f).isRecording = c.isRecording ∧
    c.writeSamples w n f = (c.writeDispatch w n f).1 := by
  have hsucc : (c.writeDispatch w n f).2 = true := by
    unfold writeDispatch
    split
    · exact (hw _ _ _ _).1
    · split
      · exact (hw _ _ _ _).1
      · split
        · exact (hw _ _ _ _).1
        · exact (hw _ _ _ _).1
  have heq : c.writeSamples w n f = (c.writeDispatch w n f).1 := by
    unfold writeSamples
    simp only [hsucc, Bool.not_true, Bool.false_eq_true, if_false]
  rw [heq]
  refine ⟨?_, ?_, ?_, rfl⟩
  · unfold writeDispatch
    split
    · simp only [(hw _ _ _ _).2.1, List.length_drop, (length_mixToMono c n).1]
    · split
      · simp only [(hw _ _ _ _).2.1, List.length_drop]
      · split
        · simp only [(hw _ _ _ _).2.2, List.length_drop]
        · simp only [(hw _ _ _ _).2.1, List.length_drop, (length_mixToStereo c n c.stereoMix).1]
  · unfold writeDispatch
    split
    · simp only [List.length_drop, (length_mixToMono c n).2]
    · split
      · simp only [(hw _ _ _ _).2.2, List.length_drop]
      · split
        · simp only [(hw _ _ _ _).2.1, List.length_drop]
        · simp only [(hw _ _ _ _).2.2, List.length_drop, (length_mixToStereo c n c.stereoMix).2]
  · unfold writeDispatch
    split
    · rfl
    · split
      · rfl
      · split <;> rfl

theorem logAdds_doSync (c : Call) (s : Int) :
    LogAdds (fun e => e.isWrite = false) c (c.doSync s) := by
  unfold doSync
  split
  · exact ⟨[Event.debugPadLocal s], rfl, fun e he => by rw [List.mem_singleton.mp he]; rfl⟩
  · exact ⟨[Event.debugPadRemote (-s)], rfl, fun e he => by rw [List.mem_singleton.mp he]; rfl⟩

theorem logAdds_syncStep (c : Call) : LogAdds (fun e => e.isWrite = false) c c.syncStep := by
  have h2 := logAdds_doSync ({ c with sync := c.sync.add (c.remoteSamples - c.localSamples) }
    : Call) c.syncAmount
  have h1 : LogAdds (fun e => e.isWrite = false) c
      ({ c with sync := c.sync.add (c.remoteSamples - c.localSamples) } : Call) :=
    LogAdds.nothing _ c
  unfold syncStep
  simp only
  split
  · have h3 : LogAdds (fun e => e.isWrite = false) c
        ({ (({ c with sync := c.sync.add (c.remoteSamples - c.localSamples) } : Call).doSync
            c.syncAmount) with
          sync := (({ c with sync := c.sync.add (c.remoteSamples - c.localSamples) }
            : Call).doSync c.syncAmount).sync.reset } : Call) := h2
    split
    · exact h3.followedBy (logAdds_emit _ _ _ rfl)
    · exact h3
  · split
    · exact h1.followedBy (logAdds_emit _ _ _ rfl)
    · exact h1

theorem buffers_le_syncStep (c : Call) :
    c.bufferLocal <+: c.syncStep.bufferLocal ∧ c.bufferRemote <+: c.syncStep.bufferRemote := by
  rw [bufferLocal_syncStep, bufferRemote_syncStep]
  constructor
  · split
    · exact List.prefix_append _ _
    · exact List.prefix_refl _
  · split
    · exact List.prefix_append _ _
    · exact List.prefix_refl _

end Call

/-- C19 (as stated) fails: with 3 bytes in the local and 1 byte in the remote
buffer, a flush pads the remote buffer to 3 bytes and writes one sample; an
encoder that consumes exactly that sample from each buffer leaves one byte in
both buffers. -/
theorem flush_leaves_byte :
    ((Call.withBytes 3 1).tryToWrite 16000 consumingWriter true).bufferLocal.length = 1 ∧
    ((Call.withBytes 3 1).tryToWrite 16000 consumingWriter true).bufferRemote.length = 1 := by
  decide

/-- C19 (amended): for any byte lengths `l`, `r` of the two buffers and any
channel configuration, `tryToWrite(true)` with an encoder whose `write`
succeeds and consumes exactly the samples it is handed calls `write` once, for
the `max(l, r) / 2` whole samples of the equalized length, and leaves
`max(l, r) mod 2` bytes in each buffer: both buffers are empty exactly when the
equalized length is even. -/
theorem flush_drains_whole_samples (rate : Int) (w : AudioWriter) (c : Call)
    (hw : ∀ a b k g, (w a b k g).success = true ∧ (w a b k g).chanA = a.drop (k * 2).toNat ∧
      (w a b k g).chanB = b.drop (k * 2).toNat) :
    (c.tryToWrite rate w true).bufferLocal.length =
      max c.bufferLocal.length c.bufferRemote.length % 2 ∧
    (c.tryToWrite rate w true).bufferRemote.length =
      max c.bufferLocal.length c.bufferRemote.length % 2 ∧
    (max c.bufferLocal.length c.bufferRemote.length % 2 = 0 →
      (c.tryToWrite rate w true).bufferLocal = [] ∧
      (c.tryToWrite rate w true).bufferRemote = []) ∧
    (∃ a b, (c.tryToWrite rate w true).log = c.padBuffers.1.log ++
      [Event.writerWrite a b
        ((max c.bufferLocal.length c.bufferRemote.length / 2 : Nat) : Int) true] ∧
      a.length = max c.bufferLocal.length c.bufferRemote.length) ∧
    (c.tryToWrite rate w true).isRecording = c.isRecording := by
  obtain ⟨p1, p2, p3⟩ := Call.padBuffers_buffers c
  have hlen1 : c.padBuffers.1.bufferLocal.length
      = max c.bufferLocal.length c.bufferRemote.length := by
    rw [p1, List.length_append, List.length_replicate]; omega
  have hlen2 : c.padBuffers.1.bufferRemote.length
      = max c.bufferLocal.length c.bufferRemote.length := by
    rw [p2, List.length_append, List.length_replicate]; omega
  have heq : c.tryToWrite rate w true = c.padBuffers.1.writeSamples w c.padBuffers.2 true := by
    unfold Call.tryToWrite
    simp only [if_true]
  obtain ⟨k1, k2, k3, k4⟩ := Call.writeSamples_consuming w c.padBuffers.2 true c.padBuffers.1 hw
  have hrecP : c.padBuffers.1.isRecording = c.isRecording := by
    unfold Call.padBuffers
    simp only
    split
    · rfl
    · split <;> rfl
  rw [heq]
  have hn : (c.padBuffers.2 * 2).toNat
      = 2 * (max c.bufferLocal.length c.bufferRemote.length / 2) := by
    rw [p3]; omega
  rw [hlen1, hn] at k1
  rw [hlen2, hn] at k2
  have hL : (c.padBuffers.1.writeSamples w c.padBuffers.2 true).bufferLocal.length =
      max c.bufferLocal.length c.bufferRemote.length % 2 := by
    rw [k1]; omega
  have hR : (c.padBuffers.1.writeSamples w c.padBuffers.2 true).bufferRemote.length =
      max c.bufferLocal.length c.bufferRemote.length % 2 := by
    rw [k2]; omega
  refine ⟨hL, hR, ?_, ?_, by rw [k3, hrecP]⟩
  · intro heven
    rw [heven] at hL hR
    exact ⟨List.length_eq_zero.mp hL, List.length_eq_zero.mp hR⟩
  · rw [k4, p3]
    obtain ⟨a, b, hab⟩ := Call.log_writeDispatch w
      ((max c.bufferLocal.length c.bufferRemote.length / 2 : Nat) : Int) true c.padBuffers.1
    rcases hab with h | h
    · exact ⟨a, b, h.1, by rw [h.2, hlen1]⟩
    · exact ⟨a, b, h.1, by rw [h.2, hlen2]⟩

theorem flush_drains_whole_samples_witness :
    (∀ a b k g, (consumingWriter a b k g).success = true ∧
      (consumingWriter a b k g).chanA = a.drop (k * 2).toNat ∧
      (consumingWriter a b k g).chanB = b.drop (k * 2).toNat) ∧
    max (Call.withBytes 1000 1200).bufferLocal.length
      (Call.withBytes 1000 1200).bufferRemote.length % 2 = 0 ∧
    ((Call.withBytes 1000 1200).tryToWrite 16000 consumingWriter true).bufferLocal = [] ∧
    ((Call.withBytes 1000 1200).tryToWrite 16000 consumingWriter true).bufferRemote = [] :=
  have hw : ∀ a b k g, (consumingWriter a b k g).success = true ∧
      (consumingWriter a b k g).chanA = a.drop (k * 2).toNat ∧
      (consumingWriter a b k g).chanB = b.drop (k * 2).toNat :=
    fun _ _ _ _ => ⟨rfl, rfl, rfl⟩
  have hev : max (Call.withBytes 1000 1200).bufferLocal.length
      (Call.withBytes 1000 1200).bufferRemote.length % 2 = 0 := by
    rw [(Call.length_withBytes 1000 1200).1, (Call.length_withBytes 1000 1200).2]
    decide
  ⟨hw, hev,
    (flush_drains_whole_samples 16000 consumingWriter (Call.withBytes 1000 1200) hw).2.2.1 hev⟩

/-- C20: in a non-flush `tryToWrite` whose imbalance after the drift
correction does not exceed 20 seconds of samples, when `min(l, r)` is below
`skypeSamplingRate / 10` samples the call ends after the correction step: the
encoder's `write` is not called, nothing is mixed, and the previous contents
of both buffers are still there as a prefix; otherwise `write` is called once,
with exactly `min(l, r)` samples. -/
theorem tryToWrite_batch (rate : Int) (w : AudioWriter) (c : Call)
    (hns : ¬ |c.syncStep.remoteSamples - c.syncStep.localSamples| > rate * 20) :
    (min c.syncStep.localSamples c.syncStep.remoteSamples < Int.tdiv rate 10 →
      c.tryToWrite rate w false = c.syncStep ∧
      c.bufferLocal <+: (c.tryToWrite rate w false).bufferLocal ∧
      c.bufferRemote <+: (c.tryToWrite rate w false).bufferRemote ∧
      ∃ evs, (c.tryToWrite rate w false).log = c.log ++ evs ∧ ∀ e ∈ evs, e.isWrite = false) ∧
    (¬ min c.syncStep.localSamples c.syncStep.remoteSamples < Int.tdiv rate 10 →
      ∃ evs a b rest, c.syncStep.log = c.log ++ evs ∧ (∀ e ∈ evs, e.isWrite = false) ∧
        (c.tryToWrite rate w false).log = c.syncStep.log ++
          Event.writerWrite a b (min c.syncStep.localSamples c.syncStep.remoteSamples) false
            :: rest ∧
        ∀ e ∈ rest, e.isWrite = false) := by
  have heq := Call.tryToWrite_ordinary rate w c hns
  obtain ⟨evs, hl, hp⟩ := Call.logAdds_syncStep c
  constructor
  · intro hsmall
    rw [if_pos hsmall] at heq
    rw [heq]
    exact ⟨rfl, (Call.buffers_le_syncStep c).1, (Call.buffers_le_syncStep c).2, evs, hl, hp⟩
  · intro hbig
    rw [if_neg hbig] at heq
    obtain ⟨a, b, rest, hlog, hrest⟩ := Call.log_writeSamples w
      (min c.syncStep.localSamples c.syncStep.remoteSamples) false c.syncStep
    exact ⟨evs, a, b, rest, hl, hp, by rw [heq, hlog], hrest⟩

theorem tryToWrite_batch_witness :
    (¬ |(Call.withBytes 100 3000).syncStep.remoteSamples
        - (Call.withBytes 100 3000).syncStep.localSamples| > (16000 : Int) * 20) ∧
    min (Call.withBytes 100 3000).syncStep.localSamples
      (Call.withBytes 100 3000).syncStep.remoteSamples < Int.tdiv 16000 10 ∧
    (Call.withBytes 100 3000).tryToWrite 16000 consumingWriter false
      = (Call.withBytes 100 3000).syncStep := by
  have hz := Call.syncAmount_withBytes 100 3000
  have hl : (Call.withBytes 100 3000).syncStep.localSamples = 50 := by
    unfold Call.localSamples
    rw [Call.bufferLocal_syncStep, hz, if_neg (by decide), (Call.length_withBytes 100 3000).1]
    decide
  have hr : (Call.withBytes 100 3000).syncStep.remoteSamples = 1500 := by
    unfold Call.remoteSamples
    rw [Call.bufferRemote_syncStep, hz, if_neg (by decide), (Call.length_withBytes 100 3000).2]
    decide
  have h1 : ¬ |(Call.withBytes 100 3000).syncStep.remoteSamples
      - (Call.withBytes 100 3000).syncStep.localSamples| > (16000 : Int) * 20 := by
    rw [hl, hr]; decide
  have h2 : min (Call.withBytes 100 3000).syncStep.localSamples
      (Call.withBytes 100 3000).syncStep.remoteSamples < Int.tdiv 16000 10 := by
    rw [hl, hr]; decide
  exact ⟨h1, h2, ((tryToWrite_batch 16000 consumingWriter (Call.withBytes 100 3000) h1).1 h2).1⟩

/-! ## The running totals of the estimator -/

namespace AutoSync

theorem WF_applyAll (ops : List Op) (a : AutoSync) (h : a.WF) : (a.applyAll ops).WF := by
  induction ops generalizing a with
  | nil => exact h
  | cons op ops ih =>
    cases op with
    | add d => exact ih (a.add d) (WF_add a d h)
    | reset => exact ih a.reset (WF_reset a h)

theorem size_applyAll (ops : List Op) (a : AutoSync) : (a.applyAll ops).size = a.size := by
  induction ops generalizing a with
  | nil => rfl
  | cons op ops ih =>
    cases op with
    | add d => exact (ih (a.add d)).trans (size_add a d)
    | reset => exact ih a.reset

/-- For a consistent window the squared sum is at most `size` times the sum of
squares. -/
theorem sum_sq_le (a : AutoSync) (h : a.WF) : a.sum * a.sum ≤ a.size * a.sum2 := by
  have hrad := radicandExact_eq_popVariance a h
  have hnn : 0 ≤ a.radicandExact := by rw [hrad]; exact popVariance_nonneg _
  obtain ⟨_, hpos, _, _, _, _⟩ := h
  have hN : (0 : ℚ) < (a.size : ℚ) := by exact_mod_cast hpos
  unfold radicandExact at hnn
  have h1 : 0 ≤ (a.sum2 : ℚ) - (a.sum : ℚ) * (a.sum : ℚ) / (a.size : ℚ) := by
    by_contra hneg
    have := div_neg_of_neg_of_pos (not_le.mp hneg) hN
    linarith
  have h2 : (a.sum : ℚ) * (a.sum : ℚ) / (a.size : ℚ) ≤ (a.sum2 : ℚ) := by linarith
  rw [div_le_iff₀ hN] at h2
  have h3 : ((a.sum * a.sum : Int) : ℚ) ≤ ((a.size * a.sum2 : Int) : ℚ) := by
    push_cast
    linarith
  exact_mod_cast h3

end AutoSync

/-- C21: for an estimator constructed with window size `N ≥ 1`, after every
sequence of `add` and `reset` calls the window has `N` entries, `sum` is their
sum, `sum2` the sum of their squares, the write position is below `N`, and
therefore `N * sum2 ≥ sum * sum`: the quantity under the square root of
`getSync` is never negative in exact arithmetic. -/
theorem running_totals (N : Nat) (hN : 1 ≤ N) (p : Int) (ops : List AutoSync.Op) :
    ((AutoSync.create N p).applyAll ops).size = N ∧
    ((AutoSync.create N p).applyAll ops).delays.length = N ∧
    ((AutoSync.create N p).applyAll ops).sum = ((AutoSync.create N p).applyAll ops).delays.sum ∧
    ((AutoSync.create N p).applyAll ops).sum2 =
      (((AutoSync.create N p).applyAll ops).delays.map (fun x => x * x)).sum ∧
    ((AutoSync.create N p).applyAll ops).index < N ∧
    ((AutoSync.create N p).applyAll ops).sum * ((AutoSync.create N p).applyAll ops).sum ≤
      (N : Int) * ((AutoSync.create N p).applyAll ops).sum2 ∧
    (0 : ℚ) ≤ (((AutoSync.create N p).applyAll ops).sum2 : ℚ)
      - (((AutoSync.create N p).applyAll ops).sum : ℚ)
        * (((AutoSync.create N p).applyAll ops).sum : ℚ) / (N : ℚ) ∧
    0 ≤ ((AutoSync.create N p).applyAll ops).radicandExact := by
  have hwf := AutoSync.WF_applyAll ops _ (AutoSync.WF_create N p hN)
  have hsz : ((AutoSync.create N p).applyAll ops).size = N := AutoSync.size_applyAll ops _
  have hle := AutoSync.sum_sq_le _ hwf
  have hrad := AutoSync.radicandExact_eq_popVariance _ hwf
  generalize (AutoSync.create N p).applyAll ops = a at hwf hsz hle hrad
  obtain ⟨hlen, hpos, hidx, hsum, hsum2, _⟩ := hwf
  rw [hsz] at hlen hidx hle
  have hNq : (0 : ℚ) < (N : ℚ) := by exact_mod_cast hN
  refine ⟨hsz, hlen, hsum, hsum2, hidx, hle, ?_, ?_⟩
  · have h3 : ((a.sum * a.sum : Int) : ℚ) ≤ (((N : Int) * a.sum2 : Int) : ℚ) := by
      exact_mod_cast hle
    push_cast at h3
    have h4 : (a.sum : ℚ) * (a.sum : ℚ) / (N : ℚ) ≤ (a.sum2 : ℚ) := by
      rw [div_le_iff₀ hNq]; linarith
    linarith
  · rw [hrad]; exact AutoSync.popVariance_nonneg _

theorem running_totals_witness :
    1 ≤ 3 ∧
    ((AutoSync.create 3 1).applyAll
      [AutoSync.Op.add 5, AutoSync.Op.add (-2), AutoSync.Op.reset, AutoSync.Op.add 7,
        AutoSync.Op.add 1]).delays = [1, -2, 7] ∧
    ((AutoSync.create 3 1).applyAll
      [AutoSync.Op.add 5, AutoSync.Op.add (-2), AutoSync.Op.reset, AutoSync.Op.add 7,
        AutoSync.Op.add 1]).sum = 6 ∧
    ((AutoSync.create 3 1).applyAll
      [AutoSync.Op.add 5, AutoSync.Op.add (-2), AutoSync.Op.reset, AutoSync.Op.add 7,
        AutoSync.Op.add 1]).sum *
      ((AutoSync.create 3 1).applyAll
        [AutoSync.Op.add 5, AutoSync.Op.add (-2), AutoSync.Op.reset, AutoSync.Op.add 7,
          AutoSync.Op.add 1]).sum ≤
      ((3 : Nat) : Int) * ((AutoSync.create 3 1).applyAll
        [AutoSync.Op.add 5, AutoSync.Op.add (-2), AutoSync.Op.reset, AutoSync.Op.add 7,
          AutoSync.Op.add 1]).sum2 :=
  ⟨by decide, by decide, by decide,
    (running_totals 3 (by decide) 1
      [AutoSync.Op.add 5, AutoSync.Op.add (-2), AutoSync.Op.reset, AutoSync.Op.add 7,
        AutoSync.Op.add 1]).2.2.2.2.2.1⟩

